import Mathlib

/-!
Verification development for the squirrel ledger core
(src-tauri/src/ledger_parser.rs, generated_store.rs, generated_ledger.rs).

Text is modelled at character level: a Rust string is a `List Char`
(byte offsets and char offsets agree on the ASCII inputs the grammar is
about).  Floating point amounts (`f64`) are modelled exactly as scaled
decimals `num / 10 ^ exp`; the claims under study depend only on amount
text and on how amounts are accumulated, never on float rounding.
The filesystem owned by the generated store is a finite map from path
strings to file contents; the JSON side files (seen transaction ids,
source registry) are out-of-scope serialization mechanics and are held
structurally in the store state.  The time and process-id based
identifier generator is an explicit oracle parameter.
-/

namespace Squirrel

abbrev Str := List Char

/-- Shorthand turning a Lean string literal into the character-list model. -/
def S (s : String) : Str := s.toList

/-- ASCII whitespace recognised by the Rust trimming and splitting helpers. -/
def isWs (c : Char) : Bool :=
  c == ' ' || c == '\t' || c == '\n' || c == '\r' || c == '\x0B' || c == '\x0C'

def isSpaceTab (c : Char) : Bool := c == ' ' || c == '\t'

/-- Rust str::trim_start. -/
def trimStart (s : Str) : Str := s.dropWhile isWs

/-- Rust str::trim_end. -/
def trimEnd (s : Str) : Str := (s.reverse.dropWhile isWs).reverse

/-- Rust str::trim. -/
def trim (s : Str) : Str := trimEnd (trimStart s)

/-- ledger_parser.rs is_blank: the trimmed line is empty. -/
def is_blank (s : Str) : Bool := (trim s).isEmpty

/-- ledger_parser.rs is_directive: after stripping leading spaces and tabs
the line starts with a semicolon. -/
def is_directive (s : Str) : Bool :=
  match s.dropWhile isSpaceTab with
  | c :: _ => c == ';'
  | [] => false

/-- Rust str::trim_end_matches applied to carriage returns. -/
def trimEndCR (s : Str) : Str := (s.reverse.dropWhile (· == '\r')).reverse

/-- Split on a separator character, keeping empty pieces
(Rust str::split semantics). -/
def splitOnC (sep : Char) : Str → List Str
  | [] => [[]]
  | c :: rest =>
    let r := splitOnC sep rest
    if c = sep then [] :: r
    else
      match r with
      | l :: ls => (c :: l) :: ls
      | [] => [[c]]

/-- Rust str::lines: split on newline, the final line ending being optional.
Trailing carriage returns are stripped later by the callers, which all trim
them (ledger_parser trims each line, parse_yyyymm trims fully). -/
def rustLines (s : Str) : List Str :=
  if s = [] then []
  else
    let parts := splitOnC '\n' s
    if parts.getLast? = some [] then parts.dropLast else parts

/-- Rust str::split_whitespace. -/
def splitWhitespace : Str → List Str
  | [] => []
  | c :: rest =>
    if isWs c then splitWhitespace rest
    else
      match splitWhitespace rest with
      | [] => [[c]]
      | t :: ts =>
        match rest with
        | [] => [[c]]
        | d :: _ => if isWs d then [c] :: t :: ts else (c :: t) :: ts

/-- Rust slice join with a single-character separator. -/
def joinSep (sep : Char) : List Str → Str
  | [] => []
  | [x] => x
  | x :: y :: ys => x ++ sep :: joinSep sep (y :: ys)

/-- Split at the first semicolon (Rust str::split_once). -/
def splitOnceSemi : Str → Option (Str × Str)
  | [] => none
  | c :: rest =>
    if c = ';' then some ([], rest)
    else
      match splitOnceSemi rest with
      | some (l, r) => some (c :: l, r)
      | none => none

/-- The part of a line before its first semicolon (the whole line when
there is none). -/
def beforeMeta (s : Str) : Str :=
  match splitOnceSemi s with
  | some (l, _) => l
  | none => s

/-- Character class of the account regex [A-Za-z0-9_.-]. -/
def isAcctChar (c : Char) : Bool :=
  c.isAlpha || c.isDigit || c == '_' || c == '.' || c == '-'

/-- account_re: two or more colon separated segments of account characters. -/
def account_re (s : Str) : Bool :=
  let segs := splitOnC ':' s
  decide (2 ≤ segs.length) && segs.all (fun seg => !seg.isEmpty && seg.all isAcctChar)

/-- The optional leading sign of the amount grammar. -/
def stripSign (s : Str) : Str :=
  match s with
  | c :: rest => if c = '+' ∨ c = '-' then rest else s
  | [] => s

/-- Digits then an optional dot and fraction digits. -/
def digitsThenOptFrac (body : Str) : Bool :=
  let intPart := body.takeWhile Char.isDigit
  let rest := body.dropWhile Char.isDigit
  match rest with
  | [] => !intPart.isEmpty
  | c :: frac => c == '.' && (!intPart.isEmpty && (!frac.isEmpty && frac.all Char.isDigit))

/-- amount_re: optional sign, digits, optional dot and fraction digits. -/
def amount_re (s : Str) : Bool := digitsThenOptFrac (stripSign s)

/-- commodity_re: a letter or underscore then letters, digits, underscores. -/
def commodity_re (s : Str) : Bool :=
  match s with
  | [] => false
  | c :: rest => (c.isAlpha || c == '_') && rest.all (fun d => d.isAlpha || d.isDigit || d == '_')

/-- Exact model of an f64 ledger amount: the value num / 10 ^ exp. -/
structure Amount where
  num : Int
  exp : Nat
deriving DecidableEq, Repr

def Amount.zero : Amount := ⟨0, 0⟩

/-- Exact addition of scaled decimals (models f64 addition of ledger
amounts, which the claims never distinguish from exact arithmetic). -/
def Amount.add (a b : Amount) : Amount :=
  if a.exp ≤ b.exp then ⟨a.num * ((10 : Nat) ^ (b.exp - a.exp) : Nat) + b.num, b.exp⟩
  else ⟨a.num + b.num * ((10 : Nat) ^ (a.exp - b.exp) : Nat), a.exp⟩

def digitsToNat (ds : Str) : Nat :=
  ds.foldl (fun n c => n * 10 + (c.toNat - '0'.toNat)) 0

/-- Model of Rust str::parse into f64 with unwrap_or(0.0), restricted to the
plain decimal forms the grammar deals in; anything else collapses to zero. -/
def parseDecimal (s : Str) : Amount :=
  let sign : Int :=
    match s with
    | c :: _ => if c = '-' then -1 else 1
    | [] => 1
  let body := stripSign s
  let intPart := body.takeWhile Char.isDigit
  let rest := body.dropWhile Char.isDigit
  match rest with
  | [] =>
    if intPart.isEmpty then Amount.zero
    else ⟨sign * digitsToNat intPart, 0⟩
  | c :: frac =>
    if c = '.' ∧ !intPart.isEmpty ∧ !frac.isEmpty ∧ frac.all Char.isDigit then
      ⟨sign * digitsToNat (intPart ++ frac), frac.length⟩
    else Amount.zero

structure Diagnostic where
  line : Nat
  column : Nat
  message : String
deriving DecidableEq, Repr

structure Posting where
  account : Str
  amount : Amount
  amount_text : Str
  commodity : Str
  remainder : Option Str
deriving DecidableEq, Repr

structure Transaction where
  date : Str
  datetime : Str
  status : Option Char
  payee : Option Str
  narration : Option Str
  meta : Option Str
  postings : List Posting
deriving DecidableEq, Repr

structure CommodityAmount where
  commodity : Str
  amount : Amount
deriving DecidableEq, Repr

structure AccountBalance where
  account : Str
  totals : List CommodityAmount
deriving DecidableEq, Repr

structure ParseResult where
  ok : Bool
  diagnostics : List Diagnostic
  transactions : List Transaction
  balances : List AccountBalance
deriving DecidableEq, Repr

structure AccountDeclaration where
  account : Str
  default_commodity : Option Str
  opening : Option CommodityAmount
deriving DecidableEq, Repr

/-- Match exactly n digits at the front, returning them and the rest. -/
def takeDigits (n : Nat) (s : Str) : Option (Str × Str) :=
  let pre := s.take n
  if pre.length = n ∧ pre.all Char.isDigit then some (pre, s.drop n) else none

def matchChar (c : Char) : Str → Option Str
  | x :: rest => if x = c then some rest else none
  | [] => none

/-- The date part of header_datetime_re: four digits, dash, two, dash, two. -/
def matchDate (s : Str) : Option (Str × Str) :=
  match takeDigits 4 s with
  | none => none
  | some (y, s1) =>
    match matchChar '-' s1 with
    | none => none
    | some s2 =>
      match takeDigits 2 s2 with
      | none => none
      | some (mo, s3) =>
        match matchChar '-' s3 with
        | none => none
        | some s4 =>
          match takeDigits 2 s4 with
          | none => none
          | some (d, s5) => some (y ++ '-' :: mo ++ '-' :: d, s5)

/-- Optional fractional seconds: a dot and one to six digits.  With seven or
more digits the regex cannot complete a match on any backtracking choice, so
taking six deterministically reproduces it. -/
def matchFrac (s : Str) : Str × Str :=
  match s with
  | '.' :: rest =>
    let ds := rest.takeWhile Char.isDigit
    if ds.isEmpty then ([], s)
    else ('.' :: ds.take 6, rest.drop (min ds.length 6))
  | _ => ([], s)

/-- Optional timezone: Z or a sign and hh:mm. -/
def matchTz (s : Str) : Str × Str :=
  match s with
  | 'Z' :: rest => (['Z'], rest)
  | c :: a :: b :: ':' :: d :: e :: rest =>
    if (c = '+' ∨ c = '-') ∧ a.isDigit ∧ b.isDigit ∧ d.isDigit ∧ e.isDigit then
      ([c, a, b, ':', d, e], rest)
    else ([], s)
  | _ => ([], s)

/-- The time part of header_datetime_re: T hh:mm:ss with optional fraction
and timezone. -/
def matchTime (s : Str) : Option (Str × Str) :=
  match matchChar 'T' s with
  | none => none
  | some s0 =>
    match takeDigits 2 s0 with
    | none => none
    | some (h, s1) =>
      match matchChar ':' s1 with
      | none => none
      | some s2 =>
        match takeDigits 2 s2 with
        | none => none
        | some (mi, s3) =>
          match matchChar ':' s3 with
          | none => none
          | some s4 =>
            match takeDigits 2 s4 with
            | none => none
            | some (se, s5) =>
              let (fr, s6) := matchFrac s5
              let (tz, s7) := matchTz s6
              some ('T' :: h ++ ':' :: mi ++ ':' :: se ++ fr ++ tz, s7)

/-- header_datetime_re, anchored at the line start: date, optional time,
then one or more whitespace characters (consumed greedily).  Returns the
date text, the time text and the length of the whole match. -/
def headerMatch (line : Str) : Option (Str × Str × Nat) :=
  match matchDate line with
  | none => none
  | some (date, s1) =>
    let (time, s2) :=
      match matchTime s1 with
      | some (t, r) => (t, r)
      | none => (([] : Str), s1)
    let ws := s2.takeWhile isWs
    if ws.isEmpty then none
    else some (date, time, date.length + time.length + ws.length)

/-- The UTF-8 byte values of one character (1 byte below U+0080, 2 below
U+0800, 3 below U+10000, 4 above). -/
def utf8Bytes (c : Char) : List Nat :=
  let n := c.toNat
  if n < 128 then [n]
  else if n < 2048 then [192 + n / 64, 128 + n % 64]
  else if n < 65536 then [224 + n / 4096, 128 + n / 64 % 64, 128 + n % 64]
  else [240 + n / 262144, 128 + n / 4096 % 64, 128 + n / 64 % 64, 128 + n % 64]

/-- The characters the quoted-token loop of take_token pushes for one
consumed input character: Rust iterates the BYTES of the slice and pushes
each one individually with `out.push(b as char)`, so a multi-byte
character contributes one output character per UTF-8 byte. -/
def charBytes (c : Char) : Str := (utf8Bytes c).map Char.ofNat

/-- Body of the quote-aware token loop of take_token: consumes until an
unescaped closing quote, unescaping backslash pairs; none on an
unterminated quote (a lone final backslash is pushed and the quote stays
unterminated, which the caller turns into the same raw-tail token).
The Rust loop walks bytes, not characters, pushing every consumed byte
with `b as char`; since the byte values of the backslash and the double
quote never occur inside a multi-byte UTF-8 sequence, its branch
decisions always fall on character boundaries, and the loop is modelled
character by character with each consumed character expanded into the
byte-characters the Rust code pushes (an escape consumes one byte — the
first byte of the following character — and the remaining continuation
bytes then fall through the plain-byte arm, so the whole character's
bytes are pushed either way). -/
def quotedLoop : Str → Str → Option (Str × Str)
  | [], _ => none
  | c :: rest, out =>
    if c = '\\' then
      match rest with
      | d :: rest2 => quotedLoop rest2 (out ++ charBytes d)
      | [] => none
    else if c = '"' then some (out, rest)
    else quotedLoop rest (out ++ charBytes c)

/-- ledger_parser.rs take_token. -/
def take_token (input : Str) : Option (Str × Str) :=
  match input.dropWhile isSpaceTab with
  | [] => none
  | c :: cs =>
    if c = '"' then
      match quotedLoop cs [] with
      | some (out, rest) => some (out, rest)
      | none => some (cs, [])
    else
      let tok := (c :: cs).takeWhile (fun d => !isSpaceTab d)
      some (tok, (c :: cs).drop tok.length)

/-- Fuel-bounded repetition of take_token; with fuel above the input length
it is the full tokenization loop of parse_header_fields (take_token always
consumes at least one character). -/
def tokenizeFuel : Nat → Str → List Str
  | 0, _ => []
  | fuel + 1, input =>
    match take_token input with
    | none => []
    | some (tok, rest) => tok :: tokenizeFuel fuel rest

/-- The token list the header-field loop of parse_header_fields collects. -/
def tokenize (s : Str) : List Str := tokenizeFuel (s.length + 1) s

/-- ledger_parser.rs parse_header_fields. -/
def parse_header_fields (s : Str) : Option Char × Option Str × Option Str :=
  let tokens := tokenize s
  let (status, idx) :=
    match tokens.head? with
    | some t =>
      if t = ['*'] then (some '*', 1)
      else if t = ['!'] then (some '!', 1)
      else ((none : Option Char), 0)
    | none => (none, 0)
  let payee := (tokens.drop idx).head?
  let narration :=
    match tokens.drop (idx + 1) with
    | [] => (none : Option Str)
    | [only] => some only
    | many => some (joinSep ' ' many)
  (status, payee, narration)

/-- Mutable traversal state of parse_transactions: accumulated diagnostics,
the open transaction and open account declaration (each tagged with its
header line number), and the finished records. -/
structure PState where
  diagnostics : List Diagnostic
  current : Option (Nat × Transaction)
  currentAccount : Option (Nat × AccountDeclaration)
  transactions : List Transaction
  accountDeclarations : List AccountDeclaration
deriving DecidableEq, Repr

def initState : PState := ⟨[], none, none, [], []⟩

def pushDiag (st : PState) (line column : Nat) (message : String) : PState :=
  { st with diagnostics := st.diagnostics ++ [⟨line, column, message⟩] }

/-- ledger_parser.rs flush_transaction. -/
def flush_transaction (st : PState) : PState :=
  match st.current with
  | none => st
  | some (headerLine, txn) =>
    { st with
      current := none
      diagnostics :=
        if txn.postings = [] then
          st.diagnostics ++ [⟨headerLine, 0, "transaction missing postings"⟩]
        else st.diagnostics
      transactions := st.transactions ++ [txn] }

/-- Taking and pushing the open account declaration, as done at blank lines,
entity starts and end of input. -/
def flushAccount (st : PState) : PState :=
  match st.currentAccount with
  | none => st
  | some (_, decl) =>
    { st with
      currentAccount := none
      accountDeclarations := st.accountDeclarations ++ [decl] }

def fourSpaces : Str := [' ', ' ', ' ', ' ']

def accountKw : Str := ['a', 'c', 'c', 'o', 'u', 'n', 't']

def openingKw : Str := ['o', 'p', 'e', 'n', 'i', 'n', 'g']

/-- The account-declaration branch of the parse loop (after both open
entities have been flushed). -/
def accountDeclLine (st : PState) (lineNo : Nat) (line : Str) : PState :=
  let parts := splitWhitespace (beforeMeta line)
  match parts with
  | [] => pushDiag st lineNo 0 "invalid line: expected transaction header, posting, or directive"
  | kw :: rest =>
    if kw ≠ accountKw then
      pushDiag st lineNo 0 "invalid line: expected transaction header, posting, or directive"
    else
      match rest with
      | [] => pushDiag st lineNo 0 "account declaration missing account path"
      | account :: rest2 =>
        let st := if !account_re account then
            pushDiag st lineNo 0 ("invalid account path: " ++ String.mk account)
          else st
        let default_commodity := rest2.head?
        let st :=
          match default_commodity with
          | some c =>
            if !commodity_re c then pushDiag st lineNo 0 ("invalid commodity: " ++ String.mk c)
            else st
          | none => st
        let st := if rest2.drop 1 ≠ [] then
            pushDiag st lineNo 0
              "unexpected extra tokens in account declaration (expected: account <path> [COMMODITY])"
          else st
        { st with currentAccount := some (lineNo, ⟨account, default_commodity, none⟩) }

/-- The sub-declaration branch for an indented line while an account
declaration is open and no transaction is. -/
def subDeclLine (st : PState) (lineNo : Nat) (line : Str) (declLine : Nat)
    (decl : AccountDeclaration) : PState :=
  let afterIndent := line.drop 4
  let parts := splitWhitespace (beforeMeta afterIndent)
  match parts with
  | [] => pushDiag st lineNo 4 "invalid account declaration line"
  | kind :: rest =>
    if kind = openingKw then
      match rest with
      | [] => pushDiag st lineNo 4 "opening missing amount"
      | amount_text :: rest2 =>
        let st := if !amount_re amount_text then
            pushDiag st lineNo 4 ("invalid amount: " ++ String.mk amount_text)
          else st
        let commodityOpt :=
          match rest2.head? with
          | some c => some c
          | none => decl.default_commodity
        match commodityOpt with
        | none =>
          pushDiag st lineNo 4 "opening missing commodity and account has no default commodity"
        | some commodity =>
          let st := if !commodity_re commodity then
              pushDiag st lineNo 4 ("invalid commodity: " ++ String.mk commodity)
            else st
          let st := if rest2.drop 1 ≠ [] then
              pushDiag st lineNo 4
                "unexpected extra tokens in opening declaration (expected: opening <amount> [COMMODITY])"
            else st
          if decl.opening.isSome then
            pushDiag st lineNo 4 "duplicate opening declaration"
          else
            { st with
              currentAccount :=
                some (declLine, { decl with opening := some ⟨commodity, parseDecimal amount_text⟩ }) }
    else
      pushDiag st lineNo 4 ("unknown account declaration entry: " ++ String.mk kind)

/-- The posting branch for an indented line while a transaction is open. -/
def postingLine (st : PState) (lineNo : Nat) (line : Str) (headerLine : Nat)
    (txn : Transaction) : PState :=
  let afterIndent := line.drop 4
  let parts := splitWhitespace afterIndent
  match parts with
  | [] => pushDiag st lineNo 4 "missing account"
  | account :: rest =>
    let st := if !account_re account then
        pushDiag st lineNo 4 ("invalid account path: " ++ String.mk account)
      else st
    match rest with
    | [] => pushDiag st lineNo (4 + account.length + 1) "missing amount"
    | amount :: rest2 =>
      let st := if !amount_re amount then
          pushDiag st lineNo (4 + account.length + 1) ("invalid amount: " ++ String.mk amount)
        else st
      match rest2 with
      | [] => pushDiag st lineNo (4 + account.length + 1 + amount.length + 1) "missing commodity"
      | commodity :: remainderParts =>
        let st := if !commodity_re commodity then
            pushDiag st lineNo (4 + account.length + 1 + amount.length + 1)
              ("invalid commodity: " ++ String.mk commodity)
          else st
        let remainder :=
          if remainderParts = [] then (none : Option Str)
          else some (joinSep ' ' remainderParts)
        { st with
          current := some (headerLine,
            { txn with
              postings := txn.postings ++
                [⟨account, parseDecimal amount, amount, commodity, remainder⟩] }) }

/-- The header branch: a line matching header_datetime_re (after both open
entities have been flushed). -/
def headerLine (st : PState) (lineNo : Nat) (line : Str) (date time : Str)
    (dtEnd : Nat) : PState :=
  let datetime := date ++ time
  let (beforeM, metaOpt) :=
    match splitOnceSemi line with
    | some (l, r) => (l, some (trim r))
    | none => (line, (none : Option Str))
  let headerAfter := beforeM.drop dtEnd
  let st := if (trim headerAfter).isEmpty then
      pushDiag st lineNo dtEnd "missing transaction details"
    else st
  let st := if !line.contains ';' then
      pushDiag st lineNo 0 "missing meta comment (expected ';')"
    else st
  let (status, payee, narration) := parse_header_fields headerAfter
  { st with
    current := some (lineNo, ⟨date, datetime, status, payee, narration, metaOpt, []⟩) }

/-- One iteration of the line loop of parse_transactions. -/
def parseLine (st : PState) (lineNo : Nat) (rawLine : Str) : PState :=
  let line := trimEndCR rawLine
  if is_blank line then flushAccount (flush_transaction st)
  else if is_directive line then st
  else if line = accountKw ∨ (accountKw ++ [' ']).isPrefixOf line ∨
      (accountKw ++ ['\t']).isPrefixOf line then
    accountDeclLine (flushAccount (flush_transaction st)) lineNo line
  else if fourSpaces.isPrefixOf line then
    match st.current with
    | none =>
      match st.currentAccount with
      | none => pushDiag st lineNo 0 "unexpected indented line"
      | some (declLine, decl) => subDeclLine st lineNo line declLine decl
    | some (headerLn, txn) =>
      if st.currentAccount.isSome then
        pushDiag st lineNo 0 "posting is not allowed inside an account declaration"
      else postingLine st lineNo line headerLn txn
  else
    match headerMatch line with
    | some (date, time, dtEnd) =>
      headerLine (flushAccount (flush_transaction st)) lineNo line date time dtEnd
    | none =>
      pushDiag st lineNo 0 "invalid line: expected transaction header, posting, or directive"

def enumFrom : Nat → List Str → List (Nat × Str)
  | _, [] => []
  | n, a :: as => (n, a) :: enumFrom (n + 1) as

/-- The traversal state after all lines of the input have been processed
and the final flushes ran. -/
def parserFinal (contents : Str) : PState :=
  let st := (enumFrom 1 (rustLines contents)).foldl (fun st p => parseLine st p.1 p.2) initState
  flushAccount (flush_transaction st)

/-- Byte-lexicographic order on strings, the ordering of Rust BTreeMap keys
(for ASCII text byte order and character order coincide). -/
def strLt (a b : Str) : Bool :=
  match a, b with
  | [], [] => false
  | [], _ :: _ => true
  | _ :: _, [] => false
  | c :: cs, d :: ds => if c < d then true else if d < c then false else strLt cs ds

/-- BTreeMap entry(k).or_insert(zero) followed by adding v, on the sorted
association list modelling the inner commodity map. -/
def addAmount : List (Str × Amount) → Str → Amount → List (Str × Amount)
  | [], k, v => [(k, Amount.zero.add v)]
  | (k', v') :: rest, k, v =>
    if k = k' then (k', v'.add v) :: rest
    else if strLt k k' then (k, Amount.zero.add v) :: (k', v') :: rest
    else (k', v') :: addAmount rest k v

/-- BTreeMap entry(k).or_default() followed by applying f to the entry, on
the sorted association list modelling the outer account map. -/
def modifyAccount : List (Str × List (Str × Amount)) → Str →
    (List (Str × Amount) → List (Str × Amount)) → List (Str × List (Str × Amount))
  | [], k, f => [(k, f [])]
  | (k', m) :: rest, k, f =>
    if k = k' then (k', f m) :: rest
    else if strLt k k' then (k, f []) :: (k', m) :: rest
    else (k', m) :: modifyAccount rest k f

/-- The balance fold of parse_transactions: postings first, then account
declarations (key presence, then the opening amount if any). -/
def balancesMap (txns : List Transaction) (decls : List AccountDeclaration) :
    List (Str × List (Str × Amount)) :=
  let m1 := txns.foldl
    (fun m txn => txn.postings.foldl
      (fun m p => modifyAccount m p.account (fun inner => addAmount inner p.commodity p.amount)) m)
    []
  decls.foldl
    (fun m d =>
      let m2 := modifyAccount m d.account id
      match d.opening with
      | some o => modifyAccount m2 d.account (fun inner => addAmount inner o.commodity o.amount)
      | none => m2)
    m1

def materializeBalances (m : List (Str × List (Str × Amount))) : List AccountBalance :=
  m.map (fun p => ⟨p.1, p.2.map (fun q => ⟨q.1, q.2⟩)⟩)

/-- ledger_parser.rs parse_transactions. -/
def parse_transactions (contents : Str) : ParseResult :=
  let st := parserFinal contents
  let balances := materializeBalances (balancesMap st.transactions st.accountDeclarations)
  ⟨st.diagnostics.isEmpty, st.diagnostics, st.transactions, balances⟩

/-- generated_store.rs looks_like_header: the line starts with a
YYYY-MM-DD shaped prefix. -/
def looks_like_header (line : Str) : Bool :=
  match line with
  | a :: b :: c :: d :: e :: f :: g :: h :: i :: j :: _ =>
    a.isDigit && b.isDigit && c.isDigit && d.isDigit && e == '-' &&
    f.isDigit && g.isDigit && h == '-' && i.isDigit && j.isDigit
  | _ => false

/-- The blank-line insertion condition of normalize_blank_lines: the line
is header-looking, the previous non-blank line was posting-like, and the
last pushed line is not blank. -/
def insCond (lastLine : Option Str) (prev : Bool) (l : Str) : Bool :=
  looks_like_header l && prev &&
    (match lastLine with
     | some last => !(trim last).isEmpty
     | none => false)

/-- The posting-flag update of normalize_blank_lines. -/
def nextPrev (l : Str) : Bool := if is_blank l then false else fourSpaces.isPrefixOf l

/-- The line loop of normalize_blank_lines.  The state carried across
iterations is the last pushed line (the output list only ever grows by
appends, so its last element is the previous raw line) and whether the
previous non-blank line was posting-like. -/
def normGo : List Str → Option Str → Bool → List Str
  | [], _, _ => []
  | l :: ls, lastLine, prev =>
    (if insCond lastLine prev l then [] :: [l] else [l]) ++ normGo ls (some l) (nextPrev l)

/-- The trailing-blank-line pop of normalize_blank_lines, acting on the
reversed output: drop leading empty lines while more than one line remains. -/
def dropLeadEmptyKeepOne : List Str → List Str
  | [] => []
  | [] :: rest => if rest = [] then [[]] else dropLeadEmptyKeepOne rest
  | l => l

/-- No blank-line insertion fires while scanning these lines with normGo
from the given state. -/
def insFree : Option Str → Bool → List Str → Prop
  | _, _, [] => True
  | lastLine, prev, l :: ls =>
    insCond lastLine prev l = false ∧ insFree (some l) (nextPrev l) ls

/-- generated_store.rs normalize_blank_lines. -/
def normalize_blank_lines (contents : Str) : Str :=
  let out := normGo (splitOnC '\n' contents) none false
  let out := (dropLeadEmptyKeepOne out.reverse).reverse
  joinSep '\n' out

/-- A finite map from path strings to file contents: the part of the
filesystem under the store's base directory (plus any imported sources). -/
abbrev Files := List (Str × Str)

def fsRead (fs : Files) (p : Str) : Option Str :=
  (fs.find? (fun e => e.1 = p)).map (fun e => e.2)

def fsExists (fs : Files) (p : Str) : Bool := (fsRead fs p).isSome

def fsWrite (fs : Files) (p : Str) (c : Str) : Files :=
  match fs with
  | [] => [(p, c)]
  | e :: rest => if e.1 = p then (p, c) :: rest else e :: fsWrite rest p c

def fsRemove (fs : Files) (p : Str) : Files :=
  match fs with
  | [] => []
  | e :: rest => if e.1 = p then rest else e :: fsRemove rest p

def joinPath (base rel : Str) : Str := base ++ '/' :: rel

def ledgerRel : Str := S "ledger.transactions"

def ledgerPath (base : Str) : Str := joinPath base ledgerRel

def archiveRel (yyyymm : Str) : Str := S "archive/ledger-" ++ yyyymm ++ S ".transactions"

def archivePath (base yyyymm : Str) : Str := joinPath base (archiveRel yyyymm)

/-- The seven character date-like test of parse_yyyymm_from_contents:
four digits, dash, two digits. -/
def looksDate7 (l : Str) : Bool :=
  match l with
  | a :: b :: c :: d :: e :: f :: g :: _ =>
    a.isDigit && b.isDigit && c.isDigit && d.isDigit && e == '-' && f.isDigit && g.isDigit
  | _ => false

/-- generated_ledger.rs parse_yyyymm_from_contents over the line list:
skip blank and comment lines, then examine a single line — if it carries a
date-like prefix return its year-month, otherwise stop (the loop breaks). -/
def pyGo : List Str → Option Str
  | [] => none
  | raw :: rest =>
    match trim raw with
    | [] => pyGo rest
    | c :: tl =>
      if c == ';' then pyGo rest
      else if looksDate7 (c :: tl) then some ((c :: tl).take 4 ++ ((c :: tl).drop 5).take 2)
      else none

/-- generated_ledger.rs parse_yyyymm_from_contents. -/
def parse_yyyymm_from_contents (contents : Str) : Option Str :=
  pyGo (rustLines contents)

def unknownStr : Str := S "unknown"

def archiveNumberedRel (yyyymm : Str) (i : Nat) : Str :=
  S "archive/ledger-" ++ yyyymm ++ '-' :: Nat.toDigits 10 i ++ S ".transactions"

/-- generated_ledger.rs unique_archive_path: the desired archive path, or
the first numbered variant (-2, -3, ...) that does not exist yet.  The
search range is bounded by the number of files, which by pigeonhole always
contains a free candidate; the fallback branch is unreachable. -/
def unique_archive_path (fs : Files) (base yyyymm : Str) : Str :=
  let desired := archivePath base yyyymm
  if !fsExists fs desired then desired
  else
    match (List.range (fs.length + 1)).map (fun i => i + 2) |>.find?
        (fun i => !fsExists fs (joinPath base (archiveNumberedRel yyyymm i))) with
    | some i => joinPath base (archiveNumberedRel yyyymm i)
    | none => desired

/-- The store as the claims see it: the files it owns plus the structural
content of the two JSON side indexes. -/
structure StoreState where
  files : Files
  txnIds : List Str
  sources : List Str
deriving DecidableEq, Repr

/-- generated_ledger.rs rotate_ledger_if_needed (rename modelled as remove
plus write). -/
def rotate_ledger_if_needed (st : StoreState) (base now : Str) : StoreState :=
  match fsRead st.files (ledgerPath base) with
  | none => st
  | some contents =>
    if (trim contents).isEmpty then st
    else
      let ledgerYm := (parse_yyyymm_from_contents contents).getD unknownStr
      if ledgerYm = now then st
      else
        let archive := unique_archive_path st.files base ledgerYm
        { st with
          files := fsWrite (fsWrite (fsRemove st.files (ledgerPath base)) archive contents)
            (ledgerPath base) [] }

/-- The first occurrence search meta.find of the text txn: returning what
follows it. -/
def findTxnSuffix : Str → Option Str
  | 't' :: 'x' :: 'n' :: ':' :: rest => some rest
  | _ :: rest => findTxnSuffix rest
  | [] => none

/-- generated_store.rs extract_txn_id. -/
def extract_txn_id (meta : Str) : Option Str :=
  match findTxnSuffix meta with
  | none => none
  | some after =>
    let idTok := after.takeWhile (fun c => !(c == ',' || isWs c))
    let id := trim idTok
    if id.isEmpty then none else some id

/-- generated_store.rs ensure_txn_id, with the generated identifier passed
in as the oracle value used when the meta carries none; the flag reports
whether the oracle was consumed. -/
def ensure_txn_id (fresh : Str) (meta : Option Str) : Str × Str × Bool :=
  match meta with
  | some m =>
    match extract_txn_id m with
    | some id => (id, m, false)
    | none =>
      if !(trim m).isEmpty then (fresh, trim m ++ S ", txn:" ++ fresh, true)
      else (fresh, S "txn:" ++ fresh, true)
  | none => (fresh, S "txn:" ++ fresh, true)

/-- generated_store.rs yyyymm_from_datetime. -/
def yyyymm_from_datetime (dt : Str) : Option Str :=
  if dt.length < 7 then none
  else
    let year := dt.take 4
    let month := (dt.drop 5).take 2
    if year.all Char.isDigit ∧ month.all Char.isDigit then some (year ++ month) else none

/-- generated_store.rs quote. -/
def quote (s : Str) : Str :=
  '"' :: (s.flatMap (fun c =>
    if c = '\\' then ['\\', '\\'] else if c = '"' then ['\\', '"'] else [c])) ++ ['"']

/-- generated_store.rs posting_to_text. -/
def posting_to_text (p : Posting) : Str :=
  fourSpaces ++ p.account ++ ' ' :: p.amount_text ++ ' ' :: p.commodity ++
  (match p.remainder with
   | some s => if (trim s).isEmpty then [] else ' ' :: trim s
   | none => [])

/-- generated_store.rs transaction_to_text. -/
def transaction_to_text (txn : Transaction) (forcedMeta : Str) : Str :=
  let header := txn.datetime ++ [' ']
    ++ (match txn.status with
        | some c => [c, ' ']
        | none => [])
    ++ (match txn.payee with
        | some p => quote p ++ [' ']
        | none => [])
    ++ (match txn.narration with
        | some n => quote n ++ [' ']
        | none => [])
    ++ [';', ' '] ++ forcedMeta
  joinSep '\n' ([header] ++ txn.postings.map posting_to_text ++ [[]])

/-- generated_store.rs append_text. -/
def append_text (fs : Files) (p : Str) (text : Str) : Files :=
  match fsRead fs p with
  | none => fsWrite fs p text
  | some existing0 =>
    let ex := normalize_blank_lines existing0
    let ex :=
      if ex.isEmpty then ex
      else if ['\n', '\n'].isSuffixOf ex then ex
      else if ['\n'].isSuffixOf ex then ex ++ ['\n']
      else ex ++ ['\n', '\n']
    fsWrite fs p (ex ++ text)

structure ImportStats where
  imported : Nat
  skipped_duplicates : Nat
  archived : Nat
deriving DecidableEq, Repr

/-- The per-transaction body of the import loop.  The Nat component counts
consumed oracle identifiers. -/
def importTxn (base now : Str) (gens : Nat → Str)
    (acc : StoreState × ImportStats × Nat) (txn : Transaction) :
    StoreState × ImportStats × Nat :=
  let (st, stats, k) := acc
  if txn.postings = [] then (st, stats, k)
  else
    let (id, meta, used) := ensure_txn_id (gens k) txn.meta
    let k2 := if used then k + 1 else k
    if st.txnIds.contains id then
      (st, { stats with skipped_duplicates := stats.skipped_duplicates + 1 }, k2)
    else
      let ym := (yyyymm_from_datetime txn.datetime).getD now
      let (dest, stats2) :=
        if ym = now then (ledgerPath base, stats)
        else (archivePath base ym, { stats with archived := stats.archived + 1 })
      let text := transaction_to_text txn meta
      ({ st with
          files := append_text st.files dest text
          txnIds := st.txnIds ++ [id] },
        { stats2 with imported := stats2.imported + 1 }, k2)

/-- The per-file body of the import loop; each source is supplied as a
path plus the contents read from it. -/
def importFile (base now : Str) (gens : Nat → Str)
    (acc : StoreState × ImportStats × Nat) (src : Str × Str) :
    StoreState × ImportStats × Nat :=
  let (st, stats, k) := acc
  let st := if st.sources.contains src.1 then st
    else { st with sources := st.sources ++ [src.1] }
  let result := parse_transactions src.2
  if result.transactions = [] then (st, stats, k)
  else result.transactions.foldl (importTxn base now gens) (st, stats, k)

def insSorted (x : Str) : List Str → List Str
  | [] => [x]
  | y :: ys => if strLt x y then x :: y :: ys else y :: insSorted x ys

def sortStrs (l : List Str) : List Str := l.foldr insSorted []

/-- generated_store.rs import_source_files.  Sources are passed with their
contents; the identifier oracle supplies the values of generate_txn_id in
call order.  Side-index persistence is the structural state itself (the
registry is sorted before being written, as in the source). -/
def import_source_files (st : StoreState) (base now : Str) (gens : Nat → Str)
    (srcs : List (Str × Str)) : StoreState × ImportStats :=
  let st1 := rotate_ledger_if_needed st base now
  let r := srcs.foldl (importFile base now gens) (st1, ⟨0, 0, 0⟩, 0)
  ({ r.1 with sources := sortStrs r.1.sources }, r.2.1)

/-- The first non-blank, non-comment trimmed line of the contents. -/
def firstRelevantLine (contents : Str) : Option Str :=
  ((rustLines contents).map trim).find? (fun l => !(l.isEmpty || (l.head? == some ';')))

/-- Modelled from the spec: the month scan as the spec sentence describes
it, searching all non-blank, non-comment lines for the first date-like
one (the code instead stops at the first such line). -/
def specScanAllYM (contents : Str) : Option Str :=
  ((((rustLines contents).map trim).filter
      (fun l => !(l.isEmpty || (l.head? == some ';')))).find? looksDate7).map
    (fun l => l.take 4 ++ (l.drop 5).take 2)

/-- A transaction that the dedup claim can track: it has postings and an
embedded identifier in its meta comment. -/
def goodTxn (t : Transaction) : Prop :=
  t.postings ≠ [] ∧ (t.meta.bind extract_txn_id).isSome = true

/-- The embedded identifier of a transaction whose meta carries one. -/
def idOf (t : Transaction) : Str := (t.meta.bind extract_txn_id).getD []

/-- Association-list lookup by key, as BTreeMap::get on the model. -/
def findVal {α : Type} : List (Str × α) → Str → Option α
  | [], _ => none
  | (k', v) :: rest, k => if k = k' then some v else findVal rest k

/-- Two-level lookup of an (account, commodity) total in the balances map. -/
def findVal2 (m : List (Str × List (Str × Amount))) (acct comm : Str) : Option Amount :=
  match findVal m acct with
  | none => none
  | some inner => findVal inner comm

/-- Lookup of a commodity total in a rendered AccountBalance entry. -/
def commLookup : List CommodityAmount → Str → Option Amount
  | [], _ => none
  | c :: rest, comm => if comm = c.commodity then some c.amount else commLookup rest comm

/-- Lookup of an (account, commodity) total in the rendered balances list. -/
def balLookup : List AccountBalance → Str → Str → Option Amount
  | [], _, _ => none
  | b :: rest, acct, comm =>
    if acct = b.account then commLookup b.totals comm else balLookup rest acct comm

/-- The per-posting update of the balance fold of parse_transactions. -/
def postingStep (m : List (Str × List (Str × Amount))) (p : Posting) :
    List (Str × List (Str × Amount)) :=
  modifyAccount m p.account (fun inner => addAmount inner p.commodity p.amount)

/-- The per-declaration update of the balance fold of parse_transactions. -/
def declStep (m : List (Str × List (Str × Amount))) (d : AccountDeclaration) :
    List (Str × List (Str × Amount)) :=
  let m2 := modifyAccount m d.account id
  match d.opening with
  | some o => modifyAccount m2 d.account (fun inner => addAmount inner o.commodity o.amount)
  | none => m2

/-- Modelled from the spec (C5): the posting amounts contributed to the
pair (acct, comm) by all transactions, in document order. -/
def postingAmounts (txns : List Transaction) (acct comm : Str) : List Amount :=
  ((txns.foldr (fun t acc => t.postings ++ acc) []).filter
    (fun p => decide (p.account = acct ∧ p.commodity = comm))).map Posting.amount

/-- Modelled from the spec (C5): the declared opening amounts contributed
to the pair (acct, comm), in document order. -/
def openingAmounts (decls : List AccountDeclaration) (acct comm : Str) : List Amount :=
  decls.filterMap (fun d =>
    match d.opening with
    | some o => if d.account = acct ∧ o.commodity = comm then some o.amount else none
    | none => none)

/-- Modelled from the spec (C5): all amounts contributed to (acct, comm):
posting amounts of all transactions first, then declared openings. -/
def keyAmounts (txns : List Transaction) (decls : List AccountDeclaration)
    (acct comm : Str) : List Amount :=
  postingAmounts txns acct comm ++ openingAmounts decls acct comm

/-- Modelled from the spec (C5): the sum of a list of amounts, none when
the list is empty. -/
def sumAmounts : List Amount → Option Amount
  | [] => none
  | a :: l => some ((a :: l).foldl (fun x v => x.add v) Amount.zero)

/-- Folding a list of amounts into an optional total, entry-or-insert
style: each step adds to the present total or starts from zero. -/
def accAmounts (o : Option Amount) (l : List Amount) : Option Amount :=
  l.foldl (fun o v => some ((o.getD Amount.zero).add v)) o

/-- Well-formedness of the balances map: both levels strictly sorted. -/
def WFmap (m : List (Str × List (Str × Amount))) : Prop :=
  List.Pairwise (fun a b => strLt a.1 b.1 = true) m ∧
    ∀ e ∈ m, List.Pairwise (fun a b => strLt a.1 b.1 = true) e.2

/-- The escaping body of quote: backslashes and double quotes get a
backslash prefix. -/
def escapeQ (s : Str) : Str :=
  s.flatMap (fun c => if c = '\\' then ['\\', '\\'] else if c = '"' then ['\\', '"'] else [c])

/-- The rendered status fragment of a header line. -/
def statusPart : Option Char → Str
  | some c => [c, ' ']
  | none => []

/-- The rendered quoted fragment of a payee or narration. -/
def quotePart : Option Str → Str
  | some x => quote x ++ [' ']
  | none => []

/-- The header line rendered by transaction_to_text. -/
def renderHeader (txn : Transaction) (forcedMeta : Str) : Str :=
  txn.datetime ++ [' '] ++ statusPart txn.status ++ quotePart txn.payee ++
    quotePart txn.narration ++ [';', ' '] ++ forcedMeta

/-- Modelled from the spec (C4): whitespace normalization of an optional
posting remainder, the "modulo whitespace" of the round-trip sentence. -/
def normWs (s : Str) : Option Str :=
  match splitWhitespace (trim s) with
  | [] => none
  | parts => some (joinSep ' ' parts)

def normWsOpt : Option Str → Option Str
  | none => none
  | some s => normWs s

/-- Modelled from the spec (C4): the posting as it reads back after a
render/parse round trip: account, amount text and commodity verbatim, the
numeric amount recomputed from the amount text, the remainder
whitespace-normalized. -/
def roundPosting (p : Posting) : Posting :=
  ⟨p.account, parseDecimal p.amount_text, p.amount_text, p.commodity, normWsOpt p.remainder⟩

/-- A datetime the header regex accepts in full: the date part matches and
what follows is empty or exactly a time part. -/
def validDatetime (dt : Str) : Prop :=
  ∃ d rest, matchDate dt = some (d, rest) ∧
    (rest = [] ∨ ∃ t, matchTime rest = some (t, []))

/-- A posting the renderer and the parser agree on: regex-valid account,
amount text and commodity, and a remainder free of line breaks. -/
def validPosting (p : Posting) : Prop :=
  account_re p.account = true ∧ amount_re p.amount_text = true ∧
    commodity_re p.commodity = true ∧
    ∀ s, p.remainder = some s → ∀ c ∈ s, c ≠ '\n' ∧ c ≠ '\r'

/-- The hypotheses of the render/parse round trip: a datetime the header
regex accepts, a rendered status character, quote-safe payee and
narration (no line break, no semicolon) made of ASCII characters only
(the byte-wise quoted-token loop of take_token garbles multi-byte
characters into one character per UTF-8 byte), a payee that cannot be
mistaken for a status flag, no narration without a payee, a meta text
free of line breaks, and valid postings. -/
def validTxn (txn : Transaction) (forcedMeta : Str) : Prop :=
  validDatetime txn.datetime ∧
  (∀ c, txn.status = some c → c = '*' ∨ c = '!') ∧
  (∀ p, txn.payee = some p → ∀ c ∈ p, c ≠ '\n' ∧ c ≠ ';' ∧ c ≠ '\r') ∧
  (∀ nr, txn.narration = some nr → ∀ c ∈ nr, c ≠ '\n' ∧ c ≠ ';' ∧ c ≠ '\r') ∧
  (∀ p, txn.payee = some p → ∀ c ∈ p, c.toNat < 128) ∧
  (∀ nr, txn.narration = some nr → ∀ c ∈ nr, c.toNat < 128) ∧
  (txn.status = none → txn.payee ≠ some ['*'] ∧ txn.payee ≠ some ['!']) ∧
  (txn.narration.isSome = true → txn.payee.isSome = true) ∧
  (∀ c ∈ forcedMeta, c ≠ '\n' ∧ c ≠ '\r') ∧
  (∀ p ∈ txn.postings, validPosting p)

/-- The per-line traversal states of parse_transactions: the initial state
followed by the state after each processed line. -/
def parseStates (contents : Str) : List PState :=
  (enumFrom 1 (rustLines contents)).scanl (fun st p => parseLine st p.1 p.2) initState

/-- Mutual exclusion of the two open entities. -/
def exclusiveOpen (st : PState) : Prop := st.current = none ∨ st.currentAccount = none

/-- A concrete transaction exercising the round-trip theorem. -/
def wtxn : Transaction :=
  ⟨S "2026-01-15", S "2026-01-15", some '*', some (S "a"), some (S "b"), none,
    [⟨S "x:y", ⟨100, 2⟩, S "1.00", S "USD", none⟩]⟩

/-! Text utility lemmas. -/

theorem quotedLoop_rest_length_aux :
    ∀ (n : Nat) (body : Str), body.length ≤ n → ∀ (out tok rest : Str),
      quotedLoop body out = some (tok, rest) → rest.length < body.length := by
  intro n
  induction n with
  | zero =>
    intro body hb out tok rest h
    cases body with
    | nil => simp [quotedLoop] at h
    | cons c cs => simp at hb
  | succ n ih =>
    intro body hb out tok rest h
    cases body with
    | nil => simp [quotedLoop] at h
    | cons c cs =>
      unfold quotedLoop at h
      simp only [List.length_cons] at hb
      by_cases hbs : c = '\\'
      · rw [if_pos hbs] at h
        cases cs with
        | nil => exact Option.noConfusion h
        | cons d ds =>
          have hlt := ih ds (by simp at hb ⊢; omega) (out ++ charBytes d) tok rest h
          simp only [List.length_cons]
          omega
      · rw [if_neg hbs] at h
        by_cases hq : c = '"'
        · rw [if_pos hq] at h
          cases h
          simp
        · rw [if_neg hq] at h
          have hlt := ih cs (by omega) (out ++ charBytes c) tok rest h
          simp only [List.length_cons]
          omega

theorem quotedLoop_rest_length {body out tok rest : Str}
    (h : quotedLoop body out = some (tok, rest)) : rest.length < body.length :=
  quotedLoop_rest_length_aux body.length body (Nat.le_refl _) out tok rest h

theorem dropWhile_head_not {p : Char → Bool} :
    ∀ {s c : Char} {cs : Str} {l : Str}, l.dropWhile p = s :: cs → s = c → p c = false := by
  intro s c cs l h hc
  subst hc
  induction l with
  | nil => simp at h
  | cons a as ih =>
    by_cases ha : p a
    · rw [List.dropWhile_cons, if_pos ha] at h
      exact ih h
    · rw [List.dropWhile_cons, if_neg ha] at h
      cases h
      simpa using ha

theorem take_token_rest_length {s tok rest : Str}
    (h : take_token s = some (tok, rest)) : rest.length < s.length := by
  have hdw : (s.dropWhile isSpaceTab).length ≤ s.length :=
    (@List.dropWhile_sublist Char s isSpaceTab).length_le
  unfold take_token at h
  split at h
  · exact Option.noConfusion h
  · rename_i c cs htr
    rw [htr] at hdw
    simp only [List.length_cons] at hdw
    split at h
    · rename_i hq
      split at h
      · rename_i out rest2 hql
        cases h
        have := quotedLoop_rest_length hql
        omega
      · cases h
        simp only [List.length_nil]
        omega
    · rename_i hq
      cases h
      have hc : isSpaceTab c = false := dropWhile_head_not htr rfl
      have htok : ((c :: cs).takeWhile (fun d => !isSpaceTab d)).length ≠ 0 := by
        simp [List.takeWhile_cons, hc]
      have hlen : ((c :: cs).takeWhile (fun d => !isSpaceTab d)).length ≤ cs.length + 1 :=
        (@List.takeWhile_sublist Char (c :: cs) (fun d => !isSpaceTab d)).length_le
      simp only [List.length_drop, List.length_cons]
      omega


theorem tokenizeFuel_ext :
    ∀ (n : Nat) (f g : Nat) (s : Str), s.length < f → s.length ≤ n → s.length < g →
      tokenizeFuel f s = tokenizeFuel g s := by
  intro n
  induction n with
  | zero =>
    intro f g s hf hn hg
    match f, g with
    | f + 1, g + 1 =>
      unfold tokenizeFuel
      cases ht : take_token s with
      | none => rfl
      | some pr =>
        have := @take_token_rest_length s pr.1 pr.2 (by rw [ht])
        omega
  | succ n ih =>
    intro f g s hf hn hg
    match f, g with
    | f + 1, g + 1 =>
      unfold tokenizeFuel
      cases ht : take_token s with
      | none => rfl
      | some pr =>
        obtain ⟨tok, rest⟩ := pr
        have hr := take_token_rest_length ht
        show tok :: tokenizeFuel f rest = tok :: tokenizeFuel g rest
        rw [ih f g rest (by omega) (by omega) (by omega)]

/-- Unfolding rule for tokenize, justified by the fuel bound. -/
theorem tokenize_step (s : Str) :
    tokenize s =
      match take_token s with
      | none => []
      | some (tok, rest) => tok :: tokenize rest := by
  unfold tokenize
  unfold tokenizeFuel
  cases ht : take_token s with
  | none => rfl
  | some pr =>
    obtain ⟨tok, rest⟩ := pr
    have hr := take_token_rest_length ht
    show tok :: tokenizeFuel s.length rest = tok :: tokenizeFuel (rest.length + 1) rest
    rw [tokenizeFuel_ext rest.length s.length (rest.length + 1) rest (by omega) (by omega)
      (by omega)]

theorem trimEnd_eq_nil_iff (s : Str) : trimEnd s = [] ↔ ∀ c ∈ s, isWs c = true := by
  unfold trimEnd
  rw [List.reverse_eq_nil_iff, List.dropWhile_eq_nil_iff]
  constructor
  · intro h c hc
    exact h c (List.mem_reverse.mpr hc)
  · intro h c hc
    exact h c (List.mem_reverse.mp hc)

theorem trim_eq_nil_iff (s : Str) : trim s = [] ↔ ∀ c ∈ s, isWs c = true := by
  induction s with
  | nil => simp [trim, trimStart, trimEnd]
  | cons a rest ih =>
    by_cases ha : isWs a = true
    · have hstep : trim (a :: rest) = trim rest := by
        unfold trim trimStart
        rw [List.dropWhile_cons, if_pos (by simp [ha])]
      rw [hstep, ih]
      constructor
      · intro h c hc
        rcases List.mem_cons.mp hc with h1 | h1
        · rw [h1]; exact ha
        · exact h c h1
      · intro h c hc
        exact h c (List.mem_cons_of_mem a hc)
    · have hstep : trim (a :: rest) = trimEnd (a :: rest) := by
        unfold trim trimStart
        rw [List.dropWhile_cons, if_neg (by simpa using ha)]
      rw [hstep]
      constructor
      · intro h
        exact absurd ((trimEnd_eq_nil_iff _).mp h a (by simp)) ha
      · intro h
        exact absurd (h a (by simp)) ha

theorem is_blank_iff (s : Str) : is_blank s = true ↔ ∀ c ∈ s, isWs c = true := by
  rw [is_blank, List.isEmpty_iff]
  exact trim_eq_nil_iff s

theorem is_blank_false_of_mem {s : Str} {c : Char} (hc : c ∈ s) (hw : isWs c = false) :
    is_blank s = false := by
  rcases hb : is_blank s with _ | _
  · rfl
  · exact absurd ((is_blank_iff s).mp hb c hc) (by simp [hw])

theorem prefix_head_eq {a b : Char} {l1 l2 : Str}
    (h : (a :: l1).isPrefixOf (b :: l2) = true) : a = b := by
  rw [List.isPrefixOf_iff_prefix] at h
  obtain ⟨t, ht⟩ := h
  exact (List.cons_eq_cons.mp (by simpa using ht)).1

theorem isPrefixOf_append (l1 l2 : Str) : l1.isPrefixOf (l1 ++ l2) = true := by
  rw [List.isPrefixOf_iff_prefix]
  exact List.prefix_append l1 l2

/-! Properties of the grammar character classes. -/

theorem isWs_cases {c : Char} (hw : isWs c = true) :
    c = ' ' ∨ c = '\t' ∨ c = '\n' ∨ c = '\r' ∨ c = '\x0B' ∨ c = '\x0C' := by
  unfold isWs at hw
  simpa [or_assoc] using hw

theorem isAcctChar_not_ws {c : Char} (h : isAcctChar c = true) : isWs c = false := by
  by_contra hw
  rw [Bool.not_eq_false] at hw
  rcases isWs_cases hw with h1 | h1 | h1 | h1 | h1 | h1 <;>
    (subst h1; exact absurd h (by decide))

theorem isAcctChar_not_semi {c : Char} (h : isAcctChar c = true) : c ≠ ';' := by
  intro he
  subst he
  exact absurd h (by decide)

theorem splitOnC_char_mem {sep : Char} :
    ∀ {s : Str} {c : Char}, c ∈ s → c = sep ∨ ∃ seg ∈ splitOnC sep s, c ∈ seg := by
  intro s
  induction s with
  | nil => intro c hc; simp at hc
  | cons a rest ih =>
    intro c hc
    unfold splitOnC
    by_cases ha : a = sep
    · rcases List.mem_cons.mp hc with h | h
      · exact Or.inl (h.trans ha)
      · rcases ih h with h2 | ⟨seg, hs, hcs⟩
        · exact Or.inl h2
        · exact Or.inr ⟨seg, by simp [ha, hs], hcs⟩
    · rw [if_neg ha]
      rcases List.mem_cons.mp hc with h | h
      · subst h
        cases hr : splitOnC sep rest with
        | nil => exact Or.inr ⟨[c], by simp, by simp⟩
        | cons l ls => exact Or.inr ⟨c :: l, by simp, by simp⟩
      · rcases ih h with h2 | ⟨seg, hs, hcs⟩
        · exact Or.inl h2
        · cases hr : splitOnC sep rest with
          | nil => rw [hr] at hs; simp at hs
          | cons l ls =>
            rw [hr] at hs
            rcases List.mem_cons.mp hs with h3 | h3
            · exact Or.inr ⟨a :: l, by simp, by rw [← h3]; exact List.mem_cons_of_mem a hcs⟩
            · exact Or.inr ⟨seg, by simp [h3], hcs⟩

theorem account_re_chars {s : Str} (h : account_re s = true) :
    ∀ c ∈ s, isAcctChar c = true ∨ c = ':' := by
  intro c hc
  rcases @splitOnC_char_mem ':' s c hc with h1 | ⟨seg, hs, hcs⟩
  · exact Or.inr h1
  · unfold account_re at h
    rw [Bool.and_eq_true, List.all_eq_true] at h
    have h2 := h.2 seg hs
    rw [Bool.and_eq_true] at h2
    exact Or.inl (List.all_eq_true.mp h2.2 c hcs)

theorem account_re_not_ws {s : Str} (h : account_re s = true) :
    ∀ c ∈ s, isWs c = false := by
  intro c hc
  rcases account_re_chars h c hc with h1 | h1
  · exact isAcctChar_not_ws h1
  · rw [h1]; decide

theorem account_re_not_semi {s : Str} (h : account_re s = true) :
    ∀ c ∈ s, c ≠ ';' := by
  intro c hc
  rcases account_re_chars h c hc with h1 | h1
  · exact isAcctChar_not_semi h1
  · rw [h1]; decide

theorem account_re_ne_nil {s : Str} (h : account_re s = true) : s ≠ [] := by
  intro he
  subst he
  simp [account_re, splitOnC] at h

theorem digitsThenOptFrac_chars {body : Str} (h : digitsThenOptFrac body = true) :
    ∀ d ∈ body, d.isDigit = true ∨ d = '.' := by
  intro d hd
  unfold digitsThenOptFrac at h
  rw [← List.takeWhile_append_dropWhile Char.isDigit body] at hd
  rcases List.mem_append.mp hd with h1 | h1
  · exact Or.inl (List.mem_takeWhile_imp h1)
  · cases hdr : body.dropWhile Char.isDigit with
    | nil => rw [hdr] at h1; simp at h1
    | cons e frac =>
      rw [hdr] at h1 h
      simp only [Bool.and_eq_true, beq_iff_eq] at h
      rcases List.mem_cons.mp h1 with h2 | h2
      · exact Or.inr (h2.trans h.1)
      · exact Or.inl (List.all_eq_true.mp h.2.2.2 d h2)

theorem amount_re_chars {s : Str} (h : amount_re s = true) :
    ∀ c ∈ s, c.isDigit = true ∨ c = '+' ∨ c = '-' ∨ c = '.' := by
  intro c hc
  unfold amount_re at h
  cases s with
  | nil => simp at hc
  | cons c0 rest =>
    simp only [stripSign] at h
    have hbody : ∀ {b : Str}, digitsThenOptFrac b = true → c ∈ b →
        c.isDigit = true ∨ c = '+' ∨ c = '-' ∨ c = '.' := by
      intro b hb hcb
      rcases digitsThenOptFrac_chars hb c hcb with h1 | h1
      · exact Or.inl h1
      · exact Or.inr (Or.inr (Or.inr h1))
    by_cases hsign : c0 = '+' ∨ c0 = '-'
    · rw [if_pos hsign] at h
      rcases List.mem_cons.mp hc with h1 | h1
      · rcases hsign with h2 | h2
        · exact Or.inr (Or.inl (h1.trans h2))
        · exact Or.inr (Or.inr (Or.inl (h1.trans h2)))
      · exact hbody h h1
    · rw [if_neg hsign] at h
      exact hbody h hc

theorem commodity_re_chars {s : Str} (h : commodity_re s = true) :
    ∀ c ∈ s, c.isAlpha = true ∨ c.isDigit = true ∨ c = '_' := by
  intro c hc
  cases s with
  | nil => simp at hc
  | cons c0 rest =>
    unfold commodity_re at h
    rw [Bool.and_eq_true] at h
    rcases List.mem_cons.mp hc with h1 | h1
    · subst h1
      rcases Bool.or_eq_true_iff.mp h.1 with h2 | h2
      · exact Or.inl h2
      · exact Or.inr (Or.inr (by simpa using h2))
    · have := List.all_eq_true.mp h.2 c h1
      rcases Bool.or_eq_true_iff.mp this with h2 | h2
      · rcases Bool.or_eq_true_iff.mp h2 with h3 | h3
        · exact Or.inl h3
        · exact Or.inr (Or.inl h3)
      · exact Or.inr (Or.inr (by simpa using h2))

theorem isDigit_not_ws {c : Char} (h : c.isDigit = true) : isWs c = false := by
  by_contra hw
  rw [Bool.not_eq_false] at hw
  rcases isWs_cases hw with h1 | h1 | h1 | h1 | h1 | h1 <;> (subst h1; exact absurd h (by decide))

theorem isAlpha_not_ws {c : Char} (h : c.isAlpha = true) : isWs c = false := by
  by_contra hw
  rw [Bool.not_eq_false] at hw
  rcases isWs_cases hw with h1 | h1 | h1 | h1 | h1 | h1 <;> (subst h1; exact absurd h (by decide))

theorem amount_re_not_ws {s : Str} (h : amount_re s = true) : ∀ c ∈ s, isWs c = false := by
  intro c hc
  rcases amount_re_chars h c hc with h1 | h1 | h1 | h1
  · exact isDigit_not_ws h1
  all_goals (subst h1; decide)

theorem amount_re_not_semi {s : Str} (h : amount_re s = true) : ∀ c ∈ s, c ≠ ';' := by
  intro c hc
  rcases amount_re_chars h c hc with h1 | h1 | h1 | h1
  · intro he; subst he; exact absurd h1 (by decide)
  all_goals (subst h1; decide)

theorem amount_re_ne_nil {s : Str} (h : amount_re s = true) : s ≠ [] := by
  intro he
  subst he
  exact absurd h (by decide)

theorem commodity_re_not_ws {s : Str} (h : commodity_re s = true) : ∀ c ∈ s, isWs c = false := by
  intro c hc
  rcases commodity_re_chars h c hc with h1 | h1 | h1
  · exact isAlpha_not_ws h1
  · exact isDigit_not_ws h1
  · subst h1; decide

theorem commodity_re_not_semi {s : Str} (h : commodity_re s = true) : ∀ c ∈ s, c ≠ ';' := by
  intro c hc
  rcases commodity_re_chars h c hc with h1 | h1 | h1
  · intro he; subst he; exact absurd h1 (by decide)
  · intro he; subst he; exact absurd h1 (by decide)
  · subst h1; decide

theorem commodity_re_ne_nil {s : Str} (h : commodity_re s = true) : s ≠ [] := by
  intro he
  subst he
  simp [commodity_re] at h

theorem not_ws_ne_cr {c : Char} (h : isWs c = false) : c ≠ '\r' := by
  intro he
  subst he
  exact absurd h (by decide)

theorem isSpaceTab_imp_isWs {c : Char} (h : isSpaceTab c = true) : isWs c = true := by
  have h2 : c = ' ' ∨ c = '\t' := by simpa [isSpaceTab] using h
  rcases h2 with h1 | h1 <;> (subst h1; decide)

theorem not_ws_not_spaceTab {c : Char} (h : isWs c = false) : isSpaceTab c = false := by
  by_contra hs
  rw [Bool.not_eq_false] at hs
  rw [isSpaceTab_imp_isWs hs] at h
  exact Bool.noConfusion h

/-- Dropping trailing carriage returns is the identity on lines free of
them. -/
theorem trimEndCR_eq_self {s : Str} (h : ∀ c ∈ s, c ≠ '\r') : trimEndCR s = s := by
  unfold trimEndCR
  cases hr : s.reverse with
  | nil =>
    have : s = [] := by simpa using congrArg List.reverse hr
    rw [this]
    rfl
  | cons a as =>
    have ha : a ∈ s := by
      rw [← List.mem_reverse, hr]
      simp
    rw [List.dropWhile_cons, if_neg (by simp [h a ha]), ← hr, List.reverse_reverse]

/-- splitOnceSemi finds nothing on semicolon-free text. -/
theorem splitOnceSemi_none {s : Str} (h : ∀ c ∈ s, c ≠ ';') : splitOnceSemi s = none := by
  induction s with
  | nil => rfl
  | cons a rest ih =>
    unfold splitOnceSemi
    rw [if_neg (h a (by simp)), ih (fun c hc => h c (List.mem_cons_of_mem a hc))]

theorem beforeMeta_eq_self {s : Str} (h : ∀ c ∈ s, c ≠ ';') : beforeMeta s = s := by
  unfold beforeMeta
  rw [splitOnceSemi_none h]

/-- splitOnceSemi splits at the first semicolon. -/
theorem splitOnceSemi_append {a b : Str} (h : ∀ c ∈ a, c ≠ ';') :
    splitOnceSemi (a ++ ';' :: b) = some (a, b) := by
  induction a with
  | nil => simp [splitOnceSemi]
  | cons x rest ih =>
    show splitOnceSemi (x :: (rest ++ ';' :: b)) = _
    unfold splitOnceSemi
    rw [if_neg (h x (by simp)), ih (fun c hc => h c (List.mem_cons_of_mem x hc))]

theorem splitWhitespace_eq_nil_iff (s : Str) :
    splitWhitespace s = [] ↔ ∀ c ∈ s, isWs c = true := by
  induction s with
  | nil => simp [splitWhitespace]
  | cons a rest ih =>
    unfold splitWhitespace
    by_cases ha : isWs a = true
    · rw [if_pos ha, ih]
      constructor
      · intro h c hc
        rcases List.mem_cons.mp hc with h1 | h1
        · rw [h1]; exact ha
        · exact h c h1
      · intro h c hc
        exact h c (List.mem_cons_of_mem a hc)
    · rw [if_neg ha]
      constructor
      · intro h
        exfalso
        rcases hsw : splitWhitespace rest with _ | ⟨t, ts⟩ <;> rw [hsw] at h
        · simp at h
        · cases rest with
          | nil => simp at h
          | cons d ds => by_cases hd : isWs d = true <;> simp [hd] at h
      · intro h
        exact absurd (h a (by simp)) (by simpa using ha)

/-- Leading whitespace is skipped by splitWhitespace. -/
theorem splitWhitespace_ws_cons {c : Char} {rest : Str} (hc : isWs c = true) :
    splitWhitespace (c :: rest) = splitWhitespace rest := by
  conv_lhs => unfold splitWhitespace
  rw [if_pos hc]

/-- A maximal whitespace-free token is split off ahead of a space. -/
theorem splitWhitespace_token_space {t rest : Str} (hne : t ≠ [])
    (hnw : ∀ c ∈ t, isWs c = false) :
    splitWhitespace (t ++ ' ' :: rest) = t :: splitWhitespace rest := by
  induction t with
  | nil => exact absurd rfl hne
  | cons a t2 ih =>
    have ha : isWs a = false := hnw a (by simp)
    cases t2 with
    | nil =>
      show splitWhitespace (a :: ' ' :: rest) = [a] :: splitWhitespace rest
      conv_lhs => unfold splitWhitespace
      rw [if_neg (by simp [ha]), splitWhitespace_ws_cons (by decide)]
      rcases hsw : splitWhitespace rest with _ | ⟨t, ts⟩ <;>
        simp [show isWs ' ' = true from by decide]
    | cons b t3 =>
      have hih := ih (by simp) (fun c hc => hnw c (List.mem_cons_of_mem a hc))
      show splitWhitespace (a :: ((b :: t3) ++ ' ' :: rest)) = _
      conv_lhs => unfold splitWhitespace
      rw [if_neg (by simp [ha]), hih]
      simp [List.cons_append, hnw b (by simp)]

/-- A whitespace-free suffix is one final token. -/
theorem splitWhitespace_single {t : Str} (hne : t ≠ []) (hnw : ∀ c ∈ t, isWs c = false) :
    splitWhitespace t = [t] := by
  induction t with
  | nil => exact absurd rfl hne
  | cons a t2 ih =>
    have ha : isWs a = false := hnw a (by simp)
    cases t2 with
    | nil =>
      conv_lhs => unfold splitWhitespace
      rw [if_neg (by simp [ha])]
      simp [splitWhitespace]
    | cons b t3 =>
      have hih := ih (by simp) (fun c hc => hnw c (List.mem_cons_of_mem a hc))
      conv_lhs => unfold splitWhitespace
      rw [if_neg (by simp [ha]), hih]
      simp [hnw b (by simp)]

/-! Claim theorems. -/

/-- A four-space indented, non-blank, non-directive line dispatches to the
indented branch of the parse loop. -/
theorem parseLine_indented (st : PState) (n : Nat) (line : Str)
    (hcr : trimEndCR line = line)
    (hnb : is_blank line = false) (hnd : is_directive line = false)
    (hsp : ∃ r, line = fourSpaces ++ r) :
    parseLine st n line =
      (match st.current with
       | none =>
         match st.currentAccount with
         | none => pushDiag st n 0 "unexpected indented line"
         | some (declLine, decl) => subDeclLine st n line declLine decl
       | some (headerLn, txn) =>
         if st.currentAccount.isSome then
           pushDiag st n 0 "posting is not allowed inside an account declaration"
         else postingLine st n line headerLn txn) := by
  obtain ⟨r, hr⟩ := hsp
  have haccount : ¬(line = accountKw ∨ (accountKw ++ [' ']).isPrefixOf line = true ∨
      (accountKw ++ ['\t']).isPrefixOf line = true) := by
    subst hr
    rintro (h | h | h)
    · simp [fourSpaces, accountKw] at h
    · exact absurd (prefix_head_eq h) (by decide)
    · exact absurd (prefix_head_eq h) (by decide)
  have hpre : fourSpaces.isPrefixOf line = true := by
    rw [hr]
    exact isPrefixOf_append fourSpaces r
  unfold parseLine
  rw [hcr]
  dsimp only
  rw [hnb, hnd]
  simp only [Bool.false_eq_true, if_false]
  rw [if_neg haccount, if_pos hpre]


/-- C6: for every input text, the ok flag of the ParseResult returned by
parse_transactions is true if and only if the diagnostics list is empty. -/
theorem c6_ok_iff_no_diagnostics (contents : Str) :
    (parse_transactions contents).ok = true ↔ (parse_transactions contents).diagnostics = [] := by
  show (parserFinal contents).diagnostics.isEmpty = true ↔
    (parserFinal contents).diagnostics = []
  exact List.isEmpty_iff

theorem flush_transaction_current (st : PState) : (flush_transaction st).current = none := by
  obtain ⟨d, cur, ca, t, ad⟩ := st
  rcases cur with _ | ⟨hl, txn⟩ <;> rfl

theorem flush_transaction_currentAccount (st : PState) :
    (flush_transaction st).currentAccount = st.currentAccount := by
  obtain ⟨d, cur, ca, t, ad⟩ := st
  rcases cur with _ | ⟨hl, txn⟩ <;> rfl

theorem flushAccount_currentAccount (st : PState) : (flushAccount st).currentAccount = none := by
  obtain ⟨d, cur, ca, t, ad⟩ := st
  rcases ca with _ | ⟨dl, decl⟩ <;> rfl

theorem flushAccount_current (st : PState) : (flushAccount st).current = st.current := by
  obtain ⟨d, cur, ca, t, ad⟩ := st
  rcases ca with _ | ⟨dl, decl⟩ <;> rfl

theorem accountDeclLine_current (st : PState) (n : Nat) (l : Str) :
    (accountDeclLine st n l).current = st.current := by
  unfold accountDeclLine pushDiag
  dsimp only
  repeat' split
  all_goals rfl

theorem subDeclLine_current (st : PState) (n : Nat) (l : Str) (dl : Nat)
    (d : AccountDeclaration) : (subDeclLine st n l dl d).current = st.current := by
  unfold subDeclLine pushDiag
  dsimp only
  repeat' split
  all_goals rfl

theorem postingLine_currentAccount (st : PState) (n : Nat) (l : Str) (hl : Nat)
    (t : Transaction) : (postingLine st n l hl t).currentAccount = st.currentAccount := by
  unfold postingLine pushDiag
  dsimp only
  repeat' split
  all_goals rfl

theorem headerLine_currentAccount (st : PState) (n : Nat) (l : Str) (d t : Str) (e : Nat) :
    (headerLine st n l d t e).currentAccount = st.currentAccount := by
  unfold headerLine pushDiag
  dsimp only
  repeat' split
  all_goals rfl

theorem parseLine_exclusive (st : PState) (n : Nat) (l : Str) (h : exclusiveOpen st) :
    exclusiveOpen (parseLine st n l) := by
  obtain ⟨d, cur, ca, t, ad⟩ := st
  rcases h with h | h <;> dsimp only at h <;> subst h
  · rcases ca with _ | ⟨dl, decl⟩ <;>
      (unfold parseLine; dsimp only; repeat' split) <;>
      first
        | exact Or.inl rfl
        | exact Or.inr rfl
        | exact Or.inr (flushAccount_currentAccount _)
        | exact Or.inr (headerLine_currentAccount _ _ _ _ _ _)
        | exact Or.inl (by rw [accountDeclLine_current, flushAccount_current,
            flush_transaction_current])
        | exact Or.inl (by rw [subDeclLine_current])
  · rcases cur with _ | ⟨hl, txn⟩ <;>
      (unfold parseLine; dsimp only; repeat' split) <;>
      first
        | exact Or.inl rfl
        | exact Or.inr rfl
        | exact Or.inr (flushAccount_currentAccount _)
        | exact Or.inr (headerLine_currentAccount _ _ _ _ _ _)
        | exact Or.inl (by rw [accountDeclLine_current, flushAccount_current,
            flush_transaction_current])
        | exact Or.inl (by rw [subDeclLine_current])
        | exact Or.inr (by rw [postingLine_currentAccount])

theorem parseStates_exclusive_aux :
    ∀ (ls : List (Nat × Str)) (st0 : PState), exclusiveOpen st0 →
      ∀ st ∈ ls.scanl (fun st p => parseLine st p.1 p.2) st0, exclusiveOpen st := by
  intro ls
  induction ls with
  | nil =>
    intro st0 h0 st hm
    simp [List.scanl] at hm
    rw [hm]
    exact h0
  | cons p ps ih =>
    intro st0 h0 st hm
    rw [List.scanl_cons] at hm
    rcases List.mem_append.mp hm with hh | hh
    · rw [List.mem_singleton.mp hh]
      exact h0
    · exact ih (parseLine st0 p.1 p.2) (parseLine_exclusive st0 p.1 p.2 h0) st hh

/-- C10: throughout the line-by-line traversal of parse_transactions, at
most one of the open transaction and the open account declaration is
present in every intermediate state. -/
theorem c10_never_both_open (contents : Str) (st : PState) (hm : st ∈ parseStates contents) :
    st.current = none ∨ st.currentAccount = none :=
  parseStates_exclusive_aux _ initState (Or.inl rfl) st hm

/-- Witness for C10 at a concrete input and state. -/
theorem c10_never_both_open_witness :
    initState.current = none ∨ initState.currentAccount = none :=
  c10_never_both_open [] initState (by decide)


/-- C8 counterexample: a posting-shaped indented line while an account
declaration is open yields the diagnostic unknown account declaration
entry, not the claimed posting-not-allowed diagnostic. -/
theorem c8_counterexample :
    (parse_transactions (S "account a:b USD\n    c:d 1.00 USD\n")).diagnostics =
      [⟨2, 4, "unknown account declaration entry: c:d"⟩] := by decide

/-- C8 (amended): an indented posting-shaped line (account, amount and
commodity tokens) while an account declaration is open and no transaction
is yields the diagnostic unknown account declaration entry naming the
first token, and nothing else changes. -/
theorem c8_decl_posting_unknown_entry (st : PState) (n declLn : Nat)
    (decl : AccountDeclaration) (acc amt comm : Str)
    (hcur : st.current = none) (hacct : st.currentAccount = some (declLn, decl))
    (hacc : account_re acc = true) (hamt : amount_re amt = true)
    (hcomm : commodity_re comm = true) :
    parseLine st n (fourSpaces ++ (acc ++ (' ' :: (amt ++ (' ' :: comm))))) =
      pushDiag st n 4 ("unknown account declaration entry: " ++ String.mk acc) := by
  have haccne := account_re_ne_nil hacc
  obtain ⟨a0, accTl, hacc0⟩ : ∃ a0 tl, acc = a0 :: tl := by
    cases acc with
    | nil => exact absurd rfl haccne
    | cons x xs => exact ⟨x, xs, rfl⟩
  have ha0acc : a0 ∈ acc := by rw [hacc0]; simp
  have hmemtail : ∀ c ∈ acc ++ (' ' :: (amt ++ (' ' :: comm))),
      c = ' ' ∨ c ∈ acc ∨ c ∈ amt ∨ c ∈ comm := by
    intro c hc
    simp only [List.mem_append, List.mem_cons] at hc
    tauto
  have hmem : ∀ c ∈ fourSpaces ++ (acc ++ (' ' :: (amt ++ (' ' :: comm)))),
      c = ' ' ∨ c ∈ acc ∨ c ∈ amt ∨ c ∈ comm := by
    intro c hc
    rcases List.mem_append.mp hc with h1 | h1
    · left
      rcases (by simpa [fourSpaces] using h1 : c = ' ') with h2
      exact h2
    · exact hmemtail c h1
  have hcr : trimEndCR (fourSpaces ++ (acc ++ (' ' :: (amt ++ (' ' :: comm))))) =
      fourSpaces ++ (acc ++ (' ' :: (amt ++ (' ' :: comm)))) := by
    apply trimEndCR_eq_self
    intro c hc
    rcases hmem c hc with h1 | h1 | h1 | h1
    · rw [h1]; decide
    · exact not_ws_ne_cr (account_re_not_ws hacc c h1)
    · exact not_ws_ne_cr (amount_re_not_ws hamt c h1)
    · exact not_ws_ne_cr (commodity_re_not_ws hcomm c h1)
  have hnb : is_blank (fourSpaces ++ (acc ++ (' ' :: (amt ++ (' ' :: comm))))) = false := by
    apply @is_blank_false_of_mem _ a0
    · simp [ha0acc]
    · exact account_re_not_ws hacc a0 ha0acc
  have hnd : is_directive (fourSpaces ++ (acc ++ (' ' :: (amt ++ (' ' :: comm))))) = false := by
    unfold is_directive
    rw [@List.dropWhile_append_of_pos Char isSpaceTab fourSpaces _ (by decide)]
    rw [hacc0, List.cons_append, List.dropWhile_cons,
      if_neg (by simp [not_ws_not_spaceTab (account_re_not_ws hacc a0 ha0acc)])]
    simp only []
    rw [beq_eq_false_iff_ne]
    exact account_re_not_semi hacc a0 ha0acc
  rw [parseLine_indented st n _ hcr hnb hnd ⟨_, rfl⟩]
  rw [hcur]
  dsimp only
  rw [hacct]
  dsimp only
  unfold subDeclLine
  have hdrop : (fourSpaces ++ (acc ++ (' ' :: (amt ++ (' ' :: comm))))).drop 4 =
      acc ++ (' ' :: (amt ++ (' ' :: comm))) := by
    have h := List.drop_left fourSpaces (acc ++ (' ' :: (amt ++ (' ' :: comm))))
    rw [show fourSpaces.length = 4 from rfl] at h
    exact h
  rw [hdrop]
  dsimp only
  have hbm : beforeMeta (acc ++ (' ' :: (amt ++ (' ' :: comm)))) =
      acc ++ (' ' :: (amt ++ (' ' :: comm))) := by
    apply beforeMeta_eq_self
    intro c hc
    rcases hmemtail c hc with h1 | h1 | h1 | h1
    · rw [h1]; decide
    · exact account_re_not_semi hacc c h1
    · exact amount_re_not_semi hamt c h1
    · exact commodity_re_not_semi hcomm c h1
  rw [hbm]
  have hsw : splitWhitespace (acc ++ (' ' :: (amt ++ (' ' :: comm)))) = [acc, amt, comm] := by
    rw [splitWhitespace_token_space haccne (account_re_not_ws hacc),
      splitWhitespace_token_space (amount_re_ne_nil hamt) (amount_re_not_ws hamt),
      splitWhitespace_single (commodity_re_ne_nil hcomm) (commodity_re_not_ws hcomm)]
  rw [hsw]
  have hne_open : acc ≠ openingKw := by
    intro he
    rw [he] at hacc
    exact absurd hacc (by decide)
  dsimp only
  rw [if_neg hne_open]


/-- Witness for the amended C8 at concrete inputs. -/
theorem c8_decl_posting_unknown_entry_witness :
    parseLine ⟨[], none, some (1, ⟨S "a:b", some (S "USD"), none⟩), [], []⟩ 2
        (fourSpaces ++ (S "c:d" ++ (' ' :: (S "1.00" ++ (' ' :: S "USD"))))) =
      pushDiag ⟨[], none, some (1, ⟨S "a:b", some (S "USD"), none⟩), [], []⟩ 2 4
        ("unknown account declaration entry: " ++ String.mk (S "c:d")) :=
  c8_decl_posting_unknown_entry _ 2 1 _ _ _ _ rfl rfl (by decide) (by decide) (by decide)

/-- C9: on a posting line inside an open transaction, a missing account is
impossible (the line would be blank), a present account with no amount
token yields the missing-amount diagnostic and no commodity diagnostic,
a present amount with no commodity token yields the missing-commodity
diagnostic, and in each of these cases no posting is added and the state
is otherwise unchanged. -/
theorem c9_posting_missing_fields (st : PState) (n headerLn : Nat) (txn : Transaction)
    (line : Str)
    (hcur : st.current = some (headerLn, txn)) (hacct : st.currentAccount = none)
    (hcr : trimEndCR line = line) (hnd : is_directive line = false)
    (hsp : ∃ r, line = fourSpaces ++ r) :
    (is_blank line = false → splitWhitespace (line.drop 4) ≠ []) ∧
    (∀ acc, splitWhitespace (line.drop 4) = [acc] → is_blank line = false →
      parseLine st n line =
        { st with diagnostics := st.diagnostics ++
            (if account_re acc then []
              else [⟨n, 4, ("invalid account path: " ++ String.mk acc)⟩]) ++
            [⟨n, 4 + acc.length + 1, "missing amount"⟩] }) ∧
    (∀ acc amt, splitWhitespace (line.drop 4) = [acc, amt] → is_blank line = false →
      parseLine st n line =
        { st with diagnostics := st.diagnostics ++
            (if account_re acc then []
              else [⟨n, 4, ("invalid account path: " ++ String.mk acc)⟩]) ++
            (if amount_re amt then []
              else [⟨n, 4 + acc.length + 1, ("invalid amount: " ++ String.mk amt)⟩]) ++
            [⟨n, 4 + acc.length + 1 + amt.length + 1, "missing commodity"⟩] }) := by
  obtain ⟨r, hr⟩ := hsp
  have hdrop : line.drop 4 = r := by
    rw [hr]
    have h := List.drop_left fourSpaces r
    rw [show fourSpaces.length = 4 from rfl] at h
    exact h
  refine ⟨?_, ?_, ?_⟩
  · intro hnb hswnil
    rw [hdrop] at hswnil
    have hall := (splitWhitespace_eq_nil_iff r).mp hswnil
    have : is_blank line = true := by
      rw [is_blank_iff]
      intro c hc
      rw [hr] at hc
      rcases List.mem_append.mp hc with h1 | h1
      · have : c = ' ' := by simpa [fourSpaces] using h1
        rw [this]; decide
      · exact hall c h1
    rw [this] at hnb
    exact Bool.noConfusion hnb
  · intro acc hsw hnb
    rw [parseLine_indented st n line hcr hnb hnd ⟨r, hr⟩, hcur]
    dsimp only
    rw [hacct]
    simp only [Option.isSome_none, Bool.false_eq_true, if_false]
    unfold postingLine
    dsimp only
    rw [hsw]
    by_cases hre : account_re acc = true <;>
      simp [pushDiag, hre, List.append_assoc] <;>
      exact ⟨hcur, hacct⟩
  · intro acc amt hsw hnb
    rw [parseLine_indented st n line hcr hnb hnd ⟨r, hr⟩, hcur]
    dsimp only
    rw [hacct]
    simp only [Option.isSome_none, Bool.false_eq_true, if_false]
    unfold postingLine
    dsimp only
    rw [hsw]
    by_cases hre : account_re acc = true <;> by_cases hra : amount_re amt = true <;>
      simp [pushDiag, hre, hra, List.append_assoc] <;>
      exact ⟨hcur, hacct⟩


/-- Witness for C9 at a concrete open transaction and posting line. -/
theorem c9_posting_missing_fields_witness :
    parseLine ⟨[], some (1, ⟨S "2026-01-15", S "2026-01-15", none, none, none, none, []⟩),
        none, [], []⟩ 2 (S "    assets:cash") =
      { (⟨[], some (1, ⟨S "2026-01-15", S "2026-01-15", none, none, none, none, []⟩),
          none, [], []⟩ : PState) with
        diagnostics := [⟨2, 16, "missing amount"⟩] } := by
  have h := (c9_posting_missing_fields
    ⟨[], some (1, ⟨S "2026-01-15", S "2026-01-15", none, none, none, none, []⟩), none, [], []⟩
    2 1 ⟨S "2026-01-15", S "2026-01-15", none, none, none, none, []⟩ (S "    assets:cash")
    rfl rfl (by decide) (by decide) ⟨S "assets:cash", rfl⟩).2.1
    (S "assets:cash") (by decide) (by decide)
  rw [h]
  decide

/-! Filesystem map lemmas for the store claims. -/

theorem fsRead_fsWrite_same (fs : Files) (p c : Str) : fsRead (fsWrite fs p c) p = some c := by
  induction fs with
  | nil =>
    show fsRead [(p, c)] p = some c
    unfold fsRead
    rw [List.find?_cons_of_pos _ (by simp)]
    rfl
  | cons e rest ih =>
    unfold fsWrite
    by_cases he : e.1 = p
    · rw [if_pos he]
      unfold fsRead
      rw [List.find?_cons_of_pos _ (by simp)]
      rfl
    · rw [if_neg he]
      unfold fsRead at ih ⊢
      rw [List.find?_cons_of_neg _ (by simpa using he)]
      exact ih

theorem fsRead_fsWrite_other (fs : Files) (p q c : Str) (h : q ≠ p) :
    fsRead (fsWrite fs p c) q = fsRead fs q := by
  induction fs with
  | nil =>
    show fsRead [(p, c)] q = fsRead [] q
    unfold fsRead
    rw [List.find?_cons_of_neg _ (by simp only [decide_eq_true_eq]; exact fun hq => h hq.symm)]
  | cons e rest ih =>
    unfold fsWrite
    by_cases he : e.1 = p
    · rw [if_pos he]
      unfold fsRead
      rw [List.find?_cons_of_neg _ (by simp only [decide_eq_true_eq]; exact fun hq => h hq.symm),
        List.find?_cons_of_neg _ (by
          simp only [decide_eq_true_eq]
          exact fun hq => h (hq.symm.trans he))]
    · rw [if_neg he]
      by_cases heq : e.1 = q
      · unfold fsRead
        rw [List.find?_cons_of_pos _ (by simpa using heq),
          List.find?_cons_of_pos _ (by simpa using heq)]
      · unfold fsRead at ih ⊢
        rw [List.find?_cons_of_neg _ (by simpa using heq),
          List.find?_cons_of_neg _ (by simpa using heq)]
        exact ih

theorem fsRead_fsRemove_other (fs : Files) (p q : Str) (h : q ≠ p) :
    fsRead (fsRemove fs p) q = fsRead fs q := by
  induction fs with
  | nil => rfl
  | cons e rest ih =>
    unfold fsRemove
    by_cases he : e.1 = p
    · rw [if_pos he]
      unfold fsRead
      rw [List.find?_cons_of_neg _ (by
        simp only [decide_eq_true_eq]
        exact fun hq => h (hq.symm.trans he))]
    · rw [if_neg he]
      by_cases heq : e.1 = q
      · unfold fsRead
        rw [List.find?_cons_of_pos _ (by simpa using heq),
          List.find?_cons_of_pos _ (by simpa using heq)]
      · unfold fsRead at ih ⊢
        rw [List.find?_cons_of_neg _ (by simpa using heq),
          List.find?_cons_of_neg _ (by simpa using heq)]
        exact ih

theorem joinPath_ne_of_ne (base : Str) {r1 r2 : Str} (h : r1 ≠ r2) :
    joinPath base r1 ≠ joinPath base r2 := by
  intro he
  unfold joinPath at he
  have h2 := List.append_cancel_left he
  exact h (by injection h2)

theorem archiveRel_ne_ledgerRel (ym : Str) : archiveRel ym ≠ ledgerRel := by
  intro he
  unfold archiveRel ledgerRel at he
  have h2 : some 'a' = some 'l' := by
    have h3 := congrArg List.head? he
    simp only [S] at h3
    exact h3
  exact absurd (by injection h2) (show ('a' : Char) ≠ 'l' from by decide)

/-- What a non-trivial rotation does to the file map when the target
archive file does not exist yet. -/
theorem rotate_moves (st : StoreState) (base now ym contents : Str)
    (hread : fsRead st.files (ledgerPath base) = some contents)
    (hne : (trim contents).isEmpty = false)
    (hym : (parse_yyyymm_from_contents contents).getD unknownStr = ym)
    (hdiff : ym ≠ now)
    (harch : fsRead st.files (archivePath base ym) = none) :
    rotate_ledger_if_needed st base now =
      { st with files := fsWrite (fsWrite (fsRemove st.files (ledgerPath base)) (archivePath base ym) contents) (ledgerPath base) [] } := by
  unfold rotate_ledger_if_needed
  rw [hread]
  dsimp only
  rw [hne]
  simp only [Bool.false_eq_true, if_false]
  rw [hym, if_neg hdiff]
  have huniq : unique_archive_path st.files base ym = archivePath base ym := by
    unfold unique_archive_path
    rw [if_pos (by simp [fsExists, harch])]
  rw [huniq]

/-- C2 (amended): when the active ledger's content carries month m, the
current month differs, and the target archive file does not already exist,
rotation empties the active file and moves the content to
archive/ledger-m.transactions; rotating again is a no-op, and rotation is
always a no-op when the active file is absent or trim-empty.  (When the
target archive file already exists the content goes to a disambiguated
-2, -3, ... name instead: see the counterexample.) -/
theorem c2_rotation (st : StoreState) (base now m contents : Str)
    (hread : fsRead st.files (ledgerPath base) = some contents)
    (hne : (trim contents).isEmpty = false)
    (hym : parse_yyyymm_from_contents contents = some m)
    (hdiff : m ≠ now)
    (harch : fsRead st.files (archivePath base m) = none) :
    fsRead (rotate_ledger_if_needed st base now).files (ledgerPath base) = some [] ∧
    fsRead (rotate_ledger_if_needed st base now).files (archivePath base m) = some contents ∧
    rotate_ledger_if_needed (rotate_ledger_if_needed st base now) base now =
      rotate_ledger_if_needed st base now ∧
    (∀ st2 : StoreState, fsRead st2.files (ledgerPath base) = none →
      rotate_ledger_if_needed st2 base now = st2) ∧
    (∀ (st2 : StoreState) (c2 : Str), fsRead st2.files (ledgerPath base) = some c2 →
      (trim c2).isEmpty = true → rotate_ledger_if_needed st2 base now = st2) := by
  have hmv := rotate_moves st base now m contents hread hne (by rw [hym]; rfl) hdiff harch
  have hledger : fsRead (rotate_ledger_if_needed st base now).files (ledgerPath base) =
      some [] := by
    rw [hmv]
    exact fsRead_fsWrite_same _ _ _
  have hnoop : ∀ st2 : StoreState, fsRead st2.files (ledgerPath base) = none →
      rotate_ledger_if_needed st2 base now = st2 := by
    intro st2 h2
    unfold rotate_ledger_if_needed
    rw [h2]
  have hnoop2 : ∀ (st2 : StoreState) (c2 : Str),
      fsRead st2.files (ledgerPath base) = some c2 →
      (trim c2).isEmpty = true → rotate_ledger_if_needed st2 base now = st2 := by
    intro st2 c2 h2 hb
    unfold rotate_ledger_if_needed
    rw [h2]
    dsimp only
    rw [hb]
    simp
  refine ⟨hledger, ?_, ?_, hnoop, hnoop2⟩
  · rw [hmv]
    dsimp only
    have hne2 : archivePath base m ≠ ledgerPath base :=
      joinPath_ne_of_ne base (archiveRel_ne_ledgerRel m)
    rw [fsRead_fsWrite_other _ _ _ _ hne2]
    exact fsRead_fsWrite_same _ _ _
  · exact hnoop2 _ [] hledger rfl


/-- Witness for C2 at a concrete store. -/
theorem c2_rotation_witness :
    fsRead (rotate_ledger_if_needed ⟨[(ledgerPath (S "b"), S "2026-01-16 x ; m")], [], []⟩
        (S "b") (S "202602")).files (ledgerPath (S "b")) = some [] ∧
    fsRead (rotate_ledger_if_needed ⟨[(ledgerPath (S "b"), S "2026-01-16 x ; m")], [], []⟩
        (S "b") (S "202602")).files (archivePath (S "b") (S "202601")) =
      some (S "2026-01-16 x ; m") := by
  have h := c2_rotation ⟨[(ledgerPath (S "b"), S "2026-01-16 x ; m")], [], []⟩ (S "b")
    (S "202602") (S "202601") (S "2026-01-16 x ; m")
    (by decide) (by decide) (by decide) (by decide) (by decide)
  exact ⟨h.1, h.2.1⟩

/-- C2 counterexample: when archive/ledger-M.transactions already exists,
rotation moves the active content to the disambiguated -2 name, so the
claimed archive file does not hold the original active content. -/
theorem c2_counterexample :
    fsRead (rotate_ledger_if_needed ⟨[(ledgerPath (S "b"), S "2026-01-16 x ; m"),
        (archivePath (S "b") (S "202601"), S "OLD")], [], []⟩ (S "b") (S "202602")).files
      (archivePath (S "b") (S "202601")) = some (S "OLD") ∧
    fsRead (rotate_ledger_if_needed ⟨[(ledgerPath (S "b"), S "2026-01-16 x ; m"),
        (archivePath (S "b") (S "202601"), S "OLD")], [], []⟩ (S "b") (S "202602")).files
      (joinPath (S "b") (archiveNumberedRel (S "202601") 2)) = some (S "2026-01-16 x ; m") := by
  decide

theorem pyGo_characterization (ls : List Str) :
    pyGo ls = ((ls.map trim).find? (fun l => !(l.isEmpty || (l.head? == some ';')))).bind
      (fun l => if looksDate7 l then some (l.take 4 ++ (l.drop 5).take 2) else none) := by
  induction ls with
  | nil => rfl
  | cons raw rest ih =>
    unfold pyGo
    rw [List.map_cons]
    cases htr : trim raw with
    | nil =>
      show pyGo rest = _
      rw [List.find?_cons_of_neg _ (by simp)]
      exact ih
    | cons c tl =>
      show (if (c == ';') = true then pyGo rest
        else if looksDate7 (c :: tl) = true then
          some ((c :: tl).take 4 ++ ((c :: tl).drop 5).take 2) else none) = _
      by_cases hc : (c == ';') = true
      · rw [if_pos hc, List.find?_cons_of_neg _ (by
          show ¬(!((c :: tl).isEmpty || ((c :: tl).head? == some ';'))) = true
          rw [show ((c :: tl).head? == some ';') = (c == ';') from rfl]
          simp [hc])]
        exact ih
      · rw [if_neg hc, List.find?_cons_of_pos _ (by
          show (!((c :: tl).isEmpty || ((c :: tl).head? == some ';'))) = true
          rw [show ((c :: tl).head? == some ';') = (c == ';') from rfl]
          simp
          exact fun he => hc (by rw [he]; rfl))]
        rfl

/-- C7 (amended): rotation derives the year-month by examining only the
first non-blank, non-comment line of the active content: if that line has
the date-like prefix its year-month is used, otherwise the month is
undetermined; undetermined content is archived under
archive/ledger-unknown.transactions when the current month differs (and
the archive target does not already exist). -/
theorem c7_month_from_first_line_only (contents : Str) :
    (parse_yyyymm_from_contents contents =
      (firstRelevantLine contents).bind
        (fun l => if looksDate7 l then some (l.take 4 ++ (l.drop 5).take 2) else none)) ∧
    (∀ (st : StoreState) (base now : Str),
      fsRead st.files (ledgerPath base) = some contents →
      (trim contents).isEmpty = false →
      parse_yyyymm_from_contents contents = none →
      now ≠ unknownStr →
      fsRead st.files (archivePath base unknownStr) = none →
      fsRead (rotate_ledger_if_needed st base now).files (archivePath base unknownStr) =
          some contents ∧
        fsRead (rotate_ledger_if_needed st base now).files (ledgerPath base) = some []) := by
  constructor
  · exact pyGo_characterization (rustLines contents)
  · intro st base now hread hne hnone hnunk harch
    have hmv := rotate_moves st base now unknownStr contents hread hne (by rw [hnone]; rfl)
      (fun he => hnunk he.symm) harch
    constructor
    · rw [hmv]
      dsimp only
      have hne2 : archivePath base unknownStr ≠ ledgerPath base :=
        joinPath_ne_of_ne base (archiveRel_ne_ledgerRel unknownStr)
      rw [fsRead_fsWrite_other _ _ _ _ hne2]
      exact fsRead_fsWrite_same _ _ _
    · rw [hmv]
      exact fsRead_fsWrite_same _ _ _

/-- Witness for C7 at a concrete store whose ledger has no date-like line. -/
theorem c7_month_from_first_line_only_witness :
    fsRead (rotate_ledger_if_needed ⟨[(ledgerPath (S "b"), S "x ; m")], [], []⟩ (S "b")
        (S "202602")).files (archivePath (S "b") unknownStr) = some (S "x ; m") ∧
    fsRead (rotate_ledger_if_needed ⟨[(ledgerPath (S "b"), S "x ; m")], [], []⟩ (S "b")
        (S "202602")).files (ledgerPath (S "b")) = some [] :=
  (c7_month_from_first_line_only (S "x ; m")).2
    ⟨[(ledgerPath (S "b"), S "x ; m")], [], []⟩ (S "b") (S "202602")
    (by decide) (by decide) (by decide) (by decide) (by decide)

/-- C7 counterexample: a date-like line after a non-date first line is not
scanned; the code treats the content as month unknown while the claimed
scan would find 202601. -/
theorem c7_counterexample :
    parse_yyyymm_from_contents (S "note\n2026-01-15 x ; m\n") = none ∧
    specScanAllYM (S "note\n2026-01-15 x ; m\n") = some (S "202601") ∧
    fsRead (rotate_ledger_if_needed
        ⟨[(ledgerPath (S "b"), S "note\n2026-01-15 x ; m\n")], [], []⟩
        (S "b") (S "202602")).files (archivePath (S "b") (S "unknown")) =
      some (S "note\n2026-01-15 x ; m\n") := by
  decide


/-! Lemmas for the normalizer idempotence claim. -/

theorem splitOnC_ne_nil {sep : Char} : ∀ (s : Str), splitOnC sep s ≠ [] := by
  intro s
  induction s with
  | nil => simp [splitOnC]
  | cons a rest ih =>
    unfold splitOnC
    by_cases ha : a = sep
    · rw [if_pos ha]
      simp
    · rw [if_neg ha]
      cases hr : splitOnC sep rest with
      | nil => simp
      | cons l ls => simp

theorem splitOnC_no_sep {sep : Char} : ∀ {s : Str}, (∀ c ∈ s, c ≠ sep) →
    splitOnC sep s = [s] := by
  intro s
  induction s with
  | nil => intro h; rfl
  | cons a rest ih =>
    intro h
    unfold splitOnC
    rw [if_neg (h a (by simp)), ih (fun c hc => h c (List.mem_cons_of_mem a hc))]

theorem splitOnC_sep_append {sep : Char} : ∀ {x : Str} (t : Str), (∀ c ∈ x, c ≠ sep) →
    splitOnC sep (x ++ sep :: t) = x :: splitOnC sep t := by
  intro x
  induction x with
  | nil =>
    intro t h
    show splitOnC sep (sep :: t) = _
    conv_lhs => unfold splitOnC
    rw [if_pos rfl]
  | cons a xs ih =>
    intro t h
    show splitOnC sep (a :: (xs ++ sep :: t)) = _
    conv_lhs => unfold splitOnC
    rw [if_neg (h a (by simp)), ih t (fun c hc => h c (List.mem_cons_of_mem a hc))]

theorem splitOnC_joinSep {sep : Char} : ∀ (ls : List Str), ls ≠ [] →
    (∀ l ∈ ls, ∀ c ∈ l, c ≠ sep) → splitOnC sep (joinSep sep ls) = ls := by
  intro ls
  induction ls with
  | nil => intro h; exact absurd rfl h
  | cons x xs ih =>
    intro _ hn
    cases xs with
    | nil => exact splitOnC_no_sep (hn x (by simp))
    | cons y ys =>
      show splitOnC sep (x ++ sep :: joinSep sep (y :: ys)) = _
      rw [splitOnC_sep_append _ (hn x (by simp)),
        ih (by simp) (fun l hl => hn l (List.mem_cons_of_mem x hl))]

theorem splitOnC_mem_no_sep {sep : Char} : ∀ {s l : Str}, l ∈ splitOnC sep s →
    ∀ c ∈ l, c ≠ sep := by
  intro s
  induction s with
  | nil =>
    intro l hl c hc
    simp [splitOnC] at hl
    subst hl
    simp at hc
  | cons a rest ih =>
    intro l hl c hc
    unfold splitOnC at hl
    by_cases ha : a = sep
    · rw [if_pos ha] at hl
      rcases List.mem_cons.mp hl with h1 | h1
      · subst h1; simp at hc
      · exact ih h1 c hc
    · rw [if_neg ha] at hl
      cases hr : splitOnC sep rest with
      | nil => exact absurd hr (splitOnC_ne_nil rest)
      | cons m ms =>
        rw [hr] at hl
        rcases List.mem_cons.mp hl with h1 | h1
        · subst h1
          rcases List.mem_cons.mp hc with h2 | h2
          · subst h2; exact ha
          · exact ih (by rw [hr]; simp) c h2
        · exact ih (by rw [hr]; exact List.mem_cons_of_mem m h1) c hc

theorem normGo_mem : ∀ {ls : List Str} {last : Option Str} {b : Bool} {l : Str},
    l ∈ normGo ls last b → l ∈ ls ∨ l = [] := by
  intro ls
  induction ls with
  | nil =>
    intro last b l hl
    simp [normGo] at hl
  | cons x xs ih =>
    intro last b l hl
    unfold normGo at hl
    by_cases hi : insCond last b x = true
    · rw [if_pos hi] at hl
      rcases (by simpa using hl : l = [] ∨ l = x ∨ l ∈ normGo xs (some x) (nextPrev x)) with
        h1 | h1 | h1
      · exact Or.inr h1
      · exact Or.inl (by simp [h1])
      · rcases ih h1 with h3 | h3
        · exact Or.inl (List.mem_cons_of_mem x h3)
        · exact Or.inr h3
    · rw [if_neg hi] at hl
      rcases (by simpa using hl : l = x ∨ l ∈ normGo xs (some x) (nextPrev x)) with h1 | h1
      · exact Or.inl (by simp [h1])
      · rcases ih h1 with h3 | h3
        · exact Or.inl (List.mem_cons_of_mem x h3)
        · exact Or.inr h3

theorem normGo_ne_nil {ls : List Str} {last : Option Str} {b : Bool} (h : ls ≠ []) :
    normGo ls last b ≠ [] := by
  cases ls with
  | nil => exact absurd rfl h
  | cons x xs =>
    unfold normGo
    by_cases hi : insCond last b x = true
    · rw [if_pos hi]; simp
    · rw [if_neg hi]; simp

theorem insFree_normGo_eq : ∀ {ls : List Str} {last : Option Str} {b : Bool},
    insFree last b ls → normGo ls last b = ls := by
  intro ls
  induction ls with
  | nil => intro last b h; rfl
  | cons x xs ih =>
    intro last b h
    obtain ⟨h1, h2⟩ := h
    unfold normGo
    rw [if_neg (by simp [h1]), ih h2]
    rfl

theorem insCond_prev_false (last : Option Str) (l : Str) : insCond last false l = false := by
  unfold insCond
  simp

theorem insFree_normGo : ∀ (ls : List Str) (last : Option Str) (b : Bool),
    insFree last b (normGo ls last b) := by
  intro ls
  induction ls with
  | nil => intro last b; trivial
  | cons x xs ih =>
    intro last b
    unfold normGo
    by_cases hi : insCond last b x = true
    · rw [if_pos hi]
      refine ⟨?_, ?_, ?_⟩
      · unfold insCond looks_like_header
        simp
      · rw [show nextPrev ([] : Str) = false from rfl]
        exact insCond_prev_false _ _
      · exact ih (some x) (nextPrev x)
    · rw [if_neg hi]
      exact ⟨by simpa using hi, ih (some x) (nextPrev x)⟩

theorem insFree_append_left : ∀ {xs ys : List Str} {last : Option Str} {b : Bool},
    insFree last b (xs ++ ys) → insFree last b xs := by
  intro xs
  induction xs with
  | nil => intro ys last b h; trivial
  | cons x rest ih =>
    intro ys last b h
    obtain ⟨h1, h2⟩ := h
    exact ⟨h1, ih h2⟩

theorem dropLeadEmptyKeepOne_suffix (r : List Str) : (dropLeadEmptyKeepOne r).IsSuffix r := by
  induction r with
  | nil => exact List.suffix_refl _
  | cons x rest ih =>
    cases x with
    | nil =>
      unfold dropLeadEmptyKeepOne
      by_cases hr : rest = []
      · rw [if_pos hr]
        rw [hr]
      · rw [if_neg hr]
        exact ih.trans (List.suffix_cons [] rest)
    | cons c xs => exact List.suffix_refl _

theorem dropLeadEmptyKeepOne_idem (r : List Str) :
    dropLeadEmptyKeepOne (dropLeadEmptyKeepOne r) = dropLeadEmptyKeepOne r := by
  induction r with
  | nil => rfl
  | cons x rest ih =>
    cases x with
    | nil =>
      by_cases hr : rest = []
      · subst hr
        rfl
      · have hstep : dropLeadEmptyKeepOne ([] :: rest) = dropLeadEmptyKeepOne rest := by
          simp [dropLeadEmptyKeepOne, hr]
        rw [hstep]
        exact ih
    | cons c xs => rfl

theorem dropLeadEmptyKeepOne_ne_nil : ∀ {r : List Str}, r ≠ [] →
    dropLeadEmptyKeepOne r ≠ [] := by
  intro r
  induction r with
  | nil => intro h; exact absurd rfl h
  | cons x rest ih =>
    intro _
    cases x with
    | nil =>
      unfold dropLeadEmptyKeepOne
      by_cases hr : rest = []
      · rw [if_pos hr]; simp
      · rw [if_neg hr]; exact ih hr
    | cons c xs => simp [dropLeadEmptyKeepOne]

/-- C3: applying the blank-line normalizer twice yields the same output as
applying it once. -/
theorem c3_normalize_idempotent (s : Str) :
    normalize_blank_lines (normalize_blank_lines s) = normalize_blank_lines s := by
  unfold normalize_blank_lines
  dsimp only
  set L := splitOnC '\n' s with hL
  set out1 := normGo L none false with hout1
  set out2 := (dropLeadEmptyKeepOne out1.reverse).reverse with hout2
  have hsuffix : out2.reverse.IsSuffix out1.reverse := by
    rw [hout2, List.reverse_reverse]
    exact dropLeadEmptyKeepOne_suffix _
  have hprefix : out2.IsPrefix out1 :=
    List.reverse_suffix.mp hsuffix
  have hnosep : ∀ l ∈ out2, ∀ c ∈ l, c ≠ '\n' := by
    intro l hl c hc
    have hl1 : l ∈ out1 := hprefix.subset hl
    rcases normGo_mem hl1 with h1 | h1
    · exact splitOnC_mem_no_sep h1 c hc
    · subst h1; simp at hc
  have hne : out2 ≠ [] := by
    rw [hout2]
    simp only [ne_eq, List.reverse_eq_nil_iff]
    apply dropLeadEmptyKeepOne_ne_nil
    simp only [ne_eq, List.reverse_eq_nil_iff]
    exact normGo_ne_nil (splitOnC_ne_nil s)
  rw [splitOnC_joinSep out2 hne hnosep]
  have hins : insFree none false out2 := by
    obtain ⟨t, ht⟩ := hprefix
    have h1 := insFree_normGo L none false
    rw [← hout1] at h1
    rw [← ht] at h1
    exact insFree_append_left h1
  rw [insFree_normGo_eq hins]
  have hpop : dropLeadEmptyKeepOne out2.reverse = out2.reverse := by
    rw [hout2, List.reverse_reverse]
    exact dropLeadEmptyKeepOne_idem _
  rw [hpop, List.reverse_reverse]


/-! Lemmas for the import dedup claim. -/

theorem rotate_txnIds (st : StoreState) (base now : Str) :
    (rotate_ledger_if_needed st base now).txnIds = st.txnIds := by
  unfold rotate_ledger_if_needed
  dsimp only
  repeat' split
  all_goals rfl

theorem goodTxn_decompose {t : Transaction} (h : goodTxn t) :
    ∃ m i, t.meta = some m ∧ extract_txn_id m = some i ∧ idOf t = i := by
  obtain ⟨hp, hs⟩ := h
  cases hm : t.meta with
  | none => rw [hm] at hs; simp at hs
  | some m =>
    rw [hm, Option.some_bind] at hs
    cases hx : extract_txn_id m with
    | none => rw [hx] at hs; simp at hs
    | some i =>
      refine ⟨m, i, rfl, hx, ?_⟩
      unfold idOf
      rw [hm, Option.some_bind, hx]
      rfl

theorem ensure_txn_id_of_extract {fresh m i : Str} (hx : extract_txn_id m = some i) :
    ensure_txn_id fresh (some m) = (i, m, false) := by
  simp [ensure_txn_id, hx]

theorem importTxn_skip (base now : Str) (gens : Nat → Str) (st : StoreState)
    (stats : ImportStats) (k : Nat) (t : Transaction) (m i : Str)
    (hp : t.postings ≠ []) (hm : t.meta = some m) (hx : extract_txn_id m = some i)
    (hdup : i ∈ st.txnIds) :
    importTxn base now gens (st, stats, k) t =
      (st, { stats with skipped_duplicates := stats.skipped_duplicates + 1 }, k) := by
  unfold importTxn
  dsimp only
  rw [if_neg hp, hm, ensure_txn_id_of_extract hx]
  dsimp only
  rw [if_pos (List.elem_eq_true_of_mem hdup)]
  rfl

theorem importTxn_txnIds_mono (base now : Str) (gens : Nat → Str)
    (acc : StoreState × ImportStats × Nat) (t : Transaction) {x : Str}
    (hx : x ∈ acc.1.txnIds) : x ∈ (importTxn base now gens acc t).1.txnIds := by
  obtain ⟨st, stats, k⟩ := acc
  unfold importTxn
  dsimp only at hx ⊢
  split
  · exact hx
  · rcases he : ensure_txn_id (gens k) t.meta with ⟨id, m2, used⟩
    dsimp only
    split
    · exact hx
    · split
      · exact List.mem_append.mpr (Or.inl hx)
      · exact List.mem_append.mpr (Or.inl hx)

theorem importTxn_good_mem (base now : Str) (gens : Nat → Str) (st : StoreState)
    (stats : ImportStats) (k : Nat) (t : Transaction) (m i : Str)
    (hp : t.postings ≠ []) (hm : t.meta = some m) (hx : extract_txn_id m = some i) :
    i ∈ (importTxn base now gens (st, stats, k) t).1.txnIds := by
  unfold importTxn
  dsimp only
  rw [if_neg hp, hm, ensure_txn_id_of_extract hx]
  dsimp only
  split
  · rename_i hdup
    exact (List.elem_iff).mp hdup
  · split
    · exact List.mem_append.mpr (Or.inr (by simp))
    · exact List.mem_append.mpr (Or.inr (by simp))

theorem importTxn_fold_mono (base now : Str) (gens : Nat → Str) :
    ∀ (txns : List Transaction) (acc : StoreState × ImportStats × Nat) {x : Str},
      x ∈ acc.1.txnIds → x ∈ (txns.foldl (importTxn base now gens) acc).1.txnIds := by
  intro txns
  induction txns with
  | nil => intro acc x hx; exact hx
  | cons t rest ih =>
    intro acc x hx
    rw [List.foldl_cons]
    exact ih _ (importTxn_txnIds_mono base now gens acc t hx)

theorem importTxn_fold_mem (base now : Str) (gens : Nat → Str) :
    ∀ (txns : List Transaction) (acc : StoreState × ImportStats × Nat),
      (∀ t ∈ txns, goodTxn t) →
      ∀ t ∈ txns, idOf t ∈ (txns.foldl (importTxn base now gens) acc).1.txnIds := by
  intro txns
  induction txns with
  | nil => intro acc hg t ht; simp at ht
  | cons t0 rest ih =>
    intro acc hg t ht
    rw [List.foldl_cons]
    rcases List.mem_cons.mp ht with h1 | h1
    · subst h1
      obtain ⟨m, i, hm, hx, hid⟩ := goodTxn_decompose (hg t (by simp))
      rw [hid]
      obtain ⟨st, stats, k⟩ := acc
      exact importTxn_fold_mono base now gens rest _
        (importTxn_good_mem base now gens st stats k t m i (hg t (by simp)).1 hm hx)
    · exact ih _ (fun u hu => hg u (List.mem_cons_of_mem t0 hu)) t h1

theorem importTxn_fold_all_dup (base now : Str) (gens : Nat → Str) :
    ∀ (txns : List Transaction) (st : StoreState) (stats : ImportStats) (k : Nat),
      (∀ t ∈ txns, goodTxn t ∧ idOf t ∈ st.txnIds) →
      txns.foldl (importTxn base now gens) (st, stats, k) =
        (st, ⟨stats.imported, stats.skipped_duplicates + txns.length, stats.archived⟩, k) := by
  intro txns
  induction txns with
  | nil =>
    intro st stats k hg
    obtain ⟨i, s, a⟩ := stats
    rfl
  | cons t rest ih =>
    intro st stats k hg
    rw [List.foldl_cons]
    obtain ⟨hgood, hin⟩ := hg t (by simp)
    obtain ⟨m, i, hm, hx, hid⟩ := goodTxn_decompose hgood
    rw [importTxn_skip base now gens st stats k t m i hgood.1 hm hx (hid ▸ hin)]
    rw [ih st _ k (fun u hu => hg u (List.mem_cons_of_mem t hu))]
    dsimp only
    congr 2
    simp [List.length_cons]
    omega


theorem import_single_ids (st0 : StoreState) (base now p contents : Str) (g : Nat → Str)
    (H : ∀ t ∈ (parse_transactions contents).transactions, goodTxn t) :
    ∀ t ∈ (parse_transactions contents).transactions,
      idOf t ∈ (import_source_files st0 base now g [(p, contents)]).1.txnIds := by
  intro t ht
  have htne : (parse_transactions contents).transactions ≠ [] := by
    intro he
    rw [he] at ht
    simp at ht
  unfold import_source_files
  dsimp only
  rw [List.foldl_cons, List.foldl_nil]
  show idOf t ∈ (importFile base now g
    (rotate_ledger_if_needed st0 base now, ⟨0, 0, 0⟩, 0) (p, contents)).1.txnIds
  unfold importFile
  dsimp only
  split
  · rename_i he
    exact absurd he htne
  · exact importTxn_fold_mem base now g _ _ H t ht

theorem importFile_stats_all_dup (base now : Str) (g : Nat → Str) (st : StoreState)
    (p contents : Str)
    (H : ∀ t ∈ (parse_transactions contents).transactions, goodTxn t)
    (Hin : ∀ t ∈ (parse_transactions contents).transactions, idOf t ∈ st.txnIds) :
    (importFile base now g (st, ⟨0, 0, 0⟩, 0) (p, contents)).2.1 =
      ⟨0, (parse_transactions contents).transactions.length, 0⟩ := by
  unfold importFile
  dsimp only
  split
  · rename_i he
    rw [he]
    rfl
  · split
    · rw [importTxn_fold_all_dup base now g _ st ⟨0, 0, 0⟩ 0
        (fun u hu => ⟨H u hu, Hin u hu⟩)]
      simp
    · rw [importTxn_fold_all_dup base now g _ ⟨st.files, st.txnIds, st.sources ++ [p]⟩
        ⟨0, 0, 0⟩ 0 (fun u hu => ⟨H u hu, Hin u hu⟩)]
      simp

theorem import_single_stats (st : StoreState) (base now p contents : Str) (g : Nat → Str)
    (H : ∀ t ∈ (parse_transactions contents).transactions, goodTxn t)
    (Hin : ∀ t ∈ (parse_transactions contents).transactions, idOf t ∈ st.txnIds) :
    (import_source_files st base now g [(p, contents)]).2 =
      ⟨0, (parse_transactions contents).transactions.length, 0⟩ := by
  unfold import_source_files
  dsimp only
  rw [List.foldl_cons, List.foldl_nil]
  show (importFile base now g
    (rotate_ledger_if_needed st base now, ⟨0, 0, 0⟩, 0) (p, contents)).2.1 = _
  exact importFile_stats_all_dup base now g _ p contents H
    (fun u hu => by rw [rotate_txnIds]; exact Hin u hu)

/-- C1 (amended): importing the same source file twice with the same
current month reports, on the second run, imported = 0 and
skipped_duplicates equal to the number of transactions in the file,
provided every parsed transaction of the file has at least one posting
and carries an embedded txn: identifier in its meta comment.  (Without an
embedded identifier a fresh one is generated on each run, so the
transaction is imported again; zero-posting transactions are skipped
silently and counted in neither statistic.) -/
theorem c1_second_import_all_duplicates (st0 : StoreState) (base now p contents : Str)
    (g1 g2 : Nat → Str)
    (H : ∀ t ∈ (parse_transactions contents).transactions,
      t.postings ≠ [] ∧ (t.meta.bind extract_txn_id).isSome = true) :
    (import_source_files (import_source_files st0 base now g1 [(p, contents)]).1
        base now g2 [(p, contents)]).2 =
      ⟨0, (parse_transactions contents).transactions.length, 0⟩ :=
  import_single_stats _ base now p contents g2 H
    (import_single_ids st0 base now p contents g1 H)

/-- Witness for C1 at a concrete file whose transaction carries txn:abc. -/
theorem c1_second_import_all_duplicates_witness :
    (import_source_files (import_source_files ⟨[], [], []⟩ (S "b") (S "202601")
        (fun _ => S "gA") [(S "p", S "2026-01-15 * \"A\" \"B\" ; txn:abc\n    a:b 1.00 USD\n")]).1
      (S "b") (S "202601") (fun _ => S "gB")
      [(S "p", S "2026-01-15 * \"A\" \"B\" ; txn:abc\n    a:b 1.00 USD\n")]).2 =
      ⟨0, 1, 0⟩ := by
  have h := c1_second_import_all_duplicates ⟨[], [], []⟩ (S "b") (S "202601") (S "p")
    (S "2026-01-15 * \"A\" \"B\" ; txn:abc\n    a:b 1.00 USD\n")
    (fun _ => S "gA") (fun _ => S "gB") (by decide)
  rw [h]
  decide

/-- C1 counterexample: a source file whose transaction has no embedded
txn: identifier is imported again on the second run (a fresh identifier
is generated each time), so the second run reports imported = 1 and
skipped_duplicates = 0 against the claimed 0 and 1. -/
theorem c1_counterexample :
    (import_source_files (import_source_files ⟨[], [], []⟩ (S "b") (S "202601")
        (fun _ => S "gA") [(S "p", S "2026-01-15 * \"A\" \"B\" ; note\n    a:b 1.00 USD\n")]).1
      (S "b") (S "202601") (fun _ => S "gB")
      [(S "p", S "2026-01-15 * \"A\" \"B\" ; note\n    a:b 1.00 USD\n")]).2 =
      ⟨1, 0, 0⟩ := by decide


theorem strLt_irrefl : ∀ a : Str, strLt a a = false := by
  intro a
  induction a with
  | nil => rfl
  | cons c cs ih => simp [strLt, ih]

theorem strLt_trans : ∀ a b c : Str, strLt a b = true → strLt b c = true → strLt a c = true := by
  intro a
  induction a with
  | nil =>
    intro b c hab hbc
    cases b with
    | nil => simp [strLt] at hab
    | cons y ys =>
      cases c with
      | nil => simp [strLt] at hbc
      | cons z zs => simp [strLt]
  | cons x xs ih =>
    intro b c hab hbc
    cases b with
    | nil => simp [strLt] at hab
    | cons y ys =>
      cases c with
      | nil => simp [strLt] at hbc
      | cons z zs =>
        simp only [strLt] at hab hbc ⊢
        by_cases hxy : x < y
        · by_cases hyz : y < z
          · simp [lt_trans hxy hyz]
          · by_cases hzy : z < y
            · simp [hyz, hzy] at hbc
            · have hyz2 : y = z := le_antisymm (not_lt.mp hzy) (not_lt.mp hyz)
              subst hyz2
              simp [hxy]
        · by_cases hyx : y < x
          · simp [hxy, hyx] at hab
          · have hxy2 : x = y := le_antisymm (not_lt.mp hyx) (not_lt.mp hxy)
            subst hxy2
            simp only [lt_irrefl, if_false] at hab
            by_cases hxz : x < z
            · simp [hxz]
            · by_cases hzx : z < x
              · simp [hxz, hzx] at hbc
              · simp only [hxz, hzx, if_false] at hbc ⊢
                exact ih ys zs hab hbc

theorem strLt_conn : ∀ a b : Str, a ≠ b → strLt a b = true ∨ strLt b a = true := by
  intro a
  induction a with
  | nil =>
    intro b hne
    cases b with
    | nil => exact absurd rfl hne
    | cons y ys => left; rfl
  | cons x xs ih =>
    intro b hne
    cases b with
    | nil => right; rfl
    | cons y ys =>
      by_cases hxy : x < y
      · left; simp [strLt, hxy]
      · by_cases hyx : y < x
        · right; simp [strLt, hyx]
        · have hx : x = y := le_antisymm (not_lt.mp hyx) (not_lt.mp hxy)
          subst hx
          have hne2 : xs ≠ ys := by
            intro h
            exact hne (by rw [h])
          rcases ih ys hne2 with h | h
          · left; simp [strLt, h]
          · right; simp [strLt, h]

theorem findVal_eq_none {α : Type} (l : List (Str × α)) (k : Str)
    (h : ∀ e ∈ l, strLt k e.1 = true) : findVal l k = none := by
  induction l with
  | nil => rfl
  | cons e rest ih =>
    obtain ⟨k2, v⟩ := e
    show (if k = k2 then some v else findVal rest k) = none
    rw [if_neg]
    · exact ih (fun e he => h e (List.mem_cons_of_mem _ he))
    · intro hk
      have hlt : strLt k k2 = true := h (k2, v) (List.mem_cons_self _ _)
      rw [← hk, strLt_irrefl] at hlt
      exact Bool.false_ne_true hlt

theorem findVal_mem {α : Type} (l : List (Str × α)) (k : Str) (v : α)
    (h : findVal l k = some v) : (k, v) ∈ l := by
  induction l with
  | nil => simp [findVal] at h
  | cons e rest ih =>
    obtain ⟨k2, v2⟩ := e
    by_cases hk : k = k2
    · subst hk
      rw [show findVal ((k, v2) :: rest) k = some v2 from by simp [findVal]] at h
      obtain rfl : v2 = v := by injection h
      exact List.mem_cons_self _ _
    · rw [show findVal ((k2, v2) :: rest) k = findVal rest k from by simp [findVal, hk]] at h
      exact List.mem_cons_of_mem _ (ih h)


theorem addAmount_mem_fst (inner : List (Str × Amount)) (k : Str) (v : Amount) :
    ∀ e ∈ addAmount inner k v, e.1 = k ∨ e.1 ∈ inner.map Prod.fst := by
  induction inner with
  | nil =>
    intro e he
    simp only [addAmount, List.mem_singleton] at he
    subst he
    left
    rfl
  | cons hd rest ih =>
    obtain ⟨k2, v2⟩ := hd
    intro e he
    by_cases hk : k = k2
    · rw [addAmount, if_pos hk] at he
      rcases List.mem_cons.mp he with h | h
      · subst h
        right
        simp only [List.map_cons]
        exact List.mem_cons_self _ _
      · right
        simp only [List.map_cons]
        exact List.mem_cons_of_mem _ (List.mem_map_of_mem _ h)
    · by_cases hlt : strLt k k2 = true
      · rw [addAmount, if_neg hk, if_pos hlt] at he
        rcases List.mem_cons.mp he with h | h
        · subst h
          left
          rfl
        · right
          rcases List.mem_cons.mp h with h2 | h2
          · subst h2
            simp only [List.map_cons]
            exact List.mem_cons_self _ _
          · simp only [List.map_cons]
            exact List.mem_cons_of_mem _ (List.mem_map_of_mem _ h2)
      · rw [addAmount, if_neg hk, if_neg hlt] at he
        rcases List.mem_cons.mp he with h | h
        · subst h
          right
          simp only [List.map_cons]
          exact List.mem_cons_self _ _
        · rcases ih e h with h2 | h2
          · left
            exact h2
          · right
            simp only [List.map_cons]
            exact List.mem_cons_of_mem _ h2

theorem addAmount_sorted (inner : List (Str × Amount)) (k : Str) (v : Amount)
    (hs : List.Pairwise (fun a b => strLt a.1 b.1 = true) inner) :
    List.Pairwise (fun a b => strLt a.1 b.1 = true) (addAmount inner k v) := by
  induction inner with
  | nil => simp [addAmount]
  | cons hd rest ih =>
    obtain ⟨k2, v2⟩ := hd
    rw [List.pairwise_cons] at hs
    obtain ⟨hhead, htail⟩ := hs
    by_cases hk : k = k2
    · rw [addAmount, if_pos hk]
      exact List.pairwise_cons.mpr ⟨fun b hb => hhead b hb, htail⟩
    · by_cases hlt : strLt k k2 = true
      · rw [addAmount, if_neg hk, if_pos hlt]
        refine List.pairwise_cons.mpr ⟨?_, List.pairwise_cons.mpr ⟨hhead, htail⟩⟩
        intro b hb
        rcases List.mem_cons.mp hb with h | h
        · subst h
          exact hlt
        · exact strLt_trans _ _ _ hlt (hhead b h)
      · rw [addAmount, if_neg hk, if_neg hlt]
        refine List.pairwise_cons.mpr ⟨?_, ih htail⟩
        intro b hb
        rcases addAmount_mem_fst rest k v b hb with h | h
        · rw [h]
          rcases strLt_conn k k2 hk with h2 | h2
          · exact absurd h2 hlt
          · exact h2
        · obtain ⟨e2, he2, hfst⟩ := List.mem_map.mp h
          have h3 := hhead e2 he2
          rw [hfst] at h3
          exact h3

theorem findVal_addAmount_self (inner : List (Str × Amount)) (k : Str) (v : Amount)
    (hs : List.Pairwise (fun a b => strLt a.1 b.1 = true) inner) :
    findVal (addAmount inner k v) k =
      some (((findVal inner k).getD Amount.zero).add v) := by
  induction inner with
  | nil => simp [addAmount, findVal]
  | cons hd rest ih =>
    obtain ⟨k2, v2⟩ := hd
    rw [List.pairwise_cons] at hs
    obtain ⟨hhead, htail⟩ := hs
    by_cases hk : k = k2
    · subst hk
      simp [addAmount, findVal]
    · by_cases hlt : strLt k k2 = true
      · rw [addAmount, if_neg hk, if_pos hlt]
        have hnone : findVal rest k = none := findVal_eq_none rest k
          (fun e he => strLt_trans _ _ _ hlt (hhead e he))
        simp [findVal, hk, hnone]
      · rw [addAmount, if_neg hk, if_neg hlt]
        simp [findVal, hk, ih htail]

theorem findVal_addAmount_other (inner : List (Str × Amount)) (k q : Str) (v : Amount)
    (hq : q ≠ k) :
    findVal (addAmount inner k v) q = findVal inner q := by
  induction inner with
  | nil => simp [addAmount, findVal, hq]
  | cons hd rest ih =>
    obtain ⟨k2, v2⟩ := hd
    by_cases hk : k = k2
    · subst hk
      simp [addAmount, findVal, hq]
    · by_cases hlt : strLt k k2 = true
      · rw [addAmount, if_neg hk, if_pos hlt]
        simp [findVal, hq]
      · rw [addAmount, if_neg hk, if_neg hlt]
        simp [findVal, ih]


theorem modifyAccount_mem_fst (m : List (Str × List (Str × Amount))) (k : Str)
    (f : List (Str × Amount) → List (Str × Amount)) :
    ∀ e ∈ modifyAccount m k f, e.1 = k ∨ e.1 ∈ m.map Prod.fst := by
  induction m with
  | nil =>
    intro e he
    simp only [modifyAccount, List.mem_singleton] at he
    subst he
    left
    rfl
  | cons hd rest ih =>
    obtain ⟨k2, v2⟩ := hd
    intro e he
    by_cases hk : k = k2
    · rw [modifyAccount, if_pos hk] at he
      rcases List.mem_cons.mp he with h | h
      · subst h
        right
        simp only [List.map_cons]
        exact List.mem_cons_self _ _
      · right
        simp only [List.map_cons]
        exact List.mem_cons_of_mem _ (List.mem_map_of_mem _ h)
    · by_cases hlt : strLt k k2 = true
      · rw [modifyAccount, if_neg hk, if_pos hlt] at he
        rcases List.mem_cons.mp he with h | h
        · subst h
          left
          rfl
        · right
          rcases List.mem_cons.mp h with h2 | h2
          · subst h2
            simp only [List.map_cons]
            exact List.mem_cons_self _ _
          · simp only [List.map_cons]
            exact List.mem_cons_of_mem _ (List.mem_map_of_mem _ h2)
      · rw [modifyAccount, if_neg hk, if_neg hlt] at he
        rcases List.mem_cons.mp he with h | h
        · subst h
          right
          simp only [List.map_cons]
          exact List.mem_cons_self _ _
        · rcases ih e h with h2 | h2
          · left
            exact h2
          · right
            simp only [List.map_cons]
            exact List.mem_cons_of_mem _ h2

theorem modifyAccount_sorted (m : List (Str × List (Str × Amount))) (k : Str)
    (f : List (Str × Amount) → List (Str × Amount))
    (hs : List.Pairwise (fun a b => strLt a.1 b.1 = true) m) :
    List.Pairwise (fun a b => strLt a.1 b.1 = true) (modifyAccount m k f) := by
  induction m with
  | nil => simp [modifyAccount]
  | cons hd rest ih =>
    obtain ⟨k2, v2⟩ := hd
    rw [List.pairwise_cons] at hs
    obtain ⟨hhead, htail⟩ := hs
    by_cases hk : k = k2
    · rw [modifyAccount, if_pos hk]
      exact List.pairwise_cons.mpr ⟨fun b hb => hhead b hb, htail⟩
    · by_cases hlt : strLt k k2 = true
      · rw [modifyAccount, if_neg hk, if_pos hlt]
        refine List.pairwise_cons.mpr ⟨?_, List.pairwise_cons.mpr ⟨hhead, htail⟩⟩
        intro b hb
        rcases List.mem_cons.mp hb with h | h
        · subst h
          exact hlt
        · exact strLt_trans _ _ _ hlt (hhead b h)
      · rw [modifyAccount, if_neg hk, if_neg hlt]
        refine List.pairwise_cons.mpr ⟨?_, ih htail⟩
        intro b hb
        rcases modifyAccount_mem_fst rest k f b hb with h | h
        · rw [h]
          rcases strLt_conn k k2 hk with h2 | h2
          · exact absurd h2 hlt
          · exact h2
        · obtain ⟨e2, he2, hfst⟩ := List.mem_map.mp h
          have h3 := hhead e2 he2
          rw [hfst] at h3
          exact h3

theorem findVal_modifyAccount_self (m : List (Str × List (Str × Amount))) (k : Str)
    (f : List (Str × Amount) → List (Str × Amount))
    (hs : List.Pairwise (fun a b => strLt a.1 b.1 = true) m) :
    findVal (modifyAccount m k f) k = some (f ((findVal m k).getD [])) := by
  induction m with
  | nil => simp [modifyAccount, findVal]
  | cons hd rest ih =>
    obtain ⟨k2, v2⟩ := hd
    rw [List.pairwise_cons] at hs
    obtain ⟨hhead, htail⟩ := hs
    by_cases hk : k = k2
    · subst hk
      simp [modifyAccount, findVal]
    · by_cases hlt : strLt k k2 = true
      · rw [modifyAccount, if_neg hk, if_pos hlt]
        have hnone : findVal rest k = none := findVal_eq_none rest k
          (fun e he => strLt_trans _ _ _ hlt (hhead e he))
        simp [findVal, hk, hnone]
      · rw [modifyAccount, if_neg hk, if_neg hlt]
        simp [findVal, hk, ih htail]

theorem findVal_modifyAccount_other (m : List (Str × List (Str × Amount))) (k q : Str)
    (f : List (Str × Amount) → List (Str × Amount)) (hq : q ≠ k) :
    findVal (modifyAccount m k f) q = findVal m q := by
  induction m with
  | nil => simp [modifyAccount, findVal, hq]
  | cons hd rest ih =>
    obtain ⟨k2, v2⟩ := hd
    by_cases hk : k = k2
    · subst hk
      simp [modifyAccount, findVal, hq]
    · by_cases hlt : strLt k k2 = true
      · rw [modifyAccount, if_neg hk, if_pos hlt]
        simp [findVal, hq]
      · rw [modifyAccount, if_neg hk, if_neg hlt]
        simp [findVal, ih]

theorem modifyAccount_mem (m : List (Str × List (Str × Amount))) (k : Str)
    (f : List (Str × Amount) → List (Str × Amount))
    (hs : List.Pairwise (fun a b => strLt a.1 b.1 = true) m) :
    ∀ e ∈ modifyAccount m k f, e ∈ m ∨ e.2 = f ((findVal m k).getD []) := by
  induction m with
  | nil =>
    intro e he
    simp only [modifyAccount, List.mem_singleton] at he
    subst he
    right
    rfl
  | cons hd rest ih =>
    obtain ⟨k2, v2⟩ := hd
    rw [List.pairwise_cons] at hs
    obtain ⟨hhead, htail⟩ := hs
    intro e he
    by_cases hk : k = k2
    · subst hk
      rw [modifyAccount, if_pos rfl] at he
      rcases List.mem_cons.mp he with h | h
      · subst h
        right
        simp [findVal]
      · left
        exact List.mem_cons_of_mem _ h
    · by_cases hlt : strLt k k2 = true
      · rw [modifyAccount, if_neg hk, if_pos hlt] at he
        have hnone : findVal rest k = none := findVal_eq_none rest k
          (fun e2 he2 => strLt_trans _ _ _ hlt (hhead e2 he2))
        rcases List.mem_cons.mp he with h | h
        · subst h
          right
          simp [findVal, hk, hnone]
        · left
          exact h
      · rw [modifyAccount, if_neg hk, if_neg hlt] at he
        rcases List.mem_cons.mp he with h | h
        · subst h
          left
          exact List.mem_cons_self _ _
        · rcases ih htail e h with h2 | h2
          · left
            exact List.mem_cons_of_mem _ h2
          · right
            rw [h2]
            simp [findVal, hk]

theorem WFmap_modifyAccount (m : List (Str × List (Str × Amount))) (k : Str)
    (f : List (Str × Amount) → List (Str × Amount)) (hw : WFmap m)
    (hf : ∀ l, List.Pairwise (fun a b => strLt a.1 b.1 = true) l →
      List.Pairwise (fun a b => strLt a.1 b.1 = true) (f l)) :
    WFmap (modifyAccount m k f) := by
  obtain ⟨ho, hi⟩ := hw
  refine ⟨modifyAccount_sorted m k f ho, ?_⟩
  intro e he
  rcases modifyAccount_mem m k f ho e he with h | h
  · exact hi e h
  · rw [h]
    apply hf
    cases hfv : findVal m k with
    | none => exact List.Pairwise.nil
    | some inner => exact hi (k, inner) (findVal_mem m k inner hfv)

theorem WFmap_postingStep (m : List (Str × List (Str × Amount))) (p : Posting)
    (hw : WFmap m) : WFmap (postingStep m p) :=
  WFmap_modifyAccount m p.account _ hw (fun l hl => addAmount_sorted l _ _ hl)

theorem WFmap_declStep (m : List (Str × List (Str × Amount))) (d : AccountDeclaration)
    (hw : WFmap m) : WFmap (declStep m d) := by
  unfold declStep
  cases hop : d.opening with
  | none =>
    exact WFmap_modifyAccount m d.account id hw (fun l hl => hl)
  | some o =>
    exact WFmap_modifyAccount _ d.account _
      (WFmap_modifyAccount m d.account id hw (fun l hl => hl))
      (fun l hl => addAmount_sorted l _ _ hl)

theorem foldl_preserve {α β : Type} (P : α → Prop) (f : α → β → α)
    (hf : ∀ a b, P a → P (f a b)) :
    ∀ (l : List β) (a : α), P a → P (l.foldl f a) := by
  intro l
  induction l with
  | nil =>
    intro a ha
    exact ha
  | cons b bs ih =>
    intro a ha
    rw [List.foldl_cons]
    exact ih _ (hf a b ha)

theorem WFmap_nil : WFmap [] :=
  ⟨List.Pairwise.nil, fun e he => absurd he (List.not_mem_nil e)⟩

theorem balancesMap_eq (txns : List Transaction) (decls : List AccountDeclaration) :
    balancesMap txns decls =
      decls.foldl declStep (txns.foldl (fun m t => t.postings.foldl postingStep m) []) := rfl

theorem WFmap_balancesMap (txns : List Transaction) (decls : List AccountDeclaration) :
    WFmap (balancesMap txns decls) := by
  rw [balancesMap_eq]
  exact foldl_preserve WFmap declStep (fun a b h => WFmap_declStep a b h) decls _
    (foldl_preserve WFmap _
      (fun a b h => foldl_preserve WFmap postingStep
        (fun x y hx => WFmap_postingStep x y hx) b.postings a h) txns [] WFmap_nil)


theorem accAmounts_append (o : Option Amount) (l1 l2 : List Amount) :
    accAmounts o (l1 ++ l2) = accAmounts (accAmounts o l1) l2 := by
  simp [accAmounts, List.foldl_append]

theorem accAmounts_some (a : Amount) (l : List Amount) :
    accAmounts (some a) l = some (l.foldl (fun x v => x.add v) a) := by
  induction l generalizing a with
  | nil => rfl
  | cons x xs ih =>
    rw [List.foldl_cons]
    rw [show accAmounts (some a) (x :: xs) = accAmounts (some (a.add x)) xs from rfl]
    exact ih (a.add x)

theorem accAmounts_none_eq_sum (l : List Amount) :
    accAmounts none l = sumAmounts l := by
  cases l with
  | nil => rfl
  | cons a l =>
    rw [sumAmounts, List.foldl_cons]
    rw [show accAmounts none (a :: l) = accAmounts (some (Amount.zero.add a)) l from rfl]
    exact accAmounts_some (Amount.zero.add a) l

theorem findVal2_nil (acct comm : Str) : findVal2 [] acct comm = none := rfl

theorem findVal2_modify_add (m : List (Str × List (Str × Amount))) (a c : Str)
    (v : Amount) (acct comm : Str) (hw : WFmap m) :
    findVal2 (modifyAccount m a (fun inner => addAmount inner c v)) acct comm =
      if a = acct ∧ c = comm then
        some (((findVal2 m acct comm).getD Amount.zero).add v)
      else findVal2 m acct comm := by
  obtain ⟨ho, hi⟩ := hw
  by_cases ha : a = acct
  · subst ha
    have hinner : List.Pairwise (fun x y => strLt x.1 y.1 = true) ((findVal m a).getD []) := by
      cases hfv : findVal m a with
      | none => exact List.Pairwise.nil
      | some inner => exact hi (a, inner) (findVal_mem m a inner hfv)
    by_cases hc : c = comm
    · subst hc
      rw [if_pos ⟨rfl, rfl⟩]
      unfold findVal2
      rw [findVal_modifyAccount_self m a _ ho]
      show findVal (addAmount ((findVal m a).getD []) c v) c = _
      rw [findVal_addAmount_self _ c v hinner]
      cases hfv : findVal m a with
      | none => rfl
      | some inner => rfl
    · rw [if_neg (fun h => hc h.2)]
      unfold findVal2
      rw [findVal_modifyAccount_self m a _ ho]
      show findVal (addAmount ((findVal m a).getD []) c v) comm = _
      rw [findVal_addAmount_other _ c comm v (fun h => hc h.symm)]
      cases hfv : findVal m a with
      | none => rfl
      | some inner => rfl
  · rw [if_neg (fun h => ha h.1)]
    unfold findVal2
    rw [findVal_modifyAccount_other m a acct _ (fun h => ha h.symm)]

theorem findVal2_postingStep (m : List (Str × List (Str × Amount))) (p : Posting)
    (acct comm : Str) (hw : WFmap m) :
    findVal2 (postingStep m p) acct comm =
      if p.account = acct ∧ p.commodity = comm then
        some (((findVal2 m acct comm).getD Amount.zero).add p.amount)
      else findVal2 m acct comm :=
  findVal2_modify_add m p.account p.commodity p.amount acct comm hw

theorem findVal2_modify_id (m : List (Str × List (Str × Amount))) (k : Str)
    (acct comm : Str) (ho : List.Pairwise (fun a b => strLt a.1 b.1 = true) m) :
    findVal2 (modifyAccount m k id) acct comm = findVal2 m acct comm := by
  by_cases hk : acct = k
  · subst hk
    unfold findVal2
    rw [findVal_modifyAccount_self m acct id ho]
    cases hfv : findVal m acct with
    | none => rfl
    | some inner => rfl
  · unfold findVal2
    rw [findVal_modifyAccount_other m k acct id hk]

theorem findVal2_declStep (m : List (Str × List (Str × Amount)))
    (d : AccountDeclaration) (acct comm : Str) (hw : WFmap m) :
    findVal2 (declStep m d) acct comm =
      match d.opening with
      | some o =>
        if d.account = acct ∧ o.commodity = comm then
          some (((findVal2 m acct comm).getD Amount.zero).add o.amount)
        else findVal2 m acct comm
      | none => findVal2 m acct comm := by
  unfold declStep
  cases hop : d.opening with
  | none => exact findVal2_modify_id m d.account acct comm hw.1
  | some o =>
    rw [findVal2_modify_add _ d.account o.commodity o.amount acct comm
      (WFmap_modifyAccount m d.account id hw (fun l hl => hl))]
    rw [findVal2_modify_id m d.account acct comm hw.1]

theorem findVal2_postings_fold (ps : List Posting) :
    ∀ (m : List (Str × List (Str × Amount))), WFmap m → ∀ acct comm,
      findVal2 (ps.foldl postingStep m) acct comm =
        accAmounts (findVal2 m acct comm)
          ((ps.filter (fun p => decide (p.account = acct ∧ p.commodity = comm))).map
            Posting.amount) := by
  induction ps with
  | nil =>
    intro m hw acct comm
    rfl
  | cons p ps ih =>
    intro m hw acct comm
    rw [List.foldl_cons]
    rw [ih (postingStep m p) (WFmap_postingStep m p hw) acct comm]
    rw [findVal2_postingStep m p acct comm hw]
    by_cases hcond : p.account = acct ∧ p.commodity = comm
    · rw [if_pos hcond]
      rw [List.filter_cons_of_pos (by simpa using hcond)]
      rw [List.map_cons]
      rfl
    · rw [if_neg hcond]
      rw [List.filter_cons_of_neg (by simpa using hcond)]

theorem postings_flatten (txns : List Transaction) :
    ∀ m, txns.foldl (fun m t => t.postings.foldl postingStep m) m =
      (txns.foldr (fun t acc => t.postings ++ acc) []).foldl postingStep m := by
  induction txns with
  | nil =>
    intro m
    rfl
  | cons t ts ih =>
    intro m
    rw [List.foldl_cons, List.foldr_cons, List.foldl_append]
    exact ih _

theorem findVal2_decls_fold (ds : List AccountDeclaration) :
    ∀ m, WFmap m → ∀ acct comm,
      findVal2 (ds.foldl declStep m) acct comm =
        accAmounts (findVal2 m acct comm) (openingAmounts ds acct comm) := by
  induction ds with
  | nil =>
    intro m hw acct comm
    rfl
  | cons d ds ih =>
    intro m hw acct comm
    rw [List.foldl_cons, ih (declStep m d) (WFmap_declStep m d hw) acct comm,
        findVal2_declStep m d acct comm hw]
    cases hop : d.opening with
    | none =>
      simp only [openingAmounts, List.filterMap_cons, hop]
    | some o =>
      dsimp only
      by_cases hcond : d.account = acct ∧ o.commodity = comm
      · rw [if_pos hcond]
        simp only [openingAmounts, List.filterMap_cons, hop, if_pos hcond]
        rfl
      · rw [if_neg hcond]
        simp only [openingAmounts, List.filterMap_cons, hop, if_neg hcond]

theorem findVal2_balancesMap (txns : List Transaction) (decls : List AccountDeclaration)
    (acct comm : Str) :
    findVal2 (balancesMap txns decls) acct comm =
      sumAmounts (keyAmounts txns decls acct comm) := by
  rw [balancesMap_eq]
  rw [findVal2_decls_fold decls _
    (foldl_preserve WFmap _
      (fun a b h => foldl_preserve WFmap postingStep
        (fun x y hx => WFmap_postingStep x y hx) b.postings a h) txns [] WFmap_nil)
    acct comm]
  rw [postings_flatten txns []]
  rw [findVal2_postings_fold _ [] WFmap_nil acct comm]
  rw [findVal2_nil]
  rw [← accAmounts_append]
  rw [accAmounts_none_eq_sum]
  rfl


theorem findVal_modifyAccount_isSome (m : List (Str × List (Str × Amount))) (k q : Str)
    (f : List (Str × Amount) → List (Str × Amount))
    (ho : List.Pairwise (fun a b => strLt a.1 b.1 = true) m)
    (h : (findVal m q).isSome = true) :
    (findVal (modifyAccount m k f) q).isSome = true := by
  by_cases hq : q = k
  · subst hq
    rw [findVal_modifyAccount_self m q f ho]
    rfl
  · rw [findVal_modifyAccount_other m k q f hq]
    exact h

theorem declStep_isSome_self (m : List (Str × List (Str × Amount)))
    (d : AccountDeclaration) (hw : WFmap m) :
    (findVal (declStep m d) d.account).isSome = true := by
  unfold declStep
  cases hop : d.opening with
  | none =>
    rw [findVal_modifyAccount_self m d.account id hw.1]
    rfl
  | some o =>
    rw [findVal_modifyAccount_self _ d.account _
      (WFmap_modifyAccount m d.account id hw (fun l hl => hl)).1]
    rfl

theorem declStep_isSome_mono (m : List (Str × List (Str × Amount)))
    (d : AccountDeclaration) (q : Str) (hw : WFmap m)
    (h : (findVal m q).isSome = true) :
    (findVal (declStep m d) q).isSome = true := by
  unfold declStep
  cases hop : d.opening with
  | none => exact findVal_modifyAccount_isSome m d.account q id hw.1 h
  | some o =>
    exact findVal_modifyAccount_isSome _ d.account q _
      (WFmap_modifyAccount m d.account id hw (fun l hl => hl)).1
      (findVal_modifyAccount_isSome m d.account q id hw.1 h)

theorem decls_fold_isSome (ds : List AccountDeclaration) :
    ∀ m, WFmap m → ∀ q, (findVal m q).isSome = true →
      (findVal (ds.foldl declStep m) q).isSome = true := by
  induction ds with
  | nil =>
    intro m _ q h
    exact h
  | cons d ds ih =>
    intro m hw q h
    rw [List.foldl_cons]
    exact ih (declStep m d) (WFmap_declStep m d hw) q (declStep_isSome_mono m d q hw h)

theorem decls_fold_mem_isSome (ds : List AccountDeclaration) :
    ∀ m, WFmap m → ∀ d ∈ ds,
      (findVal (ds.foldl declStep m) d.account).isSome = true := by
  induction ds with
  | nil =>
    intro m _ d hd
    exact absurd hd (List.not_mem_nil d)
  | cons d0 ds ih =>
    intro m hw d hd
    rw [List.foldl_cons]
    rcases List.mem_cons.mp hd with h | h
    · subst h
      exact decls_fold_isSome ds (declStep m d) (WFmap_declStep m d hw) d.account
        (declStep_isSome_self m d hw)
    · exact ih (declStep m d0) (WFmap_declStep m d0 hw) d h

theorem commLookup_map (inner : List (Str × Amount)) (comm : Str) :
    commLookup (inner.map fun q => ⟨q.1, q.2⟩) comm = findVal inner comm := by
  induction inner with
  | nil => rfl
  | cons e rest ih =>
    obtain ⟨k, v⟩ := e
    show (if comm = k then some v else commLookup (rest.map fun q => ⟨q.1, q.2⟩) comm) = _
    rw [ih]
    rfl

theorem balLookup_materialize (m : List (Str × List (Str × Amount))) (acct comm : Str) :
    balLookup (materializeBalances m) acct comm = findVal2 m acct comm := by
  induction m with
  | nil => rfl
  | cons e rest ih =>
    obtain ⟨k, inner⟩ := e
    show (if acct = k then commLookup (inner.map fun q => ⟨q.1, q.2⟩) comm
      else balLookup (materializeBalances rest) acct comm) = _
    by_cases hk : acct = k
    · subst hk
      rw [if_pos rfl, commLookup_map]
      show _ = findVal2 ((acct, inner) :: rest) acct comm
      unfold findVal2
      rw [show findVal ((acct, inner) :: rest) acct = some inner from by simp [findVal]]
    · rw [if_neg hk, ih]
      unfold findVal2
      rw [show findVal ((k, inner) :: rest) acct = findVal rest acct from by
        simp [findVal, hk]]

theorem materialize_mem_account (m : List (Str × List (Str × Amount))) (acct : Str)
    (h : (findVal m acct).isSome = true) :
    ∃ b ∈ materializeBalances m, b.account = acct := by
  induction m with
  | nil => simp [findVal] at h
  | cons e rest ih =>
    obtain ⟨k, inner⟩ := e
    by_cases hk : acct = k
    · subst hk
      exact ⟨⟨acct, inner.map fun q => ⟨q.1, q.2⟩⟩, List.mem_cons_self _ _, rfl⟩
    · rw [show findVal ((k, inner) :: rest) acct = findVal rest acct from by
        simp [findVal, hk]] at h
      obtain ⟨b, hb, hacc⟩ := ih h
      exact ⟨b, List.mem_cons_of_mem _ hb, hacc⟩

theorem materialize_sorted (m : List (Str × List (Str × Amount))) (hw : WFmap m) :
    List.Pairwise (fun a b => strLt a.account b.account = true) (materializeBalances m) ∧
    ∀ b ∈ materializeBalances m,
      List.Pairwise (fun x y => strLt x.commodity y.commodity = true) b.totals := by
  obtain ⟨ho, hi⟩ := hw
  constructor
  · exact List.Pairwise.map _ (fun a b h => h) ho
  · intro b hb
    obtain ⟨e, he, hfe⟩ := List.mem_map.mp hb
    subst hfe
    exact List.Pairwise.map _ (fun a b h => h) (hi e he)

theorem parse_transactions_balances_eq (contents : Str) :
    (parse_transactions contents).balances =
      materializeBalances (balancesMap (parserFinal contents).transactions
        (parserFinal contents).accountDeclarations) := rfl

/-- C5: for every input text, looking any (account, commodity) pair up in
the balances returned by parse_transactions gives exactly the sum of all
matching posting amounts of all parsed transactions followed by any
declared opening amounts for that pair (absent iff no contribution
exists); every declared account appears in the balances; and the balance
list is strictly sorted by account and, within an account, by commodity,
in byte-lexicographic order. -/
theorem c5_balances_characterization (contents : Str) :
    (∀ acct comm, balLookup (parse_transactions contents).balances acct comm =
        sumAmounts (keyAmounts (parse_transactions contents).transactions
          (parserFinal contents).accountDeclarations acct comm))
    ∧ (∀ d ∈ (parserFinal contents).accountDeclarations,
        ∃ b ∈ (parse_transactions contents).balances, b.account = d.account)
    ∧ List.Pairwise (fun a b => strLt a.account b.account = true)
        (parse_transactions contents).balances
    ∧ ∀ b ∈ (parse_transactions contents).balances,
        List.Pairwise (fun x y => strLt x.commodity y.commodity = true) b.totals := by
  have hw1 : WFmap ((parserFinal contents).transactions.foldl
      (fun m t => t.postings.foldl postingStep m) []) :=
    foldl_preserve WFmap _
      (fun a b h => foldl_preserve WFmap postingStep
        (fun x y hx => WFmap_postingStep x y hx) b.postings a h)
      (parserFinal contents).transactions [] WFmap_nil
  refine ⟨?_, ?_, ?_, ?_⟩
  · intro acct comm
    rw [parse_transactions_balances_eq, balLookup_materialize]
    exact findVal2_balancesMap (parserFinal contents).transactions
      (parserFinal contents).accountDeclarations acct comm
  · intro d hd
    rw [parse_transactions_balances_eq]
    apply materialize_mem_account
    rw [balancesMap_eq]
    exact decls_fold_mem_isSome (parserFinal contents).accountDeclarations _ hw1 d hd
  · rw [parse_transactions_balances_eq]
    exact (materialize_sorted _ (WFmap_balancesMap _ _)).1
  · rw [parse_transactions_balances_eq]
    exact (materialize_sorted _ (WFmap_balancesMap _ _)).2


/-- Witness for C5 at a concrete ledger: a declared opening of 1.00 USD
plus a posting of 2.50 USD totals 3.50 for (x:y, USD), and the declared
account appears in the balances. -/
theorem c5_balances_characterization_witness :
    balLookup (parse_transactions (S "account x:y USD\n    opening 1.00 USD\n2026-01-15 * \"a\" \"b\"\n    x:y 2.50 USD\n")).balances
        (S "x:y") (S "USD") = some ⟨350, 2⟩
    ∧ ∃ b ∈ (parse_transactions (S "account x:y USD\n    opening 1.00 USD\n2026-01-15 * \"a\" \"b\"\n    x:y 2.50 USD\n")).balances,
        b.account = S "x:y" := by
  have h := c5_balances_characterization
    (S "account x:y USD\n    opening 1.00 USD\n2026-01-15 * \"a\" \"b\"\n    x:y 2.50 USD\n")
  refine ⟨?_, ?_⟩
  · rw [h.1 (S "x:y") (S "USD")]
    decide
  · exact h.2.1 ⟨S "x:y", some (S "USD"), some ⟨S "USD", ⟨100, 2⟩⟩⟩ (by decide)


theorem takeDigits_eq {n : Nat} {s p r : Str} (h : takeDigits n s = some (p, r)) :
    s.take n = p ∧ s.drop n = r ∧ p.length = n ∧ p.all Char.isDigit = true := by
  simp only [takeDigits] at h
  split at h
  · rename_i hcond
    injection h with h2
    injection h2 with hp hr
    exact ⟨hp, hr, hp ▸ hcond.1, hp ▸ hcond.2⟩
  · exact Option.noConfusion h

theorem takeDigits_parts {n : Nat} {s p r : Str} (h : takeDigits n s = some (p, r)) :
    s = p ++ r ∧ p.length = n ∧ ∀ c ∈ p, c.isDigit = true := by
  obtain ⟨hp, hr, hl, ha⟩ := takeDigits_eq h
  refine ⟨by rw [← hp, ← hr, List.take_append_drop], hl, ?_⟩
  intro c hc
  exact List.all_eq_true.mp ha c hc

theorem takeDigits_append {n : Nat} {s p r : Str} (u : Str) (h : takeDigits n s = some (p, r)) :
    takeDigits n (s ++ u) = some (p, r ++ u) := by
  have h1 := takeDigits_eq h
  have hns : n ≤ s.length := by
    have h2 : (s.take n).length = n := by rw [h1.1, h1.2.2.1]
    rw [List.length_take] at h2
    omega
  simp only [takeDigits]
  rw [List.take_append_of_le_length hns, List.drop_append_of_le_length hns, h1.1, h1.2.1]
  rw [if_pos ⟨h1.2.2.1, h1.2.2.2⟩]

theorem matchChar_eq {c : Char} {s r : Str} (h : matchChar c s = some r) :
    s = c :: r := by
  cases s with
  | nil => exact Option.noConfusion h
  | cons x xs =>
    rw [show matchChar c (x :: xs) = if x = c then some xs else none from rfl] at h
    split at h
    · rename_i hx
      injection h with h2
      rw [hx, h2]
    · exact Option.noConfusion h

theorem matchChar_append {c : Char} {s r : Str} (u : Str) (h : matchChar c s = some r) :
    matchChar c (s ++ u) = some (r ++ u) := by
  rw [matchChar_eq h]
  simp [matchChar]

theorem matchDate_parts {s d r : Str} (h : matchDate s = some (d, r)) :
    s = d ++ r ∧ (∀ c ∈ d, c.isDigit = true ∨ c = '-') ∧
      ∃ c cs, d = c :: cs ∧ c.isDigit = true := by
  unfold matchDate at h
  rcases h1 : takeDigits 4 s with _ | ⟨y, s1⟩ <;> simp only [h1] at h
  · exact Option.noConfusion h
  rcases h2 : matchChar '-' s1 with _ | s2 <;> simp only [h2] at h
  · exact Option.noConfusion h
  rcases h3 : takeDigits 2 s2 with _ | ⟨mo, s3⟩ <;> simp only [h3] at h
  · exact Option.noConfusion h
  rcases h4 : matchChar '-' s3 with _ | s4 <;> simp only [h4] at h
  · exact Option.noConfusion h
  rcases h5 : takeDigits 2 s4 with _ | ⟨dd, s5⟩ <;> simp only [h5] at h
  · exact Option.noConfusion h
  injection h with h6
  injection h6 with hd hr
  obtain ⟨hs1, hy4, hydig⟩ := takeDigits_parts h1
  have hs2 := matchChar_eq h2
  obtain ⟨hs3, _, hmodig⟩ := takeDigits_parts h3
  have hs4 := matchChar_eq h4
  obtain ⟨hs5, _, hdddig⟩ := takeDigits_parts h5
  subst hd hr
  refine ⟨?_, ?_, ?_⟩
  · rw [hs1, hs2, hs3, hs4, hs5]
    simp
  · intro c hc
    simp only [List.mem_append, List.mem_cons] at hc
    rcases hc with (hc | hc | hc) | hc | hc
    · exact Or.inl (hydig c hc)
    · exact Or.inr hc
    · exact Or.inl (hmodig c hc)
    · exact Or.inr hc
    · exact Or.inl (hdddig c hc)
  · cases hy : y with
    | nil =>
      rw [hy] at hy4
      simp at hy4
    | cons c cs =>
      rw [hy] at hydig
      refine ⟨c, cs ++ '-' :: mo ++ '-' :: dd, by simp, ?_⟩
      exact hydig c (List.mem_cons_self _ _)

theorem matchDate_append {s d r : Str} (u : Str) (h : matchDate s = some (d, r)) :
    matchDate (s ++ u) = some (d, r ++ u) := by
  unfold matchDate at h ⊢
  rcases h1 : takeDigits 4 s with _ | ⟨y, s1⟩ <;> simp only [h1] at h
  · exact Option.noConfusion h
  simp only [takeDigits_append u h1]
  rcases h2 : matchChar '-' s1 with _ | s2 <;> simp only [h2] at h
  · exact Option.noConfusion h
  simp only [matchChar_append u h2]
  rcases h3 : takeDigits 2 s2 with _ | ⟨mo, s3⟩ <;> simp only [h3] at h
  · exact Option.noConfusion h
  simp only [takeDigits_append u h3]
  rcases h4 : matchChar '-' s3 with _ | s4 <;> simp only [h4] at h
  · exact Option.noConfusion h
  simp only [matchChar_append u h4]
  rcases h5 : takeDigits 2 s4 with _ | ⟨dd, s5⟩ <;> simp only [h5] at h
  · exact Option.noConfusion h
  simp only [takeDigits_append u h5]
  injection h with h6
  injection h6 with hd hr
  rw [hd, hr]

theorem takeWhile_append_stop {p : Char → Bool} {u : Str} (hu : u.takeWhile p = []) :
    ∀ l : Str, (l ++ u).takeWhile p = l.takeWhile p := by
  intro l
  rw [List.takeWhile_append]
  split
  · rename_i hlen
    rw [hu, List.append_nil]
    exact (List.Sublist.eq_of_length (List.takeWhile_sublist _) hlen).symm
  · rfl


theorem matchFrac_parts {s f r : Str} (h : matchFrac s = (f, r)) :
    s = f ++ r ∧ ∀ c ∈ f, c.isDigit = true ∨ c = '.' := by
  unfold matchFrac at h
  split at h
  · rename_i rest
    dsimp only at h
    split at h
    · injection h with h1 h2
      subst h1
      subst h2
      exact ⟨rfl, fun c hc => absurd hc (List.not_mem_nil c)⟩
    · rename_i hne
      injection h with h1 h2
      subst h1
      subst h2
      refine ⟨?_, ?_⟩
      · obtain ⟨suf, hsuf⟩ := @List.takeWhile_prefix Char rest Char.isDigit
        set D := rest.takeWhile Char.isDigit with hD
        rw [List.cons_append]
        congr 1
        rw [← hsuf]
        rw [List.drop_append_of_le_length (min_le_left _ _)]
        rw [show D.take 6 = D.take (min D.length 6) from by rw [List.take_eq_take]; omega]
        rw [← List.append_assoc, List.take_append_drop]
      · intro c hc
        rcases List.mem_cons.mp hc with h1 | h1
        · exact Or.inr h1
        · exact Or.inl (List.mem_takeWhile_imp (List.mem_of_mem_take h1))
  · injection h with h1 h2
    subst h1
    subst h2
    exact ⟨rfl, fun c hc => absurd hc (List.not_mem_nil c)⟩

theorem matchFrac_dot (cs : Str) :
    matchFrac ('.' :: cs) =
      (if (cs.takeWhile Char.isDigit).isEmpty = true then ([], '.' :: cs)
       else ('.' :: (cs.takeWhile Char.isDigit).take 6,
         cs.drop (min (cs.takeWhile Char.isDigit).length 6))) := by
  unfold matchFrac
  split
  · rename_i rest heq
    obtain ⟨-, h2⟩ := List.cons_eq_cons.mp heq
    subst h2
    rfl
  · rename_i hne
    exact absurd rfl (hne cs)

theorem matchFrac_other (c0 : Char) (cs : Str) (hc0 : c0 ≠ '.') :
    matchFrac (c0 :: cs) = ([], c0 :: cs) := by
  unfold matchFrac
  split
  · rename_i heq
    exact absurd (List.cons_eq_cons.mp heq).1 hc0
  · rfl

theorem matchFrac_append_sp {s f r : Str} (tail : Str) (h : matchFrac s = (f, r)) :
    matchFrac (s ++ ' ' :: tail) = (f, r ++ ' ' :: tail) := by
  have hstop : (' ' :: tail).takeWhile Char.isDigit = [] := by
    rw [List.takeWhile_cons]
    simp
  cases s with
  | nil =>
    rw [show matchFrac [] = ([], []) from rfl] at h
    injection h with h1 h2
    subst h1
    subst h2
    show matchFrac (' ' :: tail) = ([], ' ' :: tail)
    exact matchFrac_other ' ' tail (by decide)
  | cons c0 cs =>
    by_cases hc0 : c0 = '.'
    · subst hc0
      rw [show ('.' :: cs) ++ ' ' :: tail = '.' :: (cs ++ ' ' :: tail) from rfl]
      rw [matchFrac_dot cs] at h
      rw [matchFrac_dot (cs ++ ' ' :: tail)]
      rw [takeWhile_append_stop hstop cs]
      split at h
      · rename_i he
        rw [if_pos he]
        injection h with h1 h2
        subst h1
        subst h2
        rfl
      · rename_i he
        rw [if_neg he]
        injection h with h1 h2
        subst h1
        subst h2
        have hle : min (cs.takeWhile Char.isDigit).length 6 ≤ cs.length :=
          le_trans (min_le_left _ _) (List.takeWhile_sublist _).length_le
        rw [List.drop_append_of_le_length hle]
    · rw [matchFrac_other c0 cs hc0] at h
      injection h with h1 h2
      subst h1
      subst h2
      rw [show (c0 :: cs) ++ ' ' :: tail = c0 :: (cs ++ ' ' :: tail) from rfl]
      exact matchFrac_other c0 (cs ++ ' ' :: tail) hc0

theorem matchTz_space (tail : Str) : matchTz (' ' :: tail) = ([], ' ' :: tail) := by
  unfold matchTz
  split
  · rename_i rest heq
    exact absurd (List.cons_eq_cons.mp heq).1 (by decide)
  · rename_i c a b d e rest hne heq
    have hc := (List.cons_eq_cons.mp heq).1
    rw [if_neg (fun hcond => absurd hcond.1 (by rw [← hc]; decide))]
  · rfl

theorem matchTz_parts {s t r : Str} (h : matchTz s = (t, r)) :
    s = t ++ r ∧ ∀ c ∈ t, c.isDigit = true ∨ c = 'Z' ∨ c = '+' ∨ c = '-' ∨ c = ':' := by
  unfold matchTz at h
  split at h
  · injection h with h1 h2
    subst h1
    subst h2
    refine ⟨rfl, ?_⟩
    intro c hc
    rcases List.mem_singleton.mp hc with h3
    subst h3
    right
    left
    rfl
  · rename_i c a b d e rest
    split at h
    · rename_i hcond
      injection h with h1 h2
      subst h1
      subst h2
      refine ⟨rfl, ?_⟩
      intro x hx
      obtain ⟨hsign, ha, hb, hd, he⟩ := hcond
      simp only [List.mem_cons, List.not_mem_nil, or_false] at hx
      rcases hx with hx | hx | hx | hx | hx | hx
      · subst hx
        rcases hsign with hs | hs
        · rw [hs]; right; right; left; rfl
        · rw [hs]; right; right; right; left; rfl
      · subst hx; left; exact ha
      · subst hx; left; exact hb
      · subst hx; right; right; right; right; rfl
      · subst hx; left; exact hd
      · subst hx; left; exact he
    · injection h with h1 h2
      subst h1
      subst h2
      exact ⟨rfl, fun c hc => absurd hc (List.not_mem_nil c)⟩
  · injection h with h1 h2
    subst h1
    subst h2
    exact ⟨rfl, fun c hc => absurd hc (List.not_mem_nil c)⟩

theorem matchTz_sign (c a b d e : Char) (rest : Str)
    (hcond : (c = '+' ∨ c = '-') ∧ a.isDigit = true ∧ b.isDigit = true ∧
      d.isDigit = true ∧ e.isDigit = true) :
    matchTz (c :: a :: b :: ':' :: d :: e :: rest) = ([c, a, b, ':', d, e], rest) := by
  unfold matchTz
  split
  · rename_i heq
    have hc := (List.cons_eq_cons.mp heq).1
    rcases hcond.1 with hs | hs <;> (rw [hs] at hc; exact absurd hc (by decide))
  · rename_i c2 a2 b2 d2 e2 rest2 heq
    obtain ⟨hc, h2⟩ := List.cons_eq_cons.mp heq
    obtain ⟨ha, h3⟩ := List.cons_eq_cons.mp h2
    obtain ⟨hb, h4⟩ := List.cons_eq_cons.mp h3
    obtain ⟨hcl, h5⟩ := List.cons_eq_cons.mp h4
    obtain ⟨hd, h6⟩ := List.cons_eq_cons.mp h5
    obtain ⟨he, h7⟩ := List.cons_eq_cons.mp h6
    subst hc
    subst ha
    subst hb
    subst hd
    subst he
    subst h7
    rw [if_pos hcond]
  · rename_i hno
    exact absurd rfl (hno c a b d e rest)

theorem matchTz_z (rest : Str) : matchTz ('Z' :: rest) = (['Z'], rest) := by
  unfold matchTz
  split
  · rename_i rest2 heq
    obtain ⟨-, h2⟩ := List.cons_eq_cons.mp heq
    subst h2
    rfl
  · rename_i c a b d e rest2 hne heq
    exact absurd (List.cons_eq_cons.mp heq).1.symm hne
  · rename_i h1 h2
    exact absurd rfl (h1 rest)

theorem matchTz_append_done {s t : Str} (tail : Str) (h : matchTz s = (t, [])) :
    matchTz (s ++ ' ' :: tail) = (t, ' ' :: tail) := by
  unfold matchTz at h
  split at h
  · injection h with h1 h2
    subst h1
    subst h2
    exact matchTz_z (' ' :: tail)
  · rename_i c a b d e rest hne
    split at h
    · rename_i hcond
      injection h with h1 h2
      subst h1
      subst h2
      exact matchTz_sign c a b d e (' ' :: tail) hcond
    · injection h with h1 h2
      exact absurd h2 (List.cons_ne_nil _ _)
  · injection h with h1 h2
    subst h1
    subst h2
    exact matchTz_space tail

theorem digit_ne_special {c : Char} (h : c.isDigit = true) :
    c ≠ '\n' ∧ c ≠ '\r' ∧ c ≠ ';' := by
  refine ⟨?_, ?_, ?_⟩ <;> (intro he; subst he; exact absurd h (by decide))

theorem matchTime_parts {s t r : Str} (h : matchTime s = some (t, r)) :
    s = t ++ r ∧ ∀ c ∈ t, c ≠ '\n' ∧ c ≠ '\r' ∧ c ≠ ';' := by
  unfold matchTime at h
  rcases h0 : matchChar 'T' s with _ | s0 <;> simp only [h0] at h
  · exact Option.noConfusion h
  rcases h1 : takeDigits 2 s0 with _ | ⟨hh, s1⟩ <;> simp only [h1] at h
  · exact Option.noConfusion h
  rcases h2 : matchChar ':' s1 with _ | s2 <;> simp only [h2] at h
  · exact Option.noConfusion h
  rcases h3 : takeDigits 2 s2 with _ | ⟨mi, s3⟩ <;> simp only [h3] at h
  · exact Option.noConfusion h
  rcases h4 : matchChar ':' s3 with _ | s4 <;> simp only [h4] at h
  · exact Option.noConfusion h
  rcases h5 : takeDigits 2 s4 with _ | ⟨se, s5⟩ <;> simp only [h5] at h
  · exact Option.noConfusion h
  rcases h6 : matchFrac s5 with ⟨fr, s6⟩
  simp only [h6] at h
  rcases h7 : matchTz s6 with ⟨tz, s7⟩
  simp only [h7] at h
  injection h with h8
  injection h8 with ht hr
  obtain ⟨hfs, hfc⟩ := matchFrac_parts h6
  obtain ⟨hzs, hzc⟩ := matchTz_parts h7
  have hds0 := matchChar_eq h0
  obtain ⟨hds1, -, hhd⟩ := takeDigits_parts h1
  have hds2 := matchChar_eq h2
  obtain ⟨hds3, -, hmid⟩ := takeDigits_parts h3
  have hds4 := matchChar_eq h4
  obtain ⟨hds5, -, hsed⟩ := takeDigits_parts h5
  subst ht
  subst hr
  constructor
  · rw [hds0, hds1, hds2, hds3, hds4, hds5, hfs, hzs]
    simp
  · intro c hc
    rcases List.mem_append.mp hc with hc1 | hc1
    swap
    · rcases hzc c hc1 with h9 | h9 | h9 | h9 | h9
      · exact digit_ne_special h9
      all_goals (subst h9; refine ⟨by decide, by decide, by decide⟩)
    rcases List.mem_append.mp hc1 with hc2 | hc2
    swap
    · rcases hfc c hc2 with h9 | h9
      · exact digit_ne_special h9
      · subst h9
        exact ⟨by decide, by decide, by decide⟩
    rcases List.mem_append.mp hc2 with hc3 | hc3
    swap
    · rcases List.mem_cons.mp hc3 with h9 | h9
      · subst h9
        exact ⟨by decide, by decide, by decide⟩
      · exact digit_ne_special (hsed c h9)
    rcases List.mem_append.mp hc3 with hc4 | hc4
    swap
    · rcases List.mem_cons.mp hc4 with h9 | h9
      · subst h9
        exact ⟨by decide, by decide, by decide⟩
      · exact digit_ne_special (hmid c h9)
    rcases List.mem_cons.mp hc4 with h9 | h9
    · subst h9
      exact ⟨by decide, by decide, by decide⟩
    · exact digit_ne_special (hhd c h9)

theorem matchTime_append_space {s t : Str} (tail : Str) (h : matchTime s = some (t, [])) :
    matchTime (s ++ ' ' :: tail) = some (t, ' ' :: tail) := by
  unfold matchTime at h ⊢
  rcases h0 : matchChar 'T' s with _ | s0 <;> simp only [h0] at h
  · exact Option.noConfusion h
  simp only [matchChar_append (' ' :: tail) h0]
  rcases h1 : takeDigits 2 s0 with _ | ⟨hh, s1⟩ <;> simp only [h1] at h
  · exact Option.noConfusion h
  simp only [takeDigits_append (' ' :: tail) h1]
  rcases h2 : matchChar ':' s1 with _ | s2 <;> simp only [h2] at h
  · exact Option.noConfusion h
  simp only [matchChar_append (' ' :: tail) h2]
  rcases h3 : takeDigits 2 s2 with _ | ⟨mi, s3⟩ <;> simp only [h3] at h
  · exact Option.noConfusion h
  simp only [takeDigits_append (' ' :: tail) h3]
  rcases h4 : matchChar ':' s3 with _ | s4 <;> simp only [h4] at h
  · exact Option.noConfusion h
  simp only [matchChar_append (' ' :: tail) h4]
  rcases h5 : takeDigits 2 s4 with _ | ⟨se, s5⟩ <;> simp only [h5] at h
  · exact Option.noConfusion h
  simp only [takeDigits_append (' ' :: tail) h5]
  rcases h6 : matchFrac s5 with ⟨fr, s6⟩
  simp only [h6] at h
  simp only [matchFrac_append_sp tail h6]
  rcases h7 : matchTz s6 with ⟨tz, s7⟩
  simp only [h7] at h
  injection h with h8
  injection h8 with ht hs7
  subst ht
  subst hs7
  simp only [matchTz_append_done tail h7]


theorem matchDate_chars_ne {s d r : Str} (h : matchDate s = some (d, r)) :
    ∀ c ∈ d, c ≠ '\n' ∧ c ≠ '\r' ∧ c ≠ ';' := by
  intro c hc
  rcases (matchDate_parts h).2.1 c hc with h1 | h1
  · exact digit_ne_special h1
  · subst h1
    exact ⟨by decide, by decide, by decide⟩

theorem validDatetime_facts {dt : Str} (hv : validDatetime dt) :
    (∃ c cs, dt = c :: cs ∧ c.isDigit = true) ∧
      ∀ c ∈ dt, c ≠ '\n' ∧ c ≠ '\r' ∧ c ≠ ';' := by
  obtain ⟨d, rest, hd, hr⟩ := hv
  obtain ⟨hds, hclass, c0, cs0, hdc, hdig⟩ := matchDate_parts hd
  constructor
  · refine ⟨c0, cs0 ++ rest, ?_, hdig⟩
    rw [hds, hdc]
    simp
  · intro c hc
    rw [hds] at hc
    rcases List.mem_append.mp hc with h1 | h1
    · exact matchDate_chars_ne hd c h1
    · rcases hr with hre | ⟨t, ht⟩
      · subst hre
        cases h1
      · obtain ⟨hts, htc⟩ := matchTime_parts ht
        rw [hts, List.append_nil] at h1
        exact htc c h1

theorem headerMatch_render {dt after : Str} (hv : validDatetime dt)
    (hhead : ∀ c, after.head? = some c → isWs c = false) :
    ∃ d t, headerMatch (dt ++ ' ' :: after) = some (d, t, dt.length + 1) ∧ d ++ t = dt := by
  have hafter : after.takeWhile isWs = [] := by
    cases after with
    | nil => rfl
    | cons c cs =>
      rw [List.takeWhile_cons, if_neg]
      simp [hhead c rfl]
  have hws : (' ' :: after).takeWhile isWs = [' '] := by
    rw [List.takeWhile_cons, if_pos (by decide), hafter]
  obtain ⟨d, rest, hd, hr⟩ := hv
  rcases hr with hre | ⟨t, ht⟩
  · subst hre
    have hlen : dt.length = d.length := by
      rw [(matchDate_parts hd).1]
      simp
    refine ⟨d, [], ?_, by simpa using (matchDate_parts hd).1.symm⟩
    unfold headerMatch
    rw [matchDate_append (' ' :: after) hd]
    dsimp only
    have hmt : matchTime ([] ++ ' ' :: after) = none := by
      unfold matchTime
      rw [show matchChar 'T' ([] ++ ' ' :: after) =
        (if ' ' = 'T' then some after else none) from rfl]
      rw [if_neg (by decide)]
    rw [hmt]
    dsimp only
    rw [show ([] ++ ' ' :: after : Str) = ' ' :: after from rfl, hws]
    rw [if_neg (by decide)]
    rw [hlen]
    rfl
  · have hlen : dt.length = d.length + t.length := by
      rw [(matchDate_parts hd).1, (matchTime_parts ht).1]
      simp
    refine ⟨d, t, ?_, ?_⟩
    · unfold headerMatch
      rw [matchDate_append (' ' :: after) hd]
      dsimp only
      rw [matchTime_append_space after ht]
      dsimp only
      rw [hws]
      rw [if_neg (by decide)]
      rw [hlen]
      rfl
    · rw [(matchDate_parts hd).1, (matchTime_parts ht).1]
      simp


theorem charBytes_ascii {c : Char} (h : c.toNat < 128) : charBytes c = [c] := by
  unfold charBytes utf8Bytes
  rw [if_pos h]
  simp [Char.ofNat_toNat]

theorem quotedLoop_escape : ∀ (p : Str), (∀ c ∈ p, c.toNat < 128) →
    ∀ (out rest0 : Str), quotedLoop (escapeQ p ++ '"' :: rest0) out = some (out ++ p, rest0) := by
  intro p
  induction p with
  | nil =>
    intro _ out rest0
    show quotedLoop ('"' :: rest0) out = some (out ++ [], rest0)
    unfold quotedLoop
    rw [if_neg (by decide), if_pos rfl, List.append_nil]
  | cons c p2 ih =>
    intro hp out rest0
    have hp2 : ∀ x ∈ p2, x.toNat < 128 := fun x hx => hp x (List.mem_cons_of_mem _ hx)
    have hexp : escapeQ (c :: p2) =
        (if c = '\\' then ['\\', '\\'] else if c = '"' then ['\\', '"'] else [c]) ++ escapeQ p2 := by
      unfold escapeQ
      rw [List.flatMap_cons]
    by_cases hbs : c = '\\'
    · subst hbs
      rw [hexp, if_pos rfl]
      show quotedLoop ('\\' :: '\\' :: (escapeQ p2 ++ '"' :: rest0)) out = _
      unfold quotedLoop
      rw [if_pos rfl]
      dsimp only
      rw [charBytes_ascii (by decide)]
      rw [ih hp2 (out ++ ['\\']) rest0]
      simp
    · by_cases hq : c = '"'
      · subst hq
        rw [hexp, if_neg hbs, if_pos rfl]
        show quotedLoop ('\\' :: '"' :: (escapeQ p2 ++ '"' :: rest0)) out = _
        unfold quotedLoop
        rw [if_pos rfl]
        dsimp only
        rw [charBytes_ascii (by decide)]
        rw [ih hp2 (out ++ ['"']) rest0]
        simp
      · rw [hexp, if_neg hbs, if_neg hq]
        show quotedLoop (c :: (escapeQ p2 ++ '"' :: rest0)) out = _
        unfold quotedLoop
        rw [if_neg hbs, if_neg hq]
        rw [charBytes_ascii (hp c (List.mem_cons_self _ _))]
        rw [ih hp2 (out ++ [c]) rest0]
        simp

theorem take_token_quoted (p rest0 : Str) (hp : ∀ c ∈ p, c.toNat < 128) :
    take_token ('"' :: (escapeQ p ++ '"' :: rest0)) = some (p, rest0) := by
  unfold take_token
  rw [show List.dropWhile isSpaceTab ('"' :: (escapeQ p ++ '"' :: rest0)) =
    '"' :: (escapeQ p ++ '"' :: rest0) from by rw [List.dropWhile_cons, if_neg (by decide)]]
  dsimp only
  rw [if_pos rfl]
  rw [quotedLoop_escape p hp [] rest0]
  simp

theorem take_token_multibyte :
    take_token ('"' :: 'é' :: '"' :: []) =
      some ([Char.ofNat 195, Char.ofNat 169], []) := by decide

theorem take_token_ws_cons {c : Char} (hc : isSpaceTab c = true) (s : Str) :
    take_token (c :: s) = take_token s := by
  unfold take_token
  rw [List.dropWhile_cons, if_pos hc]

theorem take_token_bare (c : Char) (hst : isSpaceTab c = false) (hq : c ≠ '"') (x : Str) :
    take_token (c :: ' ' :: x) = some ([c], ' ' :: x) := by
  unfold take_token
  rw [show List.dropWhile isSpaceTab (c :: ' ' :: x) = c :: ' ' :: x from by
    rw [List.dropWhile_cons, if_neg (by simp [hst])]]
  dsimp only
  rw [if_neg hq]
  rw [show (c :: ' ' :: x).takeWhile (fun d => !isSpaceTab d) = [c] from by
    rw [List.takeWhile_cons, if_pos (by simp [hst]), List.takeWhile_cons, if_neg (by decide)]]
  rfl

theorem take_token_space_nil : take_token [' '] = none := by
  unfold take_token
  rw [show List.dropWhile isSpaceTab [' '] = [] from by decide]

theorem tokenize_ws_cons {c : Char} (hc : isSpaceTab c = true) (s : Str) :
    tokenize (c :: s) = tokenize s := by
  rw [tokenize_step, take_token_ws_cons hc]
  exact (tokenize_step s).symm

theorem tokenize_quote (x X : Str) (hx : ∀ c ∈ x, c.toNat < 128) :
    tokenize (quote x ++ ' ' :: X) = x :: tokenize X := by
  have hsh : quote x ++ ' ' :: X = '"' :: (escapeQ x ++ '"' :: (' ' :: X)) := by
    unfold quote escapeQ
    simp
  rw [hsh, tokenize_step, take_token_quoted x (' ' :: X) hx]
  dsimp only
  rw [tokenize_ws_cons (by decide) X]

theorem tokenize_status (c : Char) (hst : isSpaceTab c = false) (hq : c ≠ '"') (X : Str) :
    tokenize (c :: ' ' :: X) = [c] :: tokenize X := by
  rw [tokenize_step, take_token_bare c hst hq X]
  dsimp only
  rw [tokenize_ws_cons (by decide) X]

theorem tokenize_space_nil : tokenize [' '] = [] := by
  rw [tokenize_step, take_token_space_nil]

theorem escapeQ_mem {p : Str} : ∀ c ∈ escapeQ p, c = '\\' ∨ c = '"' ∨ c ∈ p := by
  induction p with
  | nil =>
    intro c hc
    cases hc
  | cons x p2 ih =>
    intro c hc
    rw [show escapeQ (x :: p2) =
        (if x = '\\' then ['\\', '\\'] else if x = '"' then ['\\', '"'] else [x]) ++ escapeQ p2 from by
      unfold escapeQ
      rw [List.flatMap_cons]] at hc
    rcases List.mem_append.mp hc with h1 | h1
    · by_cases hbs : x = '\\'
      · rw [if_pos hbs] at h1
        rcases List.mem_cons.mp h1 with h2 | h2
        · exact Or.inl h2
        · exact Or.inl (List.mem_singleton.mp h2)
      · by_cases hq : x = '"'
        · rw [if_neg hbs, if_pos hq] at h1
          rcases List.mem_cons.mp h1 with h2 | h2
          · exact Or.inl h2
          · exact Or.inr (Or.inl (List.mem_singleton.mp h2))
        · rw [if_neg hbs, if_neg hq] at h1
          right
          right
          rw [List.mem_singleton.mp h1]
          exact List.mem_cons_self _ _
    · rcases ih c h1 with h2 | h2 | h2
      · exact Or.inl h2
      · exact Or.inr (Or.inl h2)
      · exact Or.inr (Or.inr (List.mem_cons_of_mem _ h2))

theorem trim_space_cons (s : Str) : trim (' ' :: s) = trim s := by
  unfold trim trimStart
  rw [List.dropWhile_cons, if_pos (by decide)]


theorem parse_header_fields_render (st : Option Char) (pay nar : Option Str)
    (hst : ∀ c, st = some c → c = '*' ∨ c = '!')
    (hpn : st = none → pay ≠ some ['*'] ∧ pay ≠ some ['!'])
    (hnp : nar.isSome = true → pay.isSome = true)
    (hpa : ∀ p, pay = some p → ∀ c ∈ p, c.toNat < 128)
    (hna : ∀ nr, nar = some nr → ∀ c ∈ nr, c.toNat < 128) :
    parse_header_fields (statusPart st ++ (quotePart pay ++ quotePart nar)) =
      (st, pay, nar) := by
  rcases nar with _ | n <;> rcases pay with _ | p <;> rcases st with _ | c <;>
    simp only [statusPart, quotePart]
  · show parse_header_fields [] = (none, none, none)
    rfl
  · rcases hst c rfl with hc | hc <;> subst hc
    · show parse_header_fields ('*' :: ' ' :: []) = (some '*', none, none)
      have htoks : tokenize ('*' :: ' ' :: []) = [['*']] := by
        rw [tokenize_status '*' (by decide) (by decide) []]
        rfl
      unfold parse_header_fields
      dsimp only
      rw [htoks]
      simp
    · show parse_header_fields ('!' :: ' ' :: []) = (some '!', none, none)
      have htoks : tokenize ('!' :: ' ' :: []) = [['!']] := by
        rw [tokenize_status '!' (by decide) (by decide) []]
        rfl
      unfold parse_header_fields
      dsimp only
      rw [htoks]
      simp
  · simp only [List.nil_append, List.append_nil, List.append_assoc]
    show parse_header_fields (quote p ++ ' ' :: []) = (none, some p, none)
    have htoks : tokenize (quote p ++ ' ' :: []) = [p] := by
      rw [tokenize_quote p [] (hpa p rfl)]
      rfl
    have hp1 : ¬(p = ['*']) := fun he => (hpn rfl).1 (by rw [he])
    have hp2 : ¬(p = ['!']) := fun he => (hpn rfl).2 (by rw [he])
    unfold parse_header_fields
    dsimp only
    rw [htoks]
    simp [hp1, hp2]
  · simp only [List.nil_append, List.append_nil, List.append_assoc]
    rcases hst c rfl with hc | hc <;> subst hc
    · show parse_header_fields ('*' :: ' ' :: (quote p ++ ' ' :: [])) = (some '*', some p, none)
      have htoks : tokenize ('*' :: ' ' :: (quote p ++ ' ' :: [])) = [['*'], p] := by
        rw [tokenize_status '*' (by decide) (by decide) _, tokenize_quote p [] (hpa p rfl)]
        rfl
      unfold parse_header_fields
      dsimp only
      rw [htoks]
      simp
    · show parse_header_fields ('!' :: ' ' :: (quote p ++ ' ' :: [])) = (some '!', some p, none)
      have htoks : tokenize ('!' :: ' ' :: (quote p ++ ' ' :: [])) = [['!'], p] := by
        rw [tokenize_status '!' (by decide) (by decide) _, tokenize_quote p [] (hpa p rfl)]
        rfl
      unfold parse_header_fields
      dsimp only
      rw [htoks]
      simp
  · exact absurd (hnp rfl) (by decide)
  · exact absurd (hnp rfl) (by decide)
  · simp only [List.nil_append, List.append_nil, List.append_assoc]
    show parse_header_fields (quote p ++ ' ' :: (quote n ++ ' ' :: [])) = (none, some p, some n)
    have htoks : tokenize (quote p ++ ' ' :: (quote n ++ ' ' :: [])) = [p, n] := by
      rw [tokenize_quote p _ (hpa p rfl), tokenize_quote n [] (hna n rfl)]
      rfl
    have hp1 : ¬(p = ['*']) := fun he => (hpn rfl).1 (by rw [he])
    have hp2 : ¬(p = ['!']) := fun he => (hpn rfl).2 (by rw [he])
    unfold parse_header_fields
    dsimp only
    rw [htoks]
    simp [hp1, hp2]
  · simp only [List.nil_append, List.append_nil, List.append_assoc]
    rcases hst c rfl with hc | hc <;> subst hc
    · show parse_header_fields ('*' :: ' ' :: (quote p ++ ' ' :: (quote n ++ ' ' :: []))) =
        (some '*', some p, some n)
      have htoks : tokenize ('*' :: ' ' :: (quote p ++ ' ' :: (quote n ++ ' ' :: []))) =
          [['*'], p, n] := by
        rw [tokenize_status '*' (by decide) (by decide) _, tokenize_quote p _ (hpa p rfl),
          tokenize_quote n [] (hna n rfl)]
        rfl
      unfold parse_header_fields
      dsimp only
      rw [htoks]
      simp
    · show parse_header_fields ('!' :: ' ' :: (quote p ++ ' ' :: (quote n ++ ' ' :: []))) =
        (some '!', some p, some n)
      have htoks : tokenize ('!' :: ' ' :: (quote p ++ ' ' :: (quote n ++ ' ' :: []))) =
          [['!'], p, n] := by
        rw [tokenize_status '!' (by decide) (by decide) _, tokenize_quote p _ (hpa p rfl),
          tokenize_quote n [] (hna n rfl)]
        rfl
      unfold parse_header_fields
      dsimp only
      rw [htoks]
      simp


theorem quote_mem {p : Str} : ∀ c ∈ quote p, c = '"' ∨ c = '\\' ∨ c ∈ p := by
  intro c hc
  unfold quote at hc
  rcases List.mem_cons.mp hc with h1 | h1
  · exact Or.inl h1
  · rcases List.mem_append.mp h1 with h2 | h2
    · rcases escapeQ_mem c h2 with h3 | h3 | h3
      · exact Or.inr (Or.inl h3)
      · exact Or.inl h3
      · exact Or.inr (Or.inr h3)
    · exact Or.inl (List.mem_singleton.mp h2)

theorem quotePart_mem {pay : Option Str} :
    ∀ c ∈ quotePart pay, c = '"' ∨ c = '\\' ∨ c = ' ' ∨ ∃ p, pay = some p ∧ c ∈ p := by
  rcases pay with _ | p
  · intro c hc
    simp only [quotePart] at hc
    cases hc
  · intro c hc
    simp only [quotePart] at hc
    rcases List.mem_append.mp hc with h1 | h1
    · rcases quote_mem c h1 with h2 | h2 | h2
      · exact Or.inl h2
      · exact Or.inr (Or.inl h2)
      · exact Or.inr (Or.inr (Or.inr ⟨p, rfl, h2⟩))
    · exact Or.inr (Or.inr (Or.inl (List.mem_singleton.mp h1)))

theorem headerLine_render (st : PState) (n : Nat) (txn : Transaction) (fmeta : Str)
    (d t : Str) (hdt2 : d ++ t = txn.datetime) (hv : validTxn txn fmeta) :
    ∃ D, headerLine st n (renderHeader txn fmeta) d t (txn.datetime.length + 1) =
      { st with
        diagnostics := st.diagnostics ++ D,
        current := some (n, ⟨d, txn.datetime, txn.status, txn.payee, txn.narration,
          some (trim fmeta), []⟩) } := by
  obtain ⟨hvd, hst, hpay, hnar, hpA, hnA, hpn, hnp, hmeta, hposts⟩ := hv
  have hshape : renderHeader txn fmeta =
      (txn.datetime ++ ' ' :: (statusPart txn.status ++
        (quotePart txn.payee ++ quotePart txn.narration))) ++ ';' :: (' ' :: fmeta) := by
    unfold renderHeader
    simp
  have hnosemi : ∀ c ∈ txn.datetime ++ ' ' :: (statusPart txn.status ++
      (quotePart txn.payee ++ quotePart txn.narration)), c ≠ ';' := by
    intro c hc
    rcases List.mem_append.mp hc with h1 | h1
    · exact ((validDatetime_facts hvd).2 c h1).2.2
    · rcases List.mem_cons.mp h1 with h2 | h2
      · subst h2
        decide
      · rcases List.mem_append.mp h2 with h3 | h3
        · cases hss : txn.status with
          | none =>
            rw [hss] at h3
            simp [statusPart] at h3
          | some c0 =>
            rw [hss] at h3
            simp only [statusPart] at h3
            rcases List.mem_cons.mp h3 with h4 | h4
            · subst h4
              rcases hst c hss with h5 | h5 <;> (rw [h5]; decide)
            · rw [List.mem_singleton.mp h4]
              decide
        · rcases List.mem_append.mp h3 with h4 | h4
          · rcases quotePart_mem c h4 with h5 | h5 | h5 | ⟨p, hp, hcp⟩
            · subst h5; decide
            · subst h5; decide
            · subst h5; decide
            · exact (hpay p hp c hcp).2.1
          · rcases quotePart_mem c h4 with h5 | h5 | h5 | ⟨p, hp, hcp⟩
            · subst h5; decide
            · subst h5; decide
            · subst h5; decide
            · exact (hnar p hp c hcp).2.1
  have hsemi : splitOnceSemi ((txn.datetime ++ ' ' :: (statusPart txn.status ++
      (quotePart txn.payee ++ quotePart txn.narration))) ++ ';' :: (' ' :: fmeta)) =
      some (txn.datetime ++ ' ' :: (statusPart txn.status ++
        (quotePart txn.payee ++ quotePart txn.narration)), ' ' :: fmeta) :=
    splitOnceSemi_append hnosemi
  have hcont : ((txn.datetime ++ ' ' :: (statusPart txn.status ++
      (quotePart txn.payee ++ quotePart txn.narration))) ++
        ';' :: (' ' :: fmeta)).contains ';' = true :=
    List.elem_eq_true_of_mem
      (List.mem_append.mpr (Or.inr (List.mem_cons_self _ _)))
  unfold headerLine
  rw [hshape, hsemi]
  dsimp only
  rw [trim_space_cons]
  simp only [hcont, Bool.not_true, Bool.false_eq_true, if_false]
  rw [show txn.datetime ++ ' ' :: (statusPart txn.status ++
      (quotePart txn.payee ++ quotePart txn.narration)) =
    (txn.datetime ++ [' ']) ++ (statusPart txn.status ++
      (quotePart txn.payee ++ quotePart txn.narration)) from by simp]
  rw [show txn.datetime.length + 1 = (txn.datetime ++ [' ']).length from by simp]
  rw [List.drop_left]
  rw [parse_header_fields_render txn.status txn.payee txn.narration hst hpn hnp hpA hnA]
  dsimp only
  rw [show (txn.datetime ++ [' ']).length = txn.datetime.length + 1 from by simp]
  rw [hdt2]
  by_cases hempty : (trim (statusPart txn.status ++
      (quotePart txn.payee ++ quotePart txn.narration))).isEmpty = true
  · refine ⟨[⟨n, txn.datetime.length + 1, "missing transaction details"⟩], ?_⟩
    rw [if_pos hempty]
    rfl
  · refine ⟨[], ?_⟩
    rw [if_neg hempty]
    rw [show st.diagnostics ++ ([] : List Diagnostic) = st.diagnostics from
      List.append_nil _]


theorem flush_transaction_id {st : PState} (h : st.current = none) :
    flush_transaction st = st := by
  unfold flush_transaction
  rw [h]

theorem flushAccount_id {st : PState} (h : st.currentAccount = none) :
    flushAccount st = st := by
  unfold flushAccount
  rw [h]

theorem renderHeader_shape (txn : Transaction) (fmeta : Str) :
    renderHeader txn fmeta = txn.datetime ++ ' ' :: (statusPart txn.status ++
      (quotePart txn.payee ++ (quotePart txn.narration ++ (';' :: ' ' :: fmeta)))) := by
  unfold renderHeader
  simp

theorem renderHeader_chars (txn : Transaction) (fmeta : Str)
    (hvd : validDatetime txn.datetime)
    (hst : ∀ c, txn.status = some c → c = '*' ∨ c = '!')
    (hpay : ∀ p, txn.payee = some p → ∀ c ∈ p, c ≠ '\n' ∧ c ≠ ';' ∧ c ≠ '\r')
    (hnar : ∀ nr, txn.narration = some nr → ∀ c ∈ nr, c ≠ '\n' ∧ c ≠ ';' ∧ c ≠ '\r')
    (hmeta : ∀ c ∈ fmeta, c ≠ '\n' ∧ c ≠ '\r') :
    ∀ c ∈ renderHeader txn fmeta, c ≠ '\n' ∧ c ≠ '\r' := by
  intro c hc
  rw [renderHeader_shape] at hc
  rcases List.mem_append.mp hc with h1 | h1
  · have h9 := (validDatetime_facts hvd).2 c h1
    exact ⟨h9.1, h9.2.1⟩
  · rcases List.mem_cons.mp h1 with h2 | h2
    · subst h2
      exact ⟨by decide, by decide⟩
    · rcases List.mem_append.mp h2 with h3 | h3
      · cases hss : txn.status with
        | none =>
          rw [hss] at h3
          simp [statusPart] at h3
        | some c0 =>
          rw [hss] at h3
          simp only [statusPart] at h3
          rcases List.mem_cons.mp h3 with h4 | h4
          · subst h4
            rcases hst c hss with h5 | h5 <;> (rw [h5]; exact ⟨by decide, by decide⟩)
          · rw [List.mem_singleton.mp h4]
            exact ⟨by decide, by decide⟩
      · rcases List.mem_append.mp h3 with h4 | h4
        · rcases quotePart_mem c h4 with h5 | h5 | h5 | ⟨p, hp, hcp⟩
          · subst h5
            exact ⟨by decide, by decide⟩
          · subst h5
            exact ⟨by decide, by decide⟩
          · subst h5
            exact ⟨by decide, by decide⟩
          · exact ⟨(hpay p hp c hcp).1, (hpay p hp c hcp).2.2⟩
        · rcases List.mem_append.mp h4 with h6 | h6
          · rcases quotePart_mem c h6 with h5 | h5 | h5 | ⟨p, hp, hcp⟩
            · subst h5
              exact ⟨by decide, by decide⟩
            · subst h5
              exact ⟨by decide, by decide⟩
            · subst h5
              exact ⟨by decide, by decide⟩
            · exact ⟨(hnar p hp c hcp).1, (hnar p hp c hcp).2.2⟩
          · rcases List.mem_cons.mp h6 with h7 | h7
            · subst h7
              exact ⟨by decide, by decide⟩
            · rcases List.mem_cons.mp h7 with h8 | h8
              · subst h8
                exact ⟨by decide, by decide⟩
              · exact hmeta c h8

theorem parseLine_header_render (st : PState) (n : Nat) (txn : Transaction) (fmeta : Str)
    (hv : validTxn txn fmeta) (hcur : st.current = none) (hacct : st.currentAccount = none) :
    ∃ D d, parseLine st n (renderHeader txn fmeta) =
      { st with
        diagnostics := st.diagnostics ++ D,
        current := some (n, ⟨d, txn.datetime, txn.status, txn.payee, txn.narration,
          some (trim fmeta), []⟩) } := by
  obtain ⟨hvd, hst, hpay, hnar, hpA, hnA, hpn, hnp, hmeta, hposts⟩ := hv
  obtain ⟨⟨c0, cs0, hdc, hdig⟩, hdtchars⟩ := validDatetime_facts hvd
  have hchars := renderHeader_chars txn fmeta hvd hst hpay hnar hmeta
  have hcr : trimEndCR (renderHeader txn fmeta) = renderHeader txn fmeta :=
    trimEndCR_eq_self (fun c hc => (hchars c hc).2)
  have htail : ∃ tail, renderHeader txn fmeta = c0 :: tail := by
    rw [renderHeader_shape, hdc]
    exact ⟨_, rfl⟩
  obtain ⟨tail, htail⟩ := htail
  have hnb : is_blank (renderHeader txn fmeta) = false := by
    apply @is_blank_false_of_mem _ c0
    · rw [htail]
      exact List.mem_cons_self _ _
    · exact isDigit_not_ws hdig
  have hnd : is_directive (renderHeader txn fmeta) = false := by
    rw [htail]
    unfold is_directive
    rw [List.dropWhile_cons, if_neg (by simp [not_ws_not_spaceTab (isDigit_not_ws hdig)])]
    simp [(digit_ne_special hdig).2.2]
  have hacc : ¬(renderHeader txn fmeta = accountKw ∨
      (accountKw ++ [' ']).isPrefixOf (renderHeader txn fmeta) = true ∨
      (accountKw ++ ['\t']).isPrefixOf (renderHeader txn fmeta) = true) := by
    rw [htail]
    rintro (h | h | h)
    · have h9 : c0 = 'a' := by
        have h10 := congrArg List.head? h
        simp [accountKw] at h10
        exact h10
      rw [h9] at hdig
      exact absurd hdig (by decide)
    · have h9 := prefix_head_eq h
      rw [← h9] at hdig
      exact absurd hdig (by decide)
    · have h9 := prefix_head_eq h
      rw [← h9] at hdig
      exact absurd hdig (by decide)
  have hfs : fourSpaces.isPrefixOf (renderHeader txn fmeta) = false := by
    rw [htail]
    cases hb : fourSpaces.isPrefixOf (c0 :: tail) with
    | false => rfl
    | true =>
      have h9 := prefix_head_eq hb
      rw [← h9] at hdig
      exact absurd hdig (by decide)
  have hafterhead : ∀ c2, (statusPart txn.status ++ (quotePart txn.payee ++
      (quotePart txn.narration ++ (';' :: ' ' :: fmeta)))).head? = some c2 →
      isWs c2 = false := by
    intro c2 hc2
    cases hss : txn.status with
    | some cc =>
      rw [hss] at hc2
      have h9 : some cc = some c2 := hc2
      injection h9 with h9
      rw [← h9]
      rcases hst cc hss with h5 | h5 <;> (rw [h5]; decide)
    | none =>
      rw [hss] at hc2
      cases hpp : txn.payee with
      | some p =>
        rw [hpp] at hc2
        have h9 : some '"' = some c2 := hc2
        injection h9 with h9
        rw [← h9]
        decide
      | none =>
        rw [hpp] at hc2
        cases hnn : txn.narration with
        | some nr =>
          rw [hnn] at hc2
          have h9 : some '"' = some c2 := hc2
          injection h9 with h9
          rw [← h9]
          decide
        | none =>
          rw [hnn] at hc2
          have h9 : some ';' = some c2 := hc2
          injection h9 with h9
          rw [← h9]
          decide
  obtain ⟨d, t, hm, hdt⟩ := headerMatch_render hvd hafterhead
  obtain ⟨D, hD⟩ := headerLine_render st n txn fmeta d t hdt
    ⟨hvd, hst, hpay, hnar, hpA, hnA, hpn, hnp, hmeta, hposts⟩
  refine ⟨D, d, ?_⟩
  unfold parseLine
  rw [hcr]
  dsimp only
  rw [hnb, hnd]
  simp only [Bool.false_eq_true, if_false]
  rw [if_neg hacc]
  rw [hfs]
  simp only [Bool.false_eq_true, if_false]
  rw [show headerMatch (renderHeader txn fmeta) =
    some (d, t, txn.datetime.length + 1) from by rw [renderHeader_shape]; exact hm]
  dsimp only
  rw [flush_transaction_id hcur, flushAccount_id hacct]
  exact hD


theorem trim_subset {s : Str} : ∀ c ∈ trim s, c ∈ s := by
  intro c hc
  unfold trim trimEnd trimStart at hc
  rw [List.mem_reverse] at hc
  have h1 := List.Sublist.subset (List.dropWhile_sublist _) hc
  rw [List.mem_reverse] at h1
  exact List.Sublist.subset (List.dropWhile_sublist _) h1

theorem posting_to_text_shape (p : Posting) :
    posting_to_text p = fourSpaces ++ (p.account ++ ' ' :: (p.amount_text ++ ' ' ::
      (p.commodity ++ (match p.remainder with
        | some s => if (trim s).isEmpty then [] else ' ' :: trim s
        | none => [])))) := by
  unfold posting_to_text
  simp

theorem postingLine_render (st : PState) (n : Nat) (p : Posting) (hl : Nat)
    (txn2 : Transaction) (hvp : validPosting p) :
    postingLine st n (posting_to_text p) hl txn2 =
      { st with current := some (hl,
        { txn2 with postings := txn2.postings ++ [roundPosting p] }) } := by
  obtain ⟨hac, ham, hcom, hrem⟩ := hvp
  have hane := account_re_ne_nil hac
  have hanw := account_re_not_ws hac
  have hmne := amount_re_ne_nil ham
  have hmnw := amount_re_not_ws ham
  have hcne := commodity_re_ne_nil hcom
  have hcnw := commodity_re_not_ws hcom
  have hdrop : ∀ X : Str, (fourSpaces ++ X).drop 4 = X := fun X => List.drop_left fourSpaces X
  unfold postingLine
  rw [posting_to_text_shape, hdrop]
  rcases hrem0 : p.remainder with _ | s
  · dsimp only
    rw [List.append_nil]
    rw [splitWhitespace_token_space hane hanw, splitWhitespace_token_space hmne hmnw,
      splitWhitespace_single hcne hcnw]
    dsimp only
    rw [hac, ham, hcom]
    simp only [Bool.not_true, Bool.false_eq_true, if_false]
    simp only [if_true]
    simp only [roundPosting, normWsOpt, hrem0]
  · dsimp only
    by_cases hts : (trim s).isEmpty = true
    · rw [if_pos hts, List.append_nil]
      rw [splitWhitespace_token_space hane hanw, splitWhitespace_token_space hmne hmnw,
        splitWhitespace_single hcne hcnw]
      dsimp only
      rw [hac, ham, hcom]
      simp only [Bool.not_true, Bool.false_eq_true, if_false]
      simp only [if_true]
      simp only [roundPosting, normWsOpt, hrem0, normWs]
      rw [show trim s = [] from List.isEmpty_iff.mp hts]
      rfl
    · rw [if_neg hts]
      rw [splitWhitespace_token_space hane hanw, splitWhitespace_token_space hmne hmnw,
        splitWhitespace_token_space hcne hcnw]
      dsimp only
      rw [hac, ham, hcom]
      simp only [Bool.not_true, Bool.false_eq_true, if_false]
      cases hsw : splitWhitespace (trim s) with
      | nil =>
        simp only [if_true]
        simp only [roundPosting, normWsOpt, hrem0, normWs, hsw]
      | cons t2 ts2 =>
        simp only [roundPosting, normWsOpt, hrem0, normWs, hsw]
        simp

theorem parseLine_posting (st : PState) (n : Nat) (p : Posting) (hl : Nat)
    (txn2 : Transaction) (hvp : validPosting p)
    (hcur : st.current = some (hl, txn2)) (hacct : st.currentAccount = none) :
    parseLine st n (posting_to_text p) =
      { st with current := some (hl,
        { txn2 with postings := txn2.postings ++ [roundPosting p] }) } := by
  obtain ⟨hac, ham, hcom, hrem⟩ := hvp
  have hane := account_re_ne_nil hac
  have hanw := account_re_not_ws hac
  obtain ⟨a0, as0, ha0⟩ : ∃ a0 as0, p.account = a0 :: as0 := by
    cases hpa : p.account with
    | nil => exact absurd hpa hane
    | cons a0 as0 => exact ⟨a0, as0, rfl⟩
  have ha0nw : isWs a0 = false := hanw a0 (by rw [ha0]; exact List.mem_cons_self _ _)
  have ha0mem : a0 ∈ posting_to_text p := by
    rw [posting_to_text_shape, ha0]
    exact List.mem_append.mpr (Or.inr (List.mem_cons_self _ _))
  have hcr : trimEndCR (posting_to_text p) = posting_to_text p := by
    apply trimEndCR_eq_self
    intro c hc
    rw [posting_to_text_shape] at hc
    rcases List.mem_append.mp hc with h1 | h1
    · intro he
      subst he
      simp [fourSpaces] at h1
    · rcases List.mem_append.mp h1 with h2 | h2
      · exact not_ws_ne_cr (hanw c h2)
      · rcases List.mem_cons.mp h2 with h3 | h3
        · subst h3
          decide
        · rcases List.mem_append.mp h3 with h4 | h4
          · exact not_ws_ne_cr (amount_re_not_ws ham c h4)
          · rcases List.mem_cons.mp h4 with h5 | h5
            · subst h5
              decide
            · rcases List.mem_append.mp h5 with h6 | h6
              · exact not_ws_ne_cr (commodity_re_not_ws hcom c h6)
              · rcases hrr : p.remainder with _ | s
                · rw [hrr] at h6
                  simp at h6
                · rw [hrr] at h6
                  dsimp only at h6
                  split at h6
                  · simp at h6
                  · rcases List.mem_cons.mp h6 with h7 | h7
                    · subst h7
                      decide
                    · exact (hrem s hrr c (trim_subset c h7)).2
  have hnb : is_blank (posting_to_text p) = false :=
    is_blank_false_of_mem ha0mem ha0nw
  have hnd : is_directive (posting_to_text p) = false := by
    rw [posting_to_text_shape, ha0]
    unfold is_directive
    rw [show (fourSpaces ++ (a0 :: as0 ++ ' ' :: (p.amount_text ++ ' ' ::
        (p.commodity ++ _)))) = ' ' :: ' ' :: ' ' :: ' ' :: (a0 :: (as0 ++ ' ' ::
        (p.amount_text ++ ' ' :: (p.commodity ++ _)))) from rfl]
    rw [List.dropWhile_cons, if_pos (by decide), List.dropWhile_cons, if_pos (by decide),
      List.dropWhile_cons, if_pos (by decide), List.dropWhile_cons, if_pos (by decide),
      List.dropWhile_cons, if_neg (by simp [not_ws_not_spaceTab ha0nw])]
    have h9 : a0 ≠ ';' := account_re_not_semi hac a0 (by rw [ha0]; exact List.mem_cons_self _ _)
    simp [h9]
  rw [parseLine_indented st n (posting_to_text p) hcr hnb hnd
    ⟨_, by rw [posting_to_text_shape]⟩]
  conv_lhs => rw [hcur]
  dsimp only
  rw [if_neg (by rw [hacct]; simp)]
  exact postingLine_render st n p hl txn2 ⟨hac, ham, hcom, hrem⟩


theorem joinSep_cons2 {sep : Char} (a : Str) {l : List Str} (h : l ≠ []) :
    joinSep sep (a :: l) = a ++ sep :: joinSep sep l := by
  cases l with
  | nil => exact absurd rfl h
  | cons y ys => rfl

theorem posting_to_text_chars (p : Posting) (hvp : validPosting p) :
    ∀ c ∈ posting_to_text p, c ≠ '\n' ∧ c ≠ '\r' := by
  obtain ⟨hac, ham, hcom, hrem⟩ := hvp
  intro c hc
  rw [posting_to_text_shape] at hc
  have hws : ∀ {x : Char}, isWs x = false → x ≠ '\n' ∧ x ≠ '\r' := by
    intro x hx
    constructor
    · intro he
      subst he
      exact absurd hx (by decide)
    · exact not_ws_ne_cr hx
  rcases List.mem_append.mp hc with h1 | h1
  · simp [fourSpaces] at h1
    subst h1
    exact ⟨by decide, by decide⟩
  · rcases List.mem_append.mp h1 with h2 | h2
    · exact hws (account_re_not_ws hac c h2)
    · rcases List.mem_cons.mp h2 with h3 | h3
      · subst h3
        exact ⟨by decide, by decide⟩
      · rcases List.mem_append.mp h3 with h4 | h4
        · exact hws (amount_re_not_ws ham c h4)
        · rcases List.mem_cons.mp h4 with h5 | h5
          · subst h5
            exact ⟨by decide, by decide⟩
          · rcases List.mem_append.mp h5 with h6 | h6
            · exact hws (commodity_re_not_ws hcom c h6)
            · rcases hrr : p.remainder with _ | s
              · rw [hrr] at h6
                simp at h6
              · rw [hrr] at h6
                dsimp only at h6
                split at h6
                · simp at h6
                · rcases List.mem_cons.mp h6 with h7 | h7
                  · subst h7
                    exact ⟨by decide, by decide⟩
                  · exact hrem s hrr c (trim_subset c h7)

theorem transaction_to_text_eq (txn : Transaction) (fmeta : Str) :
    transaction_to_text txn fmeta =
      joinSep '\n' ([renderHeader txn fmeta] ++ txn.postings.map posting_to_text ++ [[]]) := by
  unfold transaction_to_text renderHeader statusPart quotePart
  cases txn.status <;> cases txn.payee <;> cases txn.narration <;> rfl

theorem rustLines_render (txn : Transaction) (fmeta : Str) (hv : validTxn txn fmeta) :
    rustLines (transaction_to_text txn fmeta) =
      renderHeader txn fmeta :: txn.postings.map posting_to_text := by
  obtain ⟨hvd, hst, hpay, hnar, hpA, hnA, hpn, hnp, hmeta, hposts⟩ := hv
  have hchars := renderHeader_chars txn fmeta hvd hst hpay hnar hmeta
  have hnonl : ∀ l ∈ [renderHeader txn fmeta] ++ txn.postings.map posting_to_text ++ [[]],
      ∀ c ∈ l, c ≠ '\n' := by
    intro l hl c hc
    rcases List.mem_append.mp hl with h1 | h1
    · rcases List.mem_append.mp h1 with h2 | h2
      · rw [List.mem_singleton.mp h2] at hc
        exact (hchars c hc).1
      · obtain ⟨p, hp, hfp⟩ := List.mem_map.mp h2
        rw [← hfp] at hc
        exact (posting_to_text_chars p (hposts p hp) c hc).1
    · rw [List.mem_singleton.mp h1] at hc
      cases hc
  have hsplit : splitOnC '\n' (transaction_to_text txn fmeta) =
      [renderHeader txn fmeta] ++ txn.postings.map posting_to_text ++ [[]] := by
    rw [transaction_to_text_eq]
    exact splitOnC_joinSep _ (by simp) hnonl
  have hjoin : transaction_to_text txn fmeta =
      renderHeader txn fmeta ++ '\n' :: joinSep '\n' (txn.postings.map posting_to_text ++ [[]]) := by
    rw [transaction_to_text_eq]
    rw [show ([renderHeader txn fmeta] ++ txn.postings.map posting_to_text ++ [[]] : List Str) =
      renderHeader txn fmeta :: (txn.postings.map posting_to_text ++ [[]]) from by simp]
    exact joinSep_cons2 _ (by simp)
  have hne : transaction_to_text txn fmeta ≠ [] := by
    rw [hjoin]
    intro he
    have h9 := congrArg List.length he
    simp at h9
  unfold rustLines
  rw [if_neg hne, hsplit]
  dsimp only
  rw [show ([renderHeader txn fmeta] ++ txn.postings.map posting_to_text ++ [[]] : List Str) =
    ([renderHeader txn fmeta] ++ txn.postings.map posting_to_text) ++ [[]] from by simp]
  rw [List.getLast?_concat]
  rw [if_pos rfl]
  rw [List.dropLast_concat]
  simp


theorem postings_lines_fold (ps : List Posting) :
    ∀ (st : PState) (n : Nat) (hl : Nat) (txn2 : Transaction),
      (∀ p ∈ ps, validPosting p) →
      st.current = some (hl, txn2) → st.currentAccount = none →
      (enumFrom n (ps.map posting_to_text)).foldl (fun st q => parseLine st q.1 q.2) st =
        { st with current := some (hl,
          { txn2 with postings := txn2.postings ++ ps.map roundPosting }) } := by
  induction ps with
  | nil =>
    intro st n hl txn2 hv hcur hacct
    obtain ⟨d0, cur0, ca0, t0, ad0⟩ := st
    simp only at hcur
    subst hcur
    show (⟨d0, _, ca0, t0, ad0⟩ : PState) = _
    rw [List.map_nil, List.append_nil]
  | cons p ps ih =>
    intro st n hl txn2 hv hcur hacct
    rw [List.map_cons]
    rw [show enumFrom n (posting_to_text p :: ps.map posting_to_text) =
      (n, posting_to_text p) :: enumFrom (n + 1) (ps.map posting_to_text) from rfl]
    rw [List.foldl_cons]
    rw [parseLine_posting st n p hl txn2 (hv p (List.mem_cons_self _ _)) hcur hacct]
    rw [ih { st with current := some (hl, { txn2 with postings := txn2.postings ++ [roundPosting p] }) } (n + 1) hl { txn2 with postings := txn2.postings ++ [roundPosting p] } (fun q hq => hv q (List.mem_cons_of_mem _ hq)) rfl hacct]
    dsimp only
    rw [show (txn2.postings ++ [roundPosting p]) ++ ps.map roundPosting =
      txn2.postings ++ roundPosting p :: ps.map roundPosting from by simp]
    rw [List.map_cons]

/-- C4 (amended): rendering a transaction with transaction_to_text and
re-parsing the rendered text yields exactly one transaction carrying the
same status, payee, narration and datetime, the trimmed meta text (hence
the same embedded txn: identifier), and the same postings with account,
amount text and commodity verbatim and the remainder whitespace-normalized
— provided the datetime is one the header regex accepts in full, a
rendered status is '*' or '!', payee and narration are free of line breaks
and semicolons and consist of ASCII characters only, a payee of "*" or
"!" only occurs alongside an explicit status, a narration only occurs
alongside a payee, the meta text has no line break, and every posting has
regex-valid account, amount and commodity and a remainder free of line
breaks.  (Without these conditions the claim fails: a payee "*" with no
status is re-parsed as a status flag — see the counterexample — and a
non-ASCII payee is garbled byte-by-byte by the quoted-token loop of
take_token, see take_token_multibyte.) -/
theorem c4_render_reparse (txn : Transaction) (fmeta : Str) (hv : validTxn txn fmeta) :
    ∃ t, (parse_transactions (transaction_to_text txn fmeta)).transactions = [t]
      ∧ t.status = txn.status
      ∧ t.payee = txn.payee
      ∧ t.narration = txn.narration
      ∧ t.datetime = txn.datetime
      ∧ t.meta = some (trim fmeta)
      ∧ t.meta.bind extract_txn_id = extract_txn_id (trim fmeta)
      ∧ t.postings = txn.postings.map roundPosting := by
  obtain ⟨D, d, hhead⟩ := parseLine_header_render initState 1 txn fmeta hv rfl rfl
  refine ⟨⟨d, txn.datetime, txn.status, txn.payee, txn.narration, some (trim fmeta),
    txn.postings.map roundPosting⟩, ?_, rfl, rfl, rfl, rfl, rfl, rfl, rfl⟩
  show (parserFinal (transaction_to_text txn fmeta)).transactions = _
  unfold parserFinal
  rw [rustLines_render txn fmeta hv]
  rw [show enumFrom 1 (renderHeader txn fmeta :: txn.postings.map posting_to_text) =
    (1, renderHeader txn fmeta) :: enumFrom 2 (txn.postings.map posting_to_text) from rfl]
  rw [List.foldl_cons]
  rw [hhead]
  rw [postings_lines_fold txn.postings _ 2 1
    ⟨d, txn.datetime, txn.status, txn.payee, txn.narration, some (trim fmeta), []⟩
    hv.2.2.2.2.2.2.2.2.2 rfl rfl]
  simp [flush_transaction, flushAccount, initState]


/-- Witness for C4 at a concrete transaction: payee, narration, embedded
identifier and posting all read back. -/
theorem c4_render_reparse_witness :
    (parse_transactions (transaction_to_text wtxn (S "txn:abc"))).transactions.map
        (fun t => (t.payee, t.narration, t.meta.bind extract_txn_id, t.postings)) =
      [(some (S "a"), some (S "b"), some (S "abc"),
        [(⟨S "x:y", ⟨100, 2⟩, S "1.00", S "USD", none⟩ : Posting)])] := by
  obtain ⟨t, h1, h2, h3, h4, h5, h6, h7, h8⟩ := c4_render_reparse wtxn (S "txn:abc")
    ⟨⟨S "2026-01-15", [], by decide, Or.inl rfl⟩,
     fun c hc => Or.inl (by injection hc with h9; exact h9.symm),
     fun p hp => by injection hp with h9; rw [← h9]; decide,
     fun nr hn => by injection hn with h9; rw [← h9]; decide,
     fun p hp => by injection hp with h9; subst h9; decide,
     fun nr hn => by injection hn with h9; subst h9; decide,
     fun h9 => Option.noConfusion h9,
     fun h9 => rfl,
     by decide,
     by
       intro p hp
       rw [List.mem_singleton.mp hp]
       exact ⟨by decide, by decide, by decide, fun s hs => Option.noConfusion hs⟩⟩
  rw [h1]
  simp only [List.map_cons, List.map_nil]
  rw [h3, h4, h7, h8]
  decide

/-- C4 counterexample: a transaction whose payee is "*" and whose status
is absent renders to a header that re-parses with status '*' and no
payee, so the payee is not reproduced. -/
theorem c4_counterexample :
    (parse_transactions (transaction_to_text ⟨S "2026-01-15", S "2026-01-15", none, some (S "*"), none, none, [⟨S "x:y", ⟨100, 2⟩, S "1.00", S "USD", none⟩]⟩ (S "txn:abc"))).transactions.map
        (fun t => (t.status, t.payee)) = [(some '*', none)] := by decide

end Squirrel
